import Mathlib

/-!
# Verification of the BookMeUp duplicate-detection / merge / link-health core

This file is a shallow embedding, in Lean 4, of the algorithmic core of the
BookMeUp bookmark manager (`bookmarks/utils.py`, `bookmarks/duplicates.py`,
`bookmarks/link_health.py`, `bookmarks/models.py`), together with theorems
settling the frozen claims C1 - C10 about that code.

Modelling conventions:
* Python strings are modelled as `List Char` (`PyStr`).  Python's `str.lower`
  is modelled at the ASCII level (the inputs manipulated by the code - URLs,
  query keys, status strings - are ASCII; ASCII lowering agrees with Python
  there).
* Percent-encoding (`urllib.parse.quote_plus` / `unquote`) operates on the
  UTF-8 bytes of the string; we model UTF-8 encoding/decoding of code points
  explicitly, with `U+FFFD` replacement on invalid sequences, as CPython does.
* Python floats produced by `calculate_text_similarity` are ratios of small
  integers; they are modelled as `ℚ` and the `0.8` threshold as `4/5`.
* Django query sets are modelled as explicit lists; the implicit model
  ordering `-created_at` of `Bookmark` and the SQL string ordering used by
  `order_by('health__status')` are modelled by explicit stable sorts.
* Database ids (UUIDs in the code) are modelled as `Nat`; the Python
  falsiness test `if not primary_id` is modelled as the id `0`.
-/

set_option maxRecDepth 4000

abbrev PyStr := List Char

/-- ASCII lower-casing of one character (model of `str.lower` on the ASCII
characters that the URLs, query keys and status strings consist of). -/
def asciiLowerChar (c : Char) : Char :=
  if 'A' ≤ c ∧ c ≤ 'Z' then Char.ofNat (c.toNat + 32) else c

/-- `str.lower` on a whole string. -/
def asciiLower (s : PyStr) : PyStr := s.map asciiLowerChar

/-- The whitespace characters recognised by Python's `str.split()` /
`str.strip()` (ASCII fragment). -/
def pyIsSpace (c : Char) : Bool :=
  c = ' ' ∨ c = '\t' ∨ c = '\n' ∨ c = '\x0d' ∨ c = '\x0b' ∨ c = '\x0c'

/-- `str.split()` with no argument: split on runs of whitespace, discarding
empty fields. -/
def pySplitWs (s : PyStr) : List PyStr :=
  ((s.splitOnP (fun c => pyIsSpace c)).filter (fun w => w ≠ []))

/-- `' '.join(s.split())`: collapse internal whitespace runs to single spaces
and strip the ends. -/
def wsCollapse (s : PyStr) : PyStr :=
  List.intercalate ([' ']) (pySplitWs s)

/-- `str.strip()` (whitespace at both ends). -/
def pyStrip (s : PyStr) : PyStr :=
  ((s.dropWhile (fun c => pyIsSpace c)).reverse.dropWhile (fun c => pyIsSpace c)).reverse

/-- The 3-character slice `text[i:i+3]`. -/
def slice3 (s : PyStr) (i : Nat) : PyStr := (s.drop i).take 3

/-- `get_trigrams` from `calculate_text_similarity` (utils.py): the set of all
overlapping 3-character substrings of `text.strip()`; empty when the stripped
text is shorter than 3 characters. -/
def getTrigrams (s : PyStr) : Finset PyStr :=
  let t := pyStrip s
  if t.length < 3 then ∅
  else ((List.range (t.length - 2)).map (fun i => slice3 t i)).toFinset

/-- `calculate_text_similarity` (utils.py lines 261-290): trigram Jaccard
similarity of the lower-cased, whitespace-collapsed inputs. -/
def calculateTextSimilarity (text1 text2 : PyStr) : ℚ :=
  if text1 = [] ∨ text2 = [] then 0
  else
    let t1 := wsCollapse (asciiLower text1)
    let t2 := wsCollapse (asciiLower text2)
    let g1 := getTrigrams t1
    let g2 := getTrigrams t2
    if g1 = ∅ ∨ g2 = ∅ then 0
    else
      let inter := (g1 ∩ g2).card
      let union := (g1 ∪ g2).card
      if 0 < union then (inter : ℚ) / (union : ℚ) else 0

/-! ## Basic facts about `calculate_text_similarity` -/

theorem getTrigrams_nil : getTrigrams ([] : PyStr) = ∅ := by decide

theorem wsCollapse_nil : wsCollapse ([] : PyStr) = [] := by decide

theorem asciiLower_nil : asciiLower ([] : PyStr) = [] := rfl

/-- The similarity score is symmetric. -/
theorem calculateTextSimilarity_comm (a b : PyStr) :
    calculateTextSimilarity a b = calculateTextSimilarity b a := by
  unfold calculateTextSimilarity
  by_cases ha : a = []
  · simp [ha]
  · by_cases hb : b = []
    · simp [hb]
    · simp only [ha, hb, or_self, if_false, false_or, or_false]
      by_cases hg1 : getTrigrams (wsCollapse (asciiLower a)) = ∅
      · simp [hg1]
      · by_cases hg2 : getTrigrams (wsCollapse (asciiLower b)) = ∅
        · simp [hg2]
        · simp only [hg1, hg2, or_self, if_false, false_or, or_false]
          rw [Finset.inter_comm, Finset.union_comm]

/-- The similarity score lies in `[0, 1]`. -/
theorem calculateTextSimilarity_mem_unit (a b : PyStr) :
    0 ≤ calculateTextSimilarity a b ∧ calculateTextSimilarity a b ≤ 1 := by
  unfold calculateTextSimilarity
  by_cases h0 : a = [] ∨ b = []
  · simp [h0]
  · simp only [h0, if_false]
    by_cases hg : getTrigrams (wsCollapse (asciiLower a)) = ∅ ∨
        getTrigrams (wsCollapse (asciiLower b)) = ∅
    · simp [hg]
    · simp only [hg, if_false]
      by_cases hu : 0 < (getTrigrams (wsCollapse (asciiLower a)) ∪
          getTrigrams (wsCollapse (asciiLower b))).card
      · simp only [hu, if_true]
        constructor
        · positivity
        · rw [div_le_one (by exact_mod_cast hu)]
          exact_mod_cast Finset.card_le_card (Finset.inter_subset_union)
      · simp [hu]

/-- Similarity of a string with itself is `1` as soon as its trigram set is
nonempty. -/
theorem calculateTextSimilarity_self (s : PyStr)
    (h : getTrigrams (wsCollapse (asciiLower s)) ≠ ∅) :
    calculateTextSimilarity s s = 1 := by
  have hs : s ≠ [] := by
    intro hnil
    apply h
    rw [hnil, asciiLower_nil, wsCollapse_nil, getTrigrams_nil]
  have hcard : 0 < (getTrigrams (wsCollapse (asciiLower s))).card :=
    Finset.card_pos.mpr (Finset.nonempty_iff_ne_empty.mpr h)
  unfold calculateTextSimilarity
  simp only [hs, h, or_self, if_false, Finset.inter_self, Finset.union_self,
    hcard, if_true]
  rw [div_self]
  exact_mod_cast Nat.pos_iff_ne_zero.mp hcard

/-- Similarity is `0` when either input is empty or either trigram set is
empty. -/
theorem calculateTextSimilarity_zero (a b : PyStr)
    (h : a = [] ∨ b = [] ∨ getTrigrams (wsCollapse (asciiLower a)) = ∅ ∨
      getTrigrams (wsCollapse (asciiLower b)) = ∅) :
    calculateTextSimilarity a b = 0 := by
  unfold calculateTextSimilarity
  by_cases h0 : a = [] ∨ b = []
  · simp [h0]
  · simp only [h0, if_false]
    have hg : getTrigrams (wsCollapse (asciiLower a)) = ∅ ∨
        getTrigrams (wsCollapse (asciiLower b)) = ∅ := by
      rcases h with h | h | h | h
      · exact absurd (Or.inl h) h0
      · exact absurd (Or.inr h) h0
      · exact Or.inl h
      · exact Or.inr h
    simp [hg]

/-- C6 (counterexample): the claim "similarity(s, s) = 1.0 for every non-empty
string s of length ≥ 3" fails at the concrete input `s = "   "` (three
spaces): the whitespace-collapsed form is empty, so the similarity is `0`. -/
theorem claim_C6_counterexample :
    ("   ".toList : PyStr) ≠ [] ∧ 3 ≤ ("   ".toList : PyStr).length ∧
      calculateTextSimilarity ("   ".toList) ("   ".toList) ≠ 1 := by
  refine ⟨by decide, by decide, ?_⟩
  have h0 : calculateTextSimilarity ("   ".toList) ("   ".toList) = 0 :=
    calculateTextSimilarity_zero _ _ (Or.inr (Or.inr (Or.inl (by decide))))
  rw [h0]
  norm_num

/-- C6 (amended): `calculate_text_similarity` returns a value in `[0,1]` for
all inputs, is symmetric, returns `1` for `similarity(s, s)` for every string
`s` whose lower-cased whitespace-collapsed form still has a nonempty trigram
set (in particular every `s` without leading/trailing/double whitespace of
length ≥ 3 - but not for e.g. all-whitespace strings), and returns `0`
whenever either input is empty or either input's trigram set is empty. -/
theorem claim_C6 :
    (∀ a b : PyStr, 0 ≤ calculateTextSimilarity a b ∧
        calculateTextSimilarity a b ≤ 1) ∧
    (∀ a b : PyStr, calculateTextSimilarity a b = calculateTextSimilarity b a) ∧
    (∀ s : PyStr, getTrigrams (wsCollapse (asciiLower s)) ≠ ∅ →
        calculateTextSimilarity s s = 1) ∧
    (∀ a b : PyStr,
        (a = [] ∨ b = [] ∨ getTrigrams (wsCollapse (asciiLower a)) = ∅ ∨
          getTrigrams (wsCollapse (asciiLower b)) = ∅) →
        calculateTextSimilarity a b = 0) :=
  ⟨calculateTextSimilarity_mem_unit, calculateTextSimilarity_comm,
    calculateTextSimilarity_self, calculateTextSimilarity_zero⟩

/-- C6 (witness): the amended reflexivity and zero clauses hold at concrete
inputs. -/
theorem claim_C6_witness :
    calculateTextSimilarity ("Rust".toList) ("Rust".toList) = 1 ∧
      calculateTextSimilarity ([] : PyStr) ("Rust".toList) = 0 :=
  ⟨claim_C6.2.2.1 ("Rust".toList) (by decide),
    claim_C6.2.2.2 ([] : PyStr) ("Rust".toList) (Or.inl rfl)⟩

/-! ## Percent-encoding (`urllib.parse.quote_plus` / `unquote_plus`)

CPython's `quote` percent-encodes the UTF-8 bytes of the string and its
`unquote` decodes maximal runs of `%XX` escapes as UTF-8 with `errors =
'replace'`.  We model UTF-8 encoding/decoding of code points explicitly. -/

/-- UTF-8 encoding of a code point, as a list of byte values. -/
def utf8Enc (n : Nat) : List Nat :=
  if n < 0x80 then [n]
  else if n < 0x800 then [0xC0 + n / 64, 0x80 + n % 64]
  else if n < 0x10000 then
    [0xE0 + n / 4096, 0x80 + n / 64 % 64, 0x80 + n % 64]
  else
    [0xF0 + n / 262144, 0x80 + n / 4096 % 64, 0x80 + n / 64 % 64, 0x80 + n % 64]

/-- The replacement character `U+FFFD` used by `errors='replace'`. -/
def uRepl : Char := Char.ofNat 0xFFFD

/-- A UTF-8 continuation byte. -/
def isCont (b : Nat) : Bool := 0x80 ≤ b ∧ b ≤ 0xBF

/-- UTF-8 decoding with replacement of invalid sequences (the
`bytes.decode('utf-8', errors='replace')` used inside `unquote`).  Invalid
input resumes at the byte that failed, following the WHATWG policy CPython
implements. -/
def utf8DecodeReplace : List Nat → PyStr
  | [] => []
  | b0 :: bs =>
    if b0 < 0x80 then Char.ofNat b0 :: utf8DecodeReplace bs
    else if b0 < 0xC2 then uRepl :: utf8DecodeReplace bs
    else if b0 ≤ 0xDF then
      match bs with
      | [] => [uRepl]
      | b1 :: bs1 =>
        if isCont b1 then
          Char.ofNat ((b0 - 0xC0) * 64 + (b1 - 0x80)) :: utf8DecodeReplace bs1
        else uRepl :: utf8DecodeReplace (b1 :: bs1)
    else if b0 ≤ 0xEF then
      match bs with
      | [] => [uRepl]
      | b1 :: bs1 =>
        if isCont b1 ∧ (b0 ≠ 0xE0 ∨ 0xA0 ≤ b1) ∧ (b0 ≠ 0xED ∨ b1 ≤ 0x9F) then
          match bs1 with
          | [] => [uRepl]
          | b2 :: bs2 =>
            if isCont b2 then
              Char.ofNat ((b0 - 0xE0) * 4096 + (b1 - 0x80) * 64 + (b2 - 0x80)) ::
                utf8DecodeReplace bs2
            else uRepl :: utf8DecodeReplace (b2 :: bs2)
        else uRepl :: utf8DecodeReplace (b1 :: bs1)
    else if b0 ≤ 0xF4 then
      match bs with
      | [] => [uRepl]
      | b1 :: bs1 =>
        if isCont b1 ∧ (b0 ≠ 0xF0 ∨ 0x90 ≤ b1) ∧ (b0 ≠ 0xF4 ∨ b1 ≤ 0x8F) then
          match bs1 with
          | [] => [uRepl]
          | b2 :: bs2 =>
            if isCont b2 then
              match bs2 with
              | [] => [uRepl]
              | b3 :: bs3 =>
                if isCont b3 then
                  Char.ofNat ((b0 - 0xF0) * 262144 + (b1 - 0x80) * 4096 +
                      (b2 - 0x80) * 64 + (b3 - 0x80)) :: utf8DecodeReplace bs3
                else uRepl :: utf8DecodeReplace (b3 :: bs3)
            else uRepl :: utf8DecodeReplace (b2 :: bs2)
        else uRepl :: utf8DecodeReplace (b1 :: bs1)
    else uRepl :: utf8DecodeReplace bs

/-- The characters CPython's `quote` never escapes (`_ALWAYS_SAFE`). -/
def isAlwaysSafe (c : Char) : Bool :=
  ('A' ≤ c ∧ c ≤ 'Z') ∨ ('a' ≤ c ∧ c ≤ 'z') ∨ ('0' ≤ c ∧ c ≤ '9') ∨
    c = '_' ∨ c = '.' ∨ c = '-' ∨ c = '~'

/-- Upper-case hex digit of a value `< 16`. -/
def hexDigitUpper (n : Nat) : Char :=
  if n < 10 then Char.ofNat ('0'.toNat + n) else Char.ofNat ('A'.toNat + n - 10)

/-- `%XX` escape of one byte. -/
def pctByte (b : Nat) : PyStr := ['%', hexDigitUpper (b / 16), hexDigitUpper (b % 16)]

/-- `quote_plus` on one character: safe characters pass through, the space
becomes `+`, everything else is percent-encoded bytewise (UTF-8). -/
def quotePlusChar (c : Char) : PyStr :=
  if isAlwaysSafe c then [c]
  else if c = ' ' then ['+']
  else (utf8Enc c.toNat).flatMap pctByte

/-- `urllib.parse.quote_plus` with `safe=''` (as used by `urlencode`). -/
def quotePlus (s : PyStr) : PyStr := s.flatMap quotePlusChar

/-- Value of a hex digit character, if any (both cases accepted, as in
CPython's `_hextobyte` table). -/
def hexVal (c : Char) : Option Nat :=
  if '0' ≤ c ∧ c ≤ '9' then some (c.toNat - '0'.toNat)
  else if 'a' ≤ c ∧ c ≤ 'f' then some (c.toNat - 'a'.toNat + 10)
  else if 'A' ≤ c ∧ c ≤ 'F' then some (c.toNat - 'A'.toNat + 10)
  else none

/-- Grab the maximal leading run of `%XX` escapes, returning the decoded
bytes and the remaining characters. -/
def grabPct : PyStr → (List Nat × PyStr)
  | c :: h1 :: h2 :: rest =>
    if c = '%' then
      match hexVal h1, hexVal h2 with
      | some a, some b =>
        let pr := grabPct rest
        ((a * 16 + b) :: pr.1, pr.2)
      | _, _ => ([], c :: h1 :: h2 :: rest)
    else ([], c :: h1 :: h2 :: rest)
  | s => ([], s)

/-- Each byte consumes exactly three characters of the input. -/
theorem grabPct_length (s : PyStr) :
    (grabPct s).2.length + 3 * (grabPct s).1.length = s.length := by
  induction s using grabPct.induct with
  | case1 h1 h2 rest a b hh2 hh1 ih =>
    simp [grabPct, hh1, hh2]
    omega
  | case2 h1 h2 rest hnab =>
    cases hh1 : hexVal h1 with
    | none => simp [grabPct, hh1]
    | some a =>
      cases hh2 : hexVal h2 with
      | none => simp [grabPct, hh1, hh2]
      | some b => exact (hnab a b hh1 hh2).elim
  | case3 c h1 h2 rest hc => simp [grabPct, hc]
  | case4 s hs => simp [grabPct, hs]

/-- `grabPct` on a string not starting with a decodable escape. -/
theorem grabPct_not_pct (c : Char) (rest : PyStr) (hc : c ≠ '%') :
    grabPct (c :: rest) = ([], c :: rest) := by
  match rest with
  | [] => rfl
  | [h1] => rfl
  | h1 :: h2 :: t => simp [grabPct, hc]

/-- If no escape run was grabbed, the input is returned unchanged. -/
theorem grabPct_nil_snd (s : PyStr) (h : (grabPct s).1 = []) :
    (grabPct s).2 = s := by
  induction s using grabPct.induct with
  | case1 h1 h2 rest a b hh2 hh1 ih => simp_all [grabPct, hh1, hh2]
  | case2 h1 h2 rest hnab =>
    cases hh1 : hexVal h1 with
    | none => simp [grabPct, hh1]
    | some a =>
      cases hh2 : hexVal h2 with
      | none => simp [grabPct, hh1, hh2]
      | some b => exact (hnab a b hh1 hh2).elim
  | case3 c h1 h2 rest hc => simp [grabPct, hc]
  | case4 s hs => simp [grabPct, hs]

/-- `unquote` with UTF-8/replace semantics: maximal `%XX` runs are decoded
as byte strings, everything else passes through.  The `while`-style scan is
written with a fuel argument (structural recursion, so that the kernel can
evaluate it); `pyUnquote` supplies `s.length` fuel, which is always enough
because each step consumes at least one character. -/
def pyUnquoteLoop : Nat → PyStr → PyStr
  | _, [] => []
  | 0, s => s
  | fuel + 1, c :: rest =>
    if c = '%' then
      if (grabPct (c :: rest)).1 = [] then '%' :: pyUnquoteLoop fuel rest
      else utf8DecodeReplace (grabPct (c :: rest)).1 ++
        pyUnquoteLoop fuel (grabPct (c :: rest)).2
    else c :: pyUnquoteLoop fuel rest

def pyUnquote (s : PyStr) : PyStr := pyUnquoteLoop s.length s

theorem pyUnquoteLoop_fuel (fuel : Nat) : ∀ (fuel' : Nat) (s : PyStr),
    s.length ≤ fuel → s.length ≤ fuel' →
    pyUnquoteLoop fuel s = pyUnquoteLoop fuel' s := by
  induction fuel with
  | zero =>
    intro fuel' s h _
    have : s = [] := List.length_eq_zero.mp (Nat.le_zero.mp h)
    subst this
    cases fuel' <;> rfl
  | succ fuel ih =>
    intro fuel' s h h'
    match s with
    | [] => cases fuel' <;> rfl
    | c :: rest =>
      match fuel' with
      | 0 => exact absurd h' (by simp)
      | fuel' + 1 =>
        simp only [List.length_cons, Nat.succ_le_succ_iff] at h h'
        show pyUnquoteLoop (fuel + 1) (c :: rest) =
          pyUnquoteLoop (fuel' + 1) (c :: rest)
        rw [pyUnquoteLoop.eq_def, pyUnquoteLoop.eq_def]
        dsimp only
        by_cases hc : c = '%'
        · rw [if_pos hc, if_pos hc]
          by_cases hrun : (grabPct (c :: rest)).1 = []
          · rw [if_pos hrun, if_pos hrun, ih fuel' rest h h']
          · rw [if_neg hrun, if_neg hrun]
            have hl := grabPct_length (c :: rest)
            have hrunlen : 1 ≤ (grabPct (c :: rest)).1.length :=
              List.length_pos.mpr hrun
            simp only [List.length_cons] at hl
            rw [ih fuel' _ (by omega) (by omega)]
        · rw [if_neg hc, if_neg hc, ih fuel' rest h h']

theorem pyUnquote_nil : pyUnquote ([] : PyStr) = [] := rfl

theorem pyUnquote_cons_ne (c : Char) (rest : PyStr) (hc : c ≠ '%') :
    pyUnquote (c :: rest) = c :: pyUnquote rest := by
  show pyUnquoteLoop (c :: rest).length (c :: rest) = _
  rw [List.length_cons, pyUnquoteLoop.eq_def]
  dsimp only
  rw [if_neg hc]
  rfl

/-- `+` → space replacement done first by `unquote_plus`. -/
def plusToSpace (c : Char) : Char := if c = '+' then ' ' else c

/-- `urllib.parse.unquote_plus`. -/
def pyUnquotePlus (s : PyStr) : PyStr := pyUnquote (s.map plusToSpace)

/-- `unquote` always decodes the maximal leading escape run and recurses on
the remainder. -/
theorem pyUnquote_grab (s : PyStr) :
    pyUnquote s = utf8DecodeReplace (grabPct s).1 ++ pyUnquote (grabPct s).2 := by
  match s with
  | [] => rfl
  | c :: rest =>
    by_cases hc : c = '%'
    · subst hc
      by_cases h : (grabPct ('%' :: rest)).1 = []
      · rw [grabPct_nil_snd _ h, h]
        simp [utf8DecodeReplace]
      · show pyUnquoteLoop ('%' :: rest).length ('%' :: rest) = _
        rw [List.length_cons, pyUnquoteLoop.eq_def]
        dsimp only
        rw [if_pos rfl, if_neg h]
        congr 1
        have hl := grabPct_length ('%' :: rest)
        have hrunlen : 1 ≤ (grabPct ('%' :: rest)).1.length :=
          List.length_pos.mpr h
        simp only [List.length_cons] at hl
        exact pyUnquoteLoop_fuel rest.length _ _ (by omega) (by omega)
    · rw [grabPct_not_pct c rest hc]
      simp [utf8DecodeReplace, pyUnquote_cons_ne c rest hc]

/-- Decoding an encoded code point consumes exactly that code point. -/
theorem utf8DecodeReplace_enc (c : Char) (bs : List Nat) :
    utf8DecodeReplace (utf8Enc c.toNat ++ bs) = c :: utf8DecodeReplace bs := by
  have hv : Nat.isValidChar c.toNat := c.valid
  have hnv : c.toNat < 0xd800 ∨ (0xe000 ≤ c.toNat ∧ c.toNat < 0x110000) := hv
  have hofn : Char.ofNat c.toNat = c := Char.ofNat_toNat c
  set n := c.toNat with hn
  by_cases h1 : n < 0x80
  · unfold utf8Enc
    rw [if_pos h1, List.singleton_append]
    rw [utf8DecodeReplace.eq_def]
    dsimp only
    rw [if_pos h1, hofn]
  · by_cases h2 : n < 0x800
    · unfold utf8Enc
      rw [if_neg h1, if_pos h2]
      simp only [List.cons_append, List.nil_append]
      rw [utf8DecodeReplace.eq_def]
      dsimp only
      rw [if_neg (show ¬(0xC0 + n / 64 < 0x80) by omega),
        if_neg (show ¬(0xC0 + n / 64 < 0xC2) by omega),
        if_pos (show 0xC0 + n / 64 ≤ 0xDF by omega),
        if_pos (show (isCont (0x80 + n % 64) : Prop) by simp [isCont]; omega)]
      have harith : (0xC0 + n / 64 - 0xC0) * 64 + (0x80 + n % 64 - 0x80) = n := by
        omega
      rw [harith, hofn]
    · by_cases h3 : n < 0x10000
      · unfold utf8Enc
        rw [if_neg h1, if_neg h2, if_pos h3]
        simp only [List.cons_append, List.nil_append]
        rw [utf8DecodeReplace.eq_def]
        dsimp only
        rw [if_neg (show ¬(0xE0 + n / 4096 < 0x80) by omega),
          if_neg (show ¬(0xE0 + n / 4096 < 0xC2) by omega),
          if_neg (show ¬(0xE0 + n / 4096 ≤ 0xDF) by omega),
          if_pos (show 0xE0 + n / 4096 ≤ 0xEF by omega),
          if_pos (show (isCont (0x80 + n / 64 % 64) : Prop) ∧
              (0xE0 + n / 4096 ≠ 0xE0 ∨ 0xA0 ≤ 0x80 + n / 64 % 64) ∧
              (0xE0 + n / 4096 ≠ 0xED ∨ 0x80 + n / 64 % 64 ≤ 0x9F) by
            refine ⟨by simp [isCont]; omega, by omega, by omega⟩),
          if_pos (show (isCont (0x80 + n % 64) : Prop) by simp [isCont]; omega)]
        have harith : (0xE0 + n / 4096 - 0xE0) * 4096 +
            (0x80 + n / 64 % 64 - 0x80) * 64 + (0x80 + n % 64 - 0x80) = n := by
          omega
        rw [harith, hofn]
      · unfold utf8Enc
        rw [if_neg h1, if_neg h2, if_neg h3]
        simp only [List.cons_append, List.nil_append]
        rw [utf8DecodeReplace.eq_def]
        dsimp only
        rw [if_neg (show ¬(0xF0 + n / 262144 < 0x80) by omega),
          if_neg (show ¬(0xF0 + n / 262144 < 0xC2) by omega),
          if_neg (show ¬(0xF0 + n / 262144 ≤ 0xDF) by omega),
          if_neg (show ¬(0xF0 + n / 262144 ≤ 0xEF) by omega),
          if_pos (show 0xF0 + n / 262144 ≤ 0xF4 by omega),
          if_pos (show (isCont (0x80 + n / 4096 % 64) : Prop) ∧
              (0xF0 + n / 262144 ≠ 0xF0 ∨ 0x90 ≤ 0x80 + n / 4096 % 64) ∧
              (0xF0 + n / 262144 ≠ 0xF4 ∨ 0x80 + n / 4096 % 64 ≤ 0x8F) by
            refine ⟨by simp [isCont]; omega, by omega, by omega⟩),
          if_pos (show (isCont (0x80 + n / 64 % 64) : Prop) by simp [isCont]; omega),
          if_pos (show (isCont (0x80 + n % 64) : Prop) by simp [isCont]; omega)]
        have harith : (0xF0 + n / 262144 - 0xF0) * 262144 +
            (0x80 + n / 4096 % 64 - 0x80) * 4096 +
            (0x80 + n / 64 % 64 - 0x80) * 64 + (0x80 + n % 64 - 0x80) = n := by
          omega
        rw [harith, hofn]

theorem hexVal_hexDigitUpper (n : Nat) (h : n < 16) :
    hexVal (hexDigitUpper n) = some n := by
  interval_cases n <;> decide

theorem hexDigitUpper_safe (n : Nat) (h : n < 16) :
    isAlwaysSafe (hexDigitUpper n) := by
  interval_cases n <;> decide

theorem utf8Enc_lt_256 (n : Nat) (hn : n < 0x110000) :
    ∀ b ∈ utf8Enc n, b < 256 := by
  unfold utf8Enc
  split_ifs <;> simp_all <;> omega

theorem char_toNat_lt (c : Char) : c.toNat < 0x110000 := by
  have hv : Nat.isValidChar c.toNat := c.valid
  rcases hv with h | ⟨h1, h2⟩ <;> omega

theorem grabPct_pctByte (b : Nat) (hb : b < 256) (t : PyStr) :
    grabPct (pctByte b ++ t) = (b :: (grabPct t).1, (grabPct t).2) := by
  have h1 : hexVal (hexDigitUpper (b / 16)) = some (b / 16) :=
    hexVal_hexDigitUpper _ (by omega)
  have h2 : hexVal (hexDigitUpper (b % 16)) = some (b % 16) :=
    hexVal_hexDigitUpper _ (by omega)
  show grabPct ('%' :: hexDigitUpper (b / 16) :: hexDigitUpper (b % 16) :: t) = _
  rw [grabPct.eq_def]
  dsimp only
  rw [h1, h2]
  dsimp only
  have harith : b / 16 * 16 + b % 16 = b := by omega
  rw [harith]
  simp

theorem grabPct_encRun (bsl : List Nat) (hb : ∀ b ∈ bsl, b < 256) (t : PyStr) :
    grabPct (bsl.flatMap pctByte ++ t) = (bsl ++ (grabPct t).1, (grabPct t).2) := by
  induction bsl with
  | nil => simp
  | cons b rest ih =>
    simp only [List.flatMap_cons, List.append_assoc]
    rw [grabPct_pctByte b (hb b (by simp)) _,
      ih (fun x hx => hb x (by simp [hx]))]
    simp

/-- Every character emitted by `quote_plus` is safe, `+` or `%`. -/
theorem quotePlus_chars (s : PyStr) :
    ∀ d ∈ quotePlus s, isAlwaysSafe d ∨ d = '+' ∨ d = '%' := by
  intro d hd
  simp only [quotePlus, List.mem_flatMap] at hd
  obtain ⟨c, _, hdc⟩ := hd
  unfold quotePlusChar at hdc
  split_ifs at hdc with hsafe hsp
  · simp at hdc
    subst hdc
    exact Or.inl hsafe
  · simp at hdc
    subst hdc
    exact Or.inr (Or.inl rfl)
  · simp only [List.mem_flatMap] at hdc
    obtain ⟨b, hb, hdb⟩ := hdc
    have hb256 : b < 256 := utf8Enc_lt_256 _ (char_toNat_lt c) b hb
    unfold pctByte at hdb
    simp only [List.mem_cons, List.not_mem_nil, or_false] at hdb
    rcases hdb with h | h | h
    · exact Or.inr (Or.inr h)
    · subst h
      exact Or.inl (hexDigitUpper_safe _ (by omega))
    · subst h
      exact Or.inl (hexDigitUpper_safe _ (by omega))

/-- `quote_plus` output after the `+` → space replacement of `unquote_plus`:
safe characters and percent runs are untouched, `+` becomes a space. -/
def qpSpaced (c : Char) : PyStr :=
  if isAlwaysSafe c then [c]
  else if c = ' ' then [' ']
  else (utf8Enc c.toNat).flatMap pctByte

theorem isAlwaysSafe_ne_plus (c : Char) (h : isAlwaysSafe c) : c ≠ '+' := by
  intro heq
  subst heq
  revert h
  decide

theorem map_plusToSpace_id (l : PyStr) (h : ∀ d ∈ l, d ≠ '+') :
    l.map plusToSpace = l := by
  induction l with
  | nil => rfl
  | cons d t ih =>
    simp only [List.map_cons, List.cons.injEq]
    exact ⟨by simp [plusToSpace, h d (by simp)],
      ih (fun x hx => h x (by simp [hx]))⟩

theorem quotePlusChar_map (c : Char) :
    (quotePlusChar c).map plusToSpace = qpSpaced c := by
  unfold quotePlusChar qpSpaced
  split_ifs with hsafe hsp
  · simp [plusToSpace, isAlwaysSafe_ne_plus c hsafe]
  · simp [plusToSpace]
  · apply map_plusToSpace_id
    intro d hd
    simp only [List.mem_flatMap] at hd
    obtain ⟨b, hb, hdb⟩ := hd
    have hb256 : b < 256 := utf8Enc_lt_256 _ (char_toNat_lt c) b hb
    unfold pctByte at hdb
    simp only [List.mem_cons, List.not_mem_nil, or_false] at hdb
    rcases hdb with h | h | h
    · subst h; decide
    · subst h
      exact isAlwaysSafe_ne_plus _ (hexDigitUpper_safe _ (by omega))
    · subst h
      exact isAlwaysSafe_ne_plus _ (hexDigitUpper_safe _ (by omega))

theorem quotePlus_map (s : PyStr) :
    (quotePlus s).map plusToSpace = s.flatMap qpSpaced := by
  unfold quotePlus
  rw [List.map_flatMap]
  simp only [quotePlusChar_map]

theorem pyUnquote_flatMap_qpSpaced (s : PyStr) :
    pyUnquote (s.flatMap qpSpaced) = s := by
  induction s with
  | nil => exact pyUnquote_nil
  | cons c s' ih =>
    by_cases hsafe : isAlwaysSafe c
    · have hq : qpSpaced c = [c] := by simp [qpSpaced, hsafe]
      have hc : c ≠ '%' := by
        intro h
        subst h
        revert hsafe
        decide
      simp only [List.flatMap_cons, hq, List.singleton_append]
      rw [pyUnquote_cons_ne c _ hc, ih]
    · by_cases hsp : c = ' '
      · have hq : qpSpaced c = [' '] := by simp [qpSpaced, hsafe, hsp]
        simp only [List.flatMap_cons, hq, List.singleton_append]
        subst hsp
        rw [pyUnquote_cons_ne _ _ (by decide), ih]
      · have hq : qpSpaced c = (utf8Enc c.toNat).flatMap pctByte := by
          simp [qpSpaced, hsafe, hsp]
        simp only [List.flatMap_cons, hq]
        rw [pyUnquote_grab,
          grabPct_encRun _ (utf8Enc_lt_256 _ (char_toNat_lt c)),
          utf8DecodeReplace_enc]
        simp only [List.cons_append, List.cons.injEq, true_and]
        rw [← pyUnquote_grab, ih]

/-- Round trip: `unquote_plus (quote_plus s) = s`. -/
theorem pyUnquotePlus_quotePlus (s : PyStr) : pyUnquotePlus (quotePlus s) = s := by
  unfold pyUnquotePlus
  rw [quotePlus_map, pyUnquote_flatMap_qpSpaced]

theorem quotePlusChar_ne_nil (c : Char) : quotePlusChar c ≠ [] := by
  unfold quotePlusChar
  split_ifs with hsafe hsp
  · simp
  · simp
  · have : utf8Enc c.toNat ≠ [] := by
      unfold utf8Enc
      split_ifs <;> simp
    match he : utf8Enc c.toNat with
    | [] => exact absurd he this
    | b :: bs => simp [pctByte]

theorem quotePlus_ne_nil (s : PyStr) (h : s ≠ []) : quotePlus s ≠ [] := by
  match s with
  | c :: t =>
    unfold quotePlus
    simp only [List.flatMap_cons]
    intro happ
    exact quotePlusChar_ne_nil c (List.append_eq_nil.mp happ).1

/-! ## `urllib.parse.parse_qs` and `urlencode` -/

/-- `s.split(sep, 1)`: split at the first occurrence of `sep`, if any. -/
def breakAtChar (sep : Char) : PyStr → Option (PyStr × PyStr)
  | [] => none
  | c :: t =>
    if c = sep then some ([], t)
    else (breakAtChar sep t).map (fun p => (c :: p.1, p.2))

/-- Processing of one `name=value` field of a query string by `parse_qsl`
(defaults `keep_blank_values=False`, `strict_parsing=False`): empty fields,
fields without `=` and fields with an empty raw value are skipped; names and
values are `unquote_plus`-decoded. -/
def qslField (nv : PyStr) : List (PyStr × PyStr) :=
  if nv = [] then []
  else
    match breakAtChar '=' nv with
    | none => []
    | some (n, v) =>
      if v = [] then [] else [(pyUnquotePlus n, pyUnquotePlus v)]

/-- `parse_qsl(qs)`: split on `&` (the only separator since CPython 3.10)
and process each field. -/
def parseQsl (qs : PyStr) : List (PyStr × PyStr) :=
  (List.splitOn '&' qs).flatMap qslField

/-- Insert one parsed pair into the (insertion-ordered) dictionary, as the
`parse_qs` aggregation loop does. -/
def insertQs (d : List (PyStr × List PyStr)) (k : PyStr) (v : PyStr) :
    List (PyStr × List PyStr) :=
  match d with
  | [] => [(k, [v])]
  | (k', vs) :: rest =>
    if k' = k then (k', vs ++ [v]) :: rest else (k', vs) :: insertQs rest k v

/-- `parse_qs(qs)`: aggregate the pair list into a dict of value lists. -/
def parseQs (qs : PyStr) : List (PyStr × List PyStr) :=
  (parseQsl qs).foldl (fun d p => insertQs d p.1 p.2) []

/-- `urlencode(d, doseq=True)` over an insertion-ordered dict of value
lists, with `quote_via=quote_plus` and `safe=''`. -/
def urlencode (d : List (PyStr × List PyStr)) : PyStr :=
  List.intercalate ['&']
    (d.flatMap (fun kv => kv.2.map (fun v => quotePlus kv.1 ++ '=' :: quotePlus v)))

theorem not_mem_quotePlus (s : PyStr) (c : Char) (h1 : ¬ isAlwaysSafe c)
    (h2 : c ≠ '+') (h3 : c ≠ '%') : c ∉ quotePlus s := by
  intro hmem
  rcases quotePlus_chars s c hmem with h | h | h
  · exact h1 h
  · exact h2 h
  · exact h3 h

theorem breakAtChar_append (sep : Char) (a b : PyStr) (ha : sep ∉ a) :
    breakAtChar sep (a ++ sep :: b) = some (a, b) := by
  induction a with
  | nil => simp [breakAtChar]
  | cons c t ih =>
    have hc : c ≠ sep := fun h => ha (by simp [h])
    have ht : sep ∉ t := fun h => ha (by simp [h])
    simp [breakAtChar, hc, ih ht]

/-- The flattened (key, value) pair sequence of a dict of value lists. -/
def flatPairs (d : List (PyStr × List PyStr)) : List (PyStr × PyStr) :=
  d.flatMap (fun kv => kv.2.map (fun v => (kv.1, v)))


theorem qslField_enc (k v : PyStr) (hv : v ≠ []) :
    qslField (quotePlus k ++ '=' :: quotePlus v) = [(k, v)] := by
  unfold qslField
  rw [if_neg (by simp),
    breakAtChar_append '=' _ _
      (not_mem_quotePlus _ _ (by decide) (by decide) (by decide))]
  dsimp only
  rw [if_neg (quotePlus_ne_nil v hv), pyUnquotePlus_quotePlus,
    pyUnquotePlus_quotePlus]

theorem qslFields_enc (k : PyStr) (vs : List PyStr) (h : ∀ v ∈ vs, v ≠ []) :
    (vs.map (fun v => quotePlus k ++ '=' :: quotePlus v)).flatMap qslField =
      vs.map (fun v => (k, v)) := by
  induction vs with
  | nil => rfl
  | cons v vt ih =>
    simp only [List.map_cons, List.flatMap_cons,
      qslField_enc k v (h v (by simp)), ih (fun x hx => h x (by simp [hx]))]
    rfl

theorem parseQsl_urlencode (d : List (PyStr × List PyStr))
    (hv : ∀ kv ∈ d, ∀ v ∈ kv.2, v ≠ []) :
    parseQsl (urlencode d) = flatPairs d := by
  unfold parseQsl urlencode
  by_cases hf : d.flatMap
      (fun kv => kv.2.map (fun v => quotePlus kv.1 ++ '=' :: quotePlus v)) = []
  · rw [hf]
    simp only [List.flatMap_eq_nil_iff, List.map_eq_nil_iff] at hf
    have hfp : flatPairs d = [] := by
      simp only [flatPairs, List.flatMap_eq_nil_iff, List.map_eq_nil_iff]
      exact hf
    rw [hfp]
    decide
  · rw [show List.intercalate ['&']
        (d.flatMap (fun kv => kv.2.map (fun v => quotePlus kv.1 ++ '=' :: quotePlus v))) =
        List.intercalate ['&']
        (d.flatMap (fun kv => kv.2.map (fun v => quotePlus kv.1 ++ '=' :: quotePlus v)))
        from rfl,
      List.splitOn_intercalate _ '&' ?notin hf]
    case notin =>
      intro l hl hmem
      simp only [List.mem_flatMap, List.mem_map] at hl
      obtain ⟨kv, hkv, v, hvv, hvl⟩ := hl
      subst hvl
      rcases List.mem_append.mp hmem with h | h
      · exact not_mem_quotePlus _ '&' (by decide) (by decide) (by decide) h
      · rcases List.mem_cons.mp h with h | h
        · exact absurd h (by decide)
        · exact not_mem_quotePlus _ '&' (by decide) (by decide) (by decide) h
    clear hf
    induction d with
    | nil => rfl
    | cons kv rest ih =>
      simp only [List.flatMap_cons, List.flatMap_append, flatPairs]
      rw [qslFields_enc kv.1 kv.2 (hv kv (by simp))]
      have := ih (fun x hx v hvv => hv x (by simp [hx]) v hvv)
      unfold flatPairs at this
      rw [this]

theorem insertQs_absent (acc : List (PyStr × List PyStr)) (k : PyStr)
    (v : PyStr) (h : k ∉ acc.map Prod.fst) :
    insertQs acc k v = acc ++ [(k, [v])] := by
  induction acc with
  | nil => rfl
  | cons kv rest ih =>
    have hk : kv.1 ≠ k := by
      intro heq
      exact h (by simp [← heq])
    unfold insertQs
    rw [if_neg hk, ih (fun hm => h (by simp [hm]))]
    simp

theorem insertQs_last (acc : List (PyStr × List PyStr)) (k : PyStr)
    (vs : List PyStr) (v : PyStr) (h : k ∉ acc.map Prod.fst) :
    insertQs (acc ++ [(k, vs)]) k v = acc ++ [(k, vs ++ [v])] := by
  induction acc with
  | nil => simp [insertQs]
  | cons kv rest ih =>
    have hk : kv.1 ≠ k := by
      intro heq
      exact h (by simp [← heq])
    simp only [List.cons_append, insertQs, if_neg hk, List.append_eq]
    rw [ih (fun hm => h (by simp [hm]))]

theorem foldl_insert_group (acc : List (PyStr × List PyStr)) (k : PyStr)
    (h : k ∉ acc.map Prod.fst) (vs : List PyStr) (u : List PyStr) :
    List.foldl (fun d p => insertQs d p.1 p.2) (acc ++ [(k, u)])
      (vs.map (fun v => (k, v))) = acc ++ [(k, u ++ vs)] := by
  induction vs generalizing u with
  | nil => simp
  | cons v vt ih =>
    simp only [List.map_cons, List.foldl_cons]
    rw [insertQs_last acc k u v h, ih (u ++ [v])]
    simp

theorem foldl_insert_flatPairs (d : List (PyStr × List PyStr)) :
    ∀ acc : List (PyStr × List PyStr),
    (acc.map Prod.fst ++ d.map Prod.fst).Nodup →
    (∀ kv ∈ d, kv.2 ≠ []) →
    List.foldl (fun a p => insertQs a p.1 p.2) acc (flatPairs d) = acc ++ d := by
  induction d with
  | nil =>
    intro acc _ _
    simp [flatPairs]
  | cons kv rest ih =>
    intro acc hnd hvs
    obtain ⟨k, vs⟩ := kv
    obtain ⟨hnd1, hnd2, hdisj⟩ := List.nodup_append.mp hnd
    have hknotacc : k ∉ acc.map Prod.fst := by
      intro hm
      exact hdisj hm (by simp)
    obtain ⟨v, vt, hvseq⟩ : ∃ v vt, vs = v :: vt := by
      have := hvs (k, vs) (by simp)
      match vs with
      | v :: vt => exact ⟨v, vt, rfl⟩
    subst hvseq
    simp only [flatPairs, List.flatMap_cons, List.foldl_append, List.map_cons,
      List.foldl_cons]
    rw [insertQs_absent acc k v hknotacc,
      foldl_insert_group acc k hknotacc vt [v]]
    have hnd' : ((acc ++ [(k, [v] ++ vt)]).map Prod.fst ++
        rest.map Prod.fst).Nodup := by
      simp only [List.map_append, List.map_cons, List.map_nil]
      simp only [List.map_cons] at hnd
      have : acc.map Prod.fst ++ k :: rest.map Prod.fst =
          (acc.map Prod.fst ++ [(k, [v] ++ vt).1]) ++ rest.map Prod.fst := by
        simp
      rw [this] at hnd
      simpa using hnd
    have := ih (acc ++ [(k, [v] ++ vt)]) hnd'
      (fun x hx => hvs x (by simp [hx]))
    unfold flatPairs at this
    rw [this]
    simp

/-- Round trip: `parse_qs (urlencode d) = d` for a well-formed dict (distinct
keys, nonempty value lists, nonempty values). -/
theorem parseQs_urlencode (d : List (PyStr × List PyStr))
    (hk : (d.map Prod.fst).Nodup)
    (hvs : ∀ kv ∈ d, kv.2 ≠ [])
    (hv : ∀ kv ∈ d, ∀ v ∈ kv.2, v ≠ []) :
    parseQs (urlencode d) = d := by
  unfold parseQs
  rw [parseQsl_urlencode d hv]
  have := foldl_insert_flatPairs d [] (by simpa using hk) hvs
  simpa using this

theorem utf8DecodeReplace_ne_nil (bs : List Nat) (h : bs ≠ []) :
    utf8DecodeReplace bs ≠ [] := by
  match bs with
  | b :: t =>
    rw [utf8DecodeReplace.eq_def]
    dsimp only
    split_ifs <;> try simp
    all_goals
      cases t with
      | nil => simp
      | cons b1 t1 =>
        dsimp only
        (try split_ifs) <;> try simp
        all_goals
          cases t1 with
          | nil => simp
          | cons b2 t2 =>
            dsimp only
            (try split_ifs) <;> try simp
            all_goals
              cases t2 with
              | nil => simp
              | cons b3 t3 =>
                dsimp only
                (try split_ifs) <;> simp

theorem pyUnquote_ne_nil (s : PyStr) (h : s ≠ []) : pyUnquote s ≠ [] := by
  match s with
  | c :: rest =>
    show pyUnquoteLoop (c :: rest).length (c :: rest) ≠ []
    rw [List.length_cons, pyUnquoteLoop.eq_def]
    dsimp only
    split_ifs with hc hrun
    · simp
    · intro happ
      obtain ⟨hdec, _⟩ := List.append_eq_nil.mp happ
      exact utf8DecodeReplace_ne_nil _ hrun hdec
    · simp

theorem pyUnquotePlus_ne_nil (s : PyStr) (h : s ≠ []) : pyUnquotePlus s ≠ [] := by
  unfold pyUnquotePlus
  apply pyUnquote_ne_nil
  simp [h]

theorem parseQsl_snd_ne_nil (qs : PyStr) : ∀ p ∈ parseQsl qs, p.2 ≠ [] := by
  intro p hp
  simp only [parseQsl, List.mem_flatMap] at hp
  obtain ⟨nv, _, hpnv⟩ := hp
  unfold qslField at hpnv
  split_ifs at hpnv with hnil
  · simp at hpnv
  · match hbr : breakAtChar '=' nv with
    | none => rw [hbr] at hpnv; simp at hpnv
    | some (n, v) =>
      rw [hbr] at hpnv
      dsimp only at hpnv
      split_ifs at hpnv with hv
      · simp at hpnv
      · simp only [List.mem_singleton] at hpnv
        subst hpnv
        exact pyUnquotePlus_ne_nil v hv

theorem insertQs_keys (acc : List (PyStr × List PyStr)) (k : PyStr) (v : PyStr) :
    (insertQs acc k v).map Prod.fst =
      if k ∈ acc.map Prod.fst then acc.map Prod.fst
      else acc.map Prod.fst ++ [k] := by
  induction acc with
  | nil => simp [insertQs]
  | cons kv rest ih =>
    obtain ⟨k', vs⟩ := kv
    by_cases hk : k' = k
    · subst hk
      simp [insertQs]
    · simp only [insertQs, if_neg hk, List.map_cons, ih]
      by_cases hmem : k ∈ rest.map Prod.fst
      · simp [hmem, hk]
      · simp [hmem, hk, Ne.symm hk]

theorem insertQs_nodup (acc : List (PyStr × List PyStr)) (k : PyStr)
    (v : PyStr) (h : (acc.map Prod.fst).Nodup) :
    ((insertQs acc k v).map Prod.fst).Nodup := by
  rw [insertQs_keys]
  by_cases hmem : k ∈ acc.map Prod.fst
  · simpa [hmem] using h
  · simp only [hmem, if_false]
    exact List.Nodup.append h (List.nodup_singleton k)
      (by simp [List.disjoint_singleton, hmem])

theorem insertQs_mem (acc : List (PyStr × List PyStr)) (k : PyStr) (v : PyStr) :
    ∀ kv ∈ insertQs acc k v,
      kv ∈ acc ∨ kv = (k, [v]) ∨ ∃ kv' ∈ acc, kv = (kv'.1, kv'.2 ++ [v]) := by
  induction acc with
  | nil =>
    intro kv hkv
    simp only [insertQs, List.mem_singleton] at hkv
    exact Or.inr (Or.inl hkv)
  | cons kv0 rest ih =>
    obtain ⟨k', vs⟩ := kv0
    by_cases hk : k' = k
    · subst hk
      have hins : insertQs ((k', vs) :: rest) k' v = (k', vs ++ [v]) :: rest := by
        rw [insertQs.eq_def]
        dsimp only
        rw [if_pos rfl]
      intro kv hkv
      rw [hins] at hkv
      rcases List.mem_cons.mp hkv with heq | hmem
      · exact Or.inr (Or.inr ⟨(k', vs), by simp, by simp [heq]⟩)
      · exact Or.inl (by simp [hmem])
    · have hins : insertQs ((k', vs) :: rest) k v =
          (k', vs) :: insertQs rest k v := by
        rw [insertQs.eq_def]
        dsimp only
        rw [if_neg hk]
      intro kv hkv
      rw [hins] at hkv
      rcases List.mem_cons.mp hkv with heq | hmem
      · exact Or.inl (by simp [heq])
      · rcases ih kv hmem with h1 | h1 | ⟨kv', hkv', heq⟩
        · exact Or.inl (by simp [h1])
        · exact Or.inr (Or.inl h1)
        · exact Or.inr (Or.inr ⟨kv', by simp [hkv'], heq⟩)

theorem foldl_insert_nodup (ps : List (PyStr × PyStr)) :
    ∀ acc : List (PyStr × List PyStr), (acc.map Prod.fst).Nodup →
    ((ps.foldl (fun a p => insertQs a p.1 p.2) acc).map Prod.fst).Nodup := by
  induction ps with
  | nil => intro acc h; exact h
  | cons p pt ih =>
    intro acc h
    exact ih _ (insertQs_nodup acc p.1 p.2 h)

theorem foldl_insert_snd_ne_nil (ps : List (PyStr × PyStr)) :
    ∀ acc : List (PyStr × List PyStr), (∀ kv ∈ acc, kv.2 ≠ []) →
    ∀ kv ∈ ps.foldl (fun a p => insertQs a p.1 p.2) acc, kv.2 ≠ [] := by
  induction ps with
  | nil => intro acc h; exact h
  | cons p pt ih =>
    intro acc h
    apply ih
    intro kv hkv
    rcases insertQs_mem acc p.1 p.2 kv hkv with h' | h' | ⟨kv', _, heq⟩
    · exact h kv h'
    · simp [h']
    · simp [heq]

theorem foldl_insert_val_ne_nil (ps : List (PyStr × PyStr))
    (hps : ∀ p ∈ ps, p.2 ≠ []) :
    ∀ acc : List (PyStr × List PyStr), (∀ kv ∈ acc, ∀ v ∈ kv.2, v ≠ []) →
    ∀ kv ∈ ps.foldl (fun a p => insertQs a p.1 p.2) acc, ∀ v ∈ kv.2, v ≠ [] := by
  induction ps with
  | nil => intro acc h; exact h
  | cons p pt ih =>
    intro acc h
    apply ih (fun q hq => hps q (by simp [hq]))
    intro kv hkv
    rcases insertQs_mem acc p.1 p.2 kv hkv with h' | h' | ⟨kv', hkv', heq⟩
    · exact h kv h'
    · intro v hv
      rw [h'] at hv
      simp only [List.mem_singleton] at hv
      subst hv
      exact hps p (by simp)
    · intro v hv
      rw [heq] at hv
      simp only [List.mem_append, List.mem_singleton] at hv
      rcases hv with hv | hv
      · exact h kv' hkv' v hv
      · subst hv
        exact hps p (by simp)

/-- The dict produced by `parse_qs` is well formed: distinct keys, nonempty
value lists, nonempty values. -/
theorem parseQs_wf (qs : PyStr) :
    ((parseQs qs).map Prod.fst).Nodup ∧
    (∀ kv ∈ parseQs qs, kv.2 ≠ []) ∧
    (∀ kv ∈ parseQs qs, ∀ v ∈ kv.2, v ≠ []) := by
  refine ⟨foldl_insert_nodup _ [] (by simp),
    foldl_insert_snd_ne_nil _ [] (by simp),
    foldl_insert_val_ne_nil _ (parseQsl_snd_ne_nil qs) [] (by simp)⟩

/-! ## `urllib.parse.urlsplit` / `urlparse` / `urlunparse`

Modelled after CPython's parser: scheme extraction, authority extraction with
the "Invalid IPv6 URL" bracket check, fragment then query splitting, and the
`;params` split of the last path segment done by `urlparse`.  Version-specific
pre-cleaning of control characters (`\t\r\n` removal, C0-control lstrip) and
the non-ASCII NFKC netloc check are omitted: they only affect URLs containing
control or non-ASCII characters, which none of the claims exercise. -/

/-- `s.startswith(p)`. -/
def startsWithL (p s : PyStr) : Bool := s.take p.length = p

def isAsciiAlpha (c : Char) : Bool := ('A' ≤ c ∧ c ≤ 'Z') ∨ ('a' ≤ c ∧ c ≤ 'z')

def isAsciiDigit (c : Char) : Bool := '0' ≤ c ∧ c ≤ '9'

/-- The characters allowed in a URL scheme (`scheme_chars`). -/
def isSchemeChar (c : Char) : Bool :=
  isAsciiAlpha c ∨ isAsciiDigit c ∨ c = '+' ∨ c = '-' ∨ c = '.'

/-- Scheme extraction of `urlsplit`: the part before the first `:` must be
nonempty, start with an ASCII letter and consist of scheme characters; it is
lower-cased.  Otherwise no scheme is recognised. -/
def splitScheme (url : PyStr) : PyStr × PyStr :=
  match breakAtChar ':' url with
  | none => ([], url)
  | some ([], _) => ([], url)
  | some (c :: pre, after) =>
    if isAsciiAlpha c ∧ (c :: pre).all (fun x => isSchemeChar x)
    then (asciiLower (c :: pre), after)
    else ([], url)

/-- A character that may appear in the authority (`_splitnetloc` stops at
`/`, `?` and `#`). -/
def isNetlocChar (c : Char) : Bool := ¬(c = '/' ∨ c = '?' ∨ c = '#')

structure SplitResult where
  scheme : PyStr
  netloc : PyStr
  path : PyStr
  query : PyStr
  fragment : PyStr
  deriving DecidableEq, Repr

/-- `urlsplit`; fails (raises `ValueError("Invalid IPv6 URL")`) on a netloc
with an unmatched bracket. -/
def urlsplitE (url : PyStr) : Except Unit SplitResult :=
  let sr := splitScheme url
  let scheme := sr.1
  let rest := sr.2
  let nl :=
    if rest.take 2 = ['/', '/'] then
      ((rest.drop 2).takeWhile isNetlocChar, (rest.drop 2).dropWhile isNetlocChar)
    else ([], rest)
  let netloc := nl.1
  let rest2 := nl.2
  if ('[' ∈ netloc ∧ ']' ∉ netloc) ∨ (']' ∈ netloc ∧ '[' ∉ netloc) then
    .error ()
  else
    let fr := match breakAtChar '#' rest2 with
      | none => (rest2, [])
      | some p => p
    let qr := match breakAtChar '?' fr.1 with
      | none => (fr.1, [])
      | some p => p
    .ok ⟨scheme, netloc, qr.1, qr.2, fr.2⟩

/-- Split at the last occurrence of `sep`: `s = a ++ sep :: b` with
`sep ∉ b`. -/
def breakAtCharLast (sep : Char) (s : PyStr) : Option (PyStr × PyStr) :=
  match breakAtChar sep s.reverse with
  | none => none
  | some (a, b) => some (b.reverse, a.reverse)

/-- `_splitparams`: split `;params` off the last path segment. -/
def splitParams (url : PyStr) : PyStr × PyStr :=
  if '/' ∈ url then
    match breakAtCharLast '/' url with
    | some (before, after) =>
      match breakAtChar ';' after with
      | none => (url, [])
      | some (a, b) => (before ++ '/' :: a, b)
    | none => (url, [])
  else
    match breakAtChar ';' url with
    | none => (url, [])
    | some (a, b) => (a, b)

structure ParseResult where
  scheme : PyStr
  netloc : PyStr
  path : PyStr
  params : PyStr
  query : PyStr
  fragment : PyStr
  deriving DecidableEq, Repr

/-- `urlparse` = `urlsplit` plus the params split. -/
def urlparseE (url : PyStr) : Except Unit ParseResult :=
  (urlsplitE url).map (fun r =>
    if ';' ∈ r.path then
      let pp := splitParams r.path
      ⟨r.scheme, r.netloc, pp.1, pp.2, r.query, r.fragment⟩
    else ⟨r.scheme, r.netloc, r.path, [], r.query, r.fragment⟩)

/-- `urlunsplit`. -/
def urlunsplit (scheme netloc path query fragment : PyStr) : PyStr :=
  let url := path
  let url :=
    if netloc ≠ [] ∨ (url ≠ [] ∧ url.take 2 = ['/', '/']) then
      '/' :: '/' :: netloc ++
        (if url ≠ [] ∧ url.take 1 ≠ ['/'] then '/' :: url else url)
    else url
  let url := if scheme ≠ [] then scheme ++ ':' :: url else url
  let url := if query ≠ [] then url ++ '?' :: query else url
  if fragment ≠ [] then url ++ '#' :: fragment else url

/-- `urlunparse`. -/
def urlunparse (p : ParseResult) : PyStr :=
  urlunsplit p.scheme p.netloc
    (if p.params ≠ [] then p.path ++ ';' :: p.params else p.path)
    p.query p.fragment

/-! ## `URLEnricher.normalize_url` (utils.py lines 38-104) -/

/-- One left-to-right pass of `str.replace('//', '/')`. -/
def replacePass : PyStr → PyStr
  | c :: d :: t =>
    if c = '/' ∧ d = '/' then '/' :: replacePass t
    else c :: replacePass (d :: t)
  | s => s

/-- `'//' in path`. -/
def hasDD : PyStr → Bool
  | c :: d :: t => (c = '/' ∧ d = '/') ∨ hasDD (d :: t)
  | _ => false

theorem replacePass_length (s : PyStr) :
    (replacePass s).length ≤ s.length ∧
      (hasDD s → (replacePass s).length < s.length) := by
  induction s using replacePass.induct with
  | case1 c d t hdd ih =>
    obtain ⟨h1, h2⟩ := hdd
    subst h1
    subst h2
    have h1 := ih.1
    refine ⟨?_, fun _ => ?_⟩ <;> (simp [replacePass]; omega)
  | case2 c d t hdd ih =>
    have h1 := ih.1
    simp only [List.length_cons] at h1
    constructor
    · simp [replacePass, if_neg hdd]
      omega
    · intro hs
      have hdt : hasDD (d :: t) := by
        rcases (by simpa [hasDD] using hs : (c = '/' ∧ d = '/') ∨
            hasDD (d :: t) = true) with h | h
        · exact absurd h hdd
        · exact h
      have h2 := ih.2 hdt
      simp only [List.length_cons] at h2
      simp [replacePass, if_neg hdd]
      omega
  | case3 s hs =>
    match s, hs with
    | [], _ => simp [replacePass, hasDD]
    | [c], _ => simp [replacePass, hasDD]
    | c :: d :: t, hs => exact (hs c d t rfl).elim

/-- The `while '//' in path: path = path.replace('//', '/')` loop, written
with a fuel argument (structural recursion); `s.length` fuel always
suffices since each replacement pass strictly shortens the string. -/
def collapseLoop : Nat → PyStr → PyStr
  | 0, s => s
  | fuel + 1, s => if hasDD s then collapseLoop fuel (replacePass s) else s

def collapseSlashes (s : PyStr) : PyStr := collapseLoop s.length s

theorem collapseLoop_fuel (fuel : Nat) : ∀ (fuel' : Nat) (s : PyStr),
    s.length ≤ fuel → s.length ≤ fuel' →
    collapseLoop fuel s = collapseLoop fuel' s := by
  induction fuel with
  | zero =>
    intro fuel' s h _
    have hnil : s = [] := List.length_eq_zero.mp (Nat.le_zero.mp h)
    subst hnil
    cases fuel' with
    | zero => rfl
    | succ n => simp [collapseLoop, hasDD]
  | succ fuel ih =>
    intro fuel' s h h'
    by_cases hdd : hasDD s
    · have hlen2 : 2 ≤ s.length := by
        match s, hdd with
        | c :: d :: t, _ => simp
      match fuel' with
      | 0 => omega
      | fuel' + 1 =>
        simp only [collapseLoop, if_pos hdd]
        have hstep := (replacePass_length s).2 hdd
        exact ih fuel' (replacePass s) (by omega) (by omega)
    · cases fuel' with
      | zero =>
        have hnil : s = [] := List.length_eq_zero.mp (Nat.le_zero.mp h')
        subst hnil
        simp [collapseLoop, hasDD]
      | succ n => simp [collapseLoop, if_neg hdd]

/-- The loop characterisation of `collapseSlashes`. -/
theorem collapseSlashes_step (s : PyStr) :
    collapseSlashes s =
      if hasDD s then collapseSlashes (replacePass s) else s := by
  unfold collapseSlashes
  by_cases hdd : hasDD s
  · have hlen2 : 2 ≤ s.length := by
      match s, hdd with
      | c :: d :: t, _ => simp
    match hs : s.length, hlen2 with
    | n + 1, _ =>
      simp only [collapseLoop, if_pos hdd]
      have hstep := (replacePass_length s).2 hdd
      rw [hs] at hstep
      exact collapseLoop_fuel n _ _ (by omega) (by omega)
  · match hs : s.length with
    | 0 =>
      have hnil : s = [] := List.length_eq_zero.mp (by omega)
      subst hnil
      rfl
    | n + 1 => simp [collapseLoop, if_neg hdd]

/-- The tracking-parameter denylist of `normalize_url`. -/
def trackingParams : List PyStr :=
  [("utm_source").toList, ("utm_medium").toList, ("utm_campaign").toList,
   ("utm_term").toList, ("utm_content").toList,
   ("fbclid").toList, ("gclid").toList, ("ocid").toList, ("dclid").toList,
   ("ref").toList, ("source").toList, ("referrer").toList, ("referral").toList,
   ("_ga").toList, ("_gl").toList, ("mc_cid").toList, ("mc_eid").toList,
   ("session_id").toList, ("tracking_id").toList, ("click_id").toList,
   ("_dup").toList]

/-- Prefix the scheme when absent (the `startswith` test is case
sensitive). -/
def withScheme (u : PyStr) : PyStr :=
  if startsWithL (("http://").toList) u ∨ startsWithL (("https://").toList) u
  then u
  else ("https://").toList ++ u

/-- The domain normalisation step: lower-case, strip one leading `www.`. -/
def normDomain (netloc : PyStr) : PyStr :=
  let d := asciiLower netloc
  if startsWithL (("www.").toList) d then d.drop 4 else d

/-- The path normalisation step: collapse `//` runs, strip one trailing
slash unless the path is the root. -/
def normPath (p : PyStr) : PyStr :=
  let path := collapseSlashes p
  if path.getLast? = some '/' ∧ path ≠ ['/'] then path.dropLast else path

/-- The query normalisation step: drop denylisted keys
(case-insensitively), re-encode. -/
def normQuery (q : PyStr) : PyStr :=
  if q ≠ [] then
    urlencode ((parseQs q).filter (fun kv => asciiLower kv.1 ∉ trackingParams))
  else []

/-- Reassembly of the normalised URL. -/
def rebuildUrl (scheme domain path qs fragment : PyStr) : PyStr :=
  let normalized := scheme ++ ':' :: '/' :: '/' :: domain ++ path
  let n2 := if qs ≠ [] then normalized ++ '?' :: qs else normalized
  if fragment ≠ [] then n2 ++ '#' :: fragment else n2

/-- `URLEnricher.normalize_url`: prefix a scheme if missing, parse, normalise
domain/path/query/fragment, reassemble; on a parse failure return the
(possibly prefixed) URL unchanged. -/
def normalizeUrl (u : PyStr) : PyStr :=
  let url := withScheme u
  match urlparseE url with
  | .error _ => url
  | .ok parsed =>
    rebuildUrl parsed.scheme (normDomain parsed.netloc) (normPath parsed.path)
      (normQuery parsed.query) parsed.fragment

/-! ## Structural facts about the URL parser -/

theorem breakAtChar_none (sep : Char) (s : PyStr) (h : sep ∉ s) :
    breakAtChar sep s = none := by
  induction s with
  | nil => rfl
  | cons c t ih =>
    have hc : c ≠ sep := fun heq => h (by simp [heq])
    simp [breakAtChar, hc, ih (fun hm => h (by simp [hm]))]

theorem breakAtChar_some (sep : Char) (s : PyStr) : ∀ a b : PyStr,
    breakAtChar sep s = some (a, b) → s = a ++ sep :: b ∧ sep ∉ a := by
  induction s with
  | nil => intro a b h; simp [breakAtChar] at h
  | cons c t ih =>
    intro a b h
    by_cases hc : c = sep
    · have hstep : breakAtChar sep (c :: t) = some ([], t) := by
        simp [breakAtChar, hc]
      rw [hstep] at h
      have h' := Option.some.inj h
      have h1 : a = [] := (Prod.ext_iff.mp h').1.symm
      have h2 : b = t := (Prod.ext_iff.mp h').2.symm
      subst h1
      subst h2
      simp [hc]
    · simp only [breakAtChar, if_neg hc] at h
      match hbr : breakAtChar sep t with
      | none => rw [hbr] at h; simp at h
      | some pr =>
        rw [hbr] at h
        rw [show Option.map (fun p => (c :: p.1, p.2)) (some pr) =
          some (c :: pr.1, pr.2) from rfl] at h
        have h' := Option.some.inj h
        have h1 : a = c :: pr.1 := (Prod.ext_iff.mp h').1.symm
        have h2 : b = pr.2 := (Prod.ext_iff.mp h').2.symm
        obtain ⟨ht, hna⟩ := ih pr.1 pr.2 (by rw [hbr])
        subst h1
        subst h2
        constructor
        · simp [ht]
        · simp only [List.mem_cons, not_or]
          exact ⟨Ne.symm hc, hna⟩

theorem breakAtChar_eq_none (sep : Char) (s : PyStr)
    (h : breakAtChar sep s = none) : sep ∉ s := by
  induction s with
  | nil => simp
  | cons c t ih =>
    by_cases hc : c = sep
    · subst hc
      simp [breakAtChar] at h
    · simp only [breakAtChar, if_neg hc] at h
      have ht : breakAtChar sep t = none := by
        match hbr : breakAtChar sep t with
        | none => rfl
        | some p => rw [hbr] at h; simp at h
      simp only [List.mem_cons, not_or]
      exact ⟨Ne.symm hc, ih ht⟩

theorem breakAtChar_mem (sep : Char) (s : PyStr) (h : sep ∈ s) :
    ∃ a b, breakAtChar sep s = some (a, b) := by
  match hbr : breakAtChar sep s with
  | some (a, b) => exact ⟨a, b, rfl⟩
  | none => exact absurd h (breakAtChar_eq_none sep s hbr)

theorem char_le_toNat (c d : Char) : c ≤ d ↔ c.toNat ≤ d.toNat := by
  rw [Char.le_def]
  exact ⟨fun h => by exact_mod_cast h, fun h => by exact_mod_cast h⟩

theorem char_eq_toNat (c d : Char) : c = d ↔ c.toNat = d.toNat := by
  constructor
  · intro h
    rw [h]
  · intro h
    apply Char.eq_of_val_eq
    exact UInt32.eq_of_toBitVec_eq (by
      apply BitVec.eq_of_toNat_eq
      exact_mod_cast h)

theorem char_toNat_ofNat (n : Nat) (h : n < 0xD800) : (Char.ofNat n).toNat = n := by
  unfold Char.ofNat
  rw [dif_pos (Or.inl (by exact_mod_cast h))]
  rfl

/-- `asciiLowerChar` moves nothing to a character that is not a letter. -/
theorem asciiLowerChar_eq_iff (t : Char) (ht1 : ¬(97 ≤ t.toNat ∧ t.toNat ≤ 122))
    (ht2 : ¬(65 ≤ t.toNat ∧ t.toNat ≤ 90)) (c : Char) :
    asciiLowerChar c = t ↔ c = t := by
  have hA : ('A').toNat = 65 := by decide
  have hZ : ('Z').toNat = 90 := by decide
  unfold asciiLowerChar
  split_ifs with hup
  · have h1 := (char_le_toNat _ _).mp hup.1
    have h2 := (char_le_toNat _ _).mp hup.2
    rw [hA] at h1
    rw [hZ] at h2
    have hofn : (Char.ofNat (c.toNat + 32)).toNat = c.toNat + 32 :=
      char_toNat_ofNat _ (by omega)
    constructor
    · intro heq
      exfalso
      apply ht1
      rw [← heq, hofn]
      omega
    · intro heq
      exfalso
      apply ht2
      rw [← heq]
      omega
  · exact Iff.rfl

/-- Lower-casing preserves membership of non-letter characters. -/
theorem mem_asciiLower_iff (t : Char) (ht1 : ¬(97 ≤ t.toNat ∧ t.toNat ≤ 122))
    (ht2 : ¬(65 ≤ t.toNat ∧ t.toNat ≤ 90)) (l : PyStr) :
    t ∈ asciiLower l ↔ t ∈ l := by
  constructor
  · intro hm
    simp only [asciiLower, List.mem_map] at hm
    obtain ⟨c, hc, heq⟩ := hm
    rw [(asciiLowerChar_eq_iff t ht1 ht2 c).mp heq] at hc
    exact hc
  · intro hm
    simp only [asciiLower, List.mem_map]
    exact ⟨t, hm, (asciiLowerChar_eq_iff t ht1 ht2 t).mpr rfl⟩

/-- `asciiLower` is idempotent. -/
theorem asciiLowerChar_idem (c : Char) :
    asciiLowerChar (asciiLowerChar c) = asciiLowerChar c := by
  have hA : ('A').toNat = 65 := by decide
  have hZ : ('Z').toNat = 90 := by decide
  unfold asciiLowerChar
  split_ifs with h1 h2
  · exfalso
    have ha := (char_le_toNat _ _).mp h2.1
    have hb := (char_le_toNat _ _).mp h2.2
    have hc := (char_le_toNat _ _).mp h1.1
    have hd := (char_le_toNat _ _).mp h1.2
    rw [hA] at ha hc
    rw [hZ] at hb hd
    have hofn : (Char.ofNat (c.toNat + 32)).toNat = c.toNat + 32 :=
      char_toNat_ofNat _ (by omega)
    omega
  · rfl
  · rfl

theorem asciiLower_idem (l : PyStr) : asciiLower (asciiLower l) = asciiLower l := by
  unfold asciiLower
  rw [List.map_map]
  exact List.map_congr_left (fun c _ => asciiLowerChar_idem c)

instance instDecEqExcept {e a : Type} [DecidableEq e] [DecidableEq a] :
    DecidableEq (Except e a)
  | .error x, .error y =>
    if h : x = y then .isTrue (by rw [h])
    else .isFalse (by intro he; cases he; exact h rfl)
  | .error _, .ok _ => .isFalse (by intro he; cases he)
  | .ok _, .error _ => .isFalse (by intro he; cases he)
  | .ok x, .ok y =>
    if h : x = y then .isTrue (by rw [h])
    else .isFalse (by intro he; cases he; exact h rfl)

/-- C7 (counterexample): on the scheme-less input `"[::1"` URL parsing fails
(unbalanced bracket), but `normalize_url` returns `"https://[::1"`, not the
input unchanged: the scheme prefix is attached before the `try` block. -/
theorem claim_C7_counterexample :
    urlparseE (withScheme (("[::1").toList)) = .error () ∧
      normalizeUrl (("[::1").toList) ≠ ("[::1").toList := by
  exact ⟨by decide, by decide⟩

/-- C7 (amended): on every input whose URL parsing fails, `normalize_url`
returns the scheme-prefixed input (`'https://' + input` when the input does
not start with `http://` or `https://`) rather than raising; in particular
the input is returned unchanged exactly when it already carries an
`http://`/`https://` prefix. -/
theorem claim_C7 :
    (∀ u : PyStr, urlparseE (withScheme u) = .error () →
      normalizeUrl u = withScheme u) ∧
    (∀ u : PyStr,
      (startsWithL (("http://").toList) u ∨ startsWithL (("https://").toList) u) →
      urlparseE (withScheme u) = .error () → normalizeUrl u = u) := by
  have h1 : ∀ u : PyStr, urlparseE (withScheme u) = .error () →
      normalizeUrl u = withScheme u := by
    intro u h
    simp only [normalizeUrl, h]
  refine ⟨h1, fun u hs h => ?_⟩
  rw [h1 u h]
  unfold withScheme
  rw [if_pos hs]

/-- C7 (witness): the amended behaviour at the concrete failing inputs
`"[::1"` (scheme-less) and `"https://[::1"` (with scheme). -/
theorem claim_C7_witness :
    normalizeUrl (("[::1").toList) = withScheme (("[::1").toList) ∧
      normalizeUrl (("https://[::1").toList) = ("https://[::1").toList :=
  ⟨claim_C7.1 (("[::1").toList) (by decide),
    claim_C7.2 (("https://[::1").toList) (by decide) (by decide)⟩

/-- C5 (counterexample): `normalize_url` is not idempotent - only one
leading `www.` is stripped per application, and stripping a trailing slash
can expose a `;params` suffix that the next pass splits off; moreover the
claimed example equality fails because the `startswith` scheme test is case
sensitive, so an upper-case `HTTPS://` prefix is not recognised. -/
theorem claim_C5_counterexample :
    normalizeUrl (normalizeUrl (("https://www.www.example.com/").toList)) ≠
      normalizeUrl (("https://www.www.example.com/").toList) ∧
    normalizeUrl (normalizeUrl (("https://e.com/a;b/").toList)) ≠
      normalizeUrl (("https://e.com/a;b/").toList) ∧
    normalizeUrl (("HTTPS://WWW.Example.com/a/?utm_source=x").toList) ≠
      normalizeUrl (("https://example.com/a").toList) := by
  exact ⟨by decide, by decide, by decide⟩

/-- The path segment after the last `/` (the whole path when it has no
`/`). -/
def lastSeg (p : PyStr) : PyStr :=
  match breakAtCharLast '/' p with
  | none => p
  | some pr => pr.2

/-- The host as computed by the first normalisation pass (empty on parse
failure). -/
def normHostOf (x : PyStr) : PyStr :=
  match urlparseE (withScheme x) with
  | .error _ => []
  | .ok p => normDomain p.netloc

/-- The path as computed by the first normalisation pass (empty on parse
failure). -/
def normPathOf (x : PyStr) : PyStr :=
  match urlparseE (withScheme x) with
  | .error _ => []
  | .ok p => normPath p.path

theorem startsWithL_append (p r : PyStr) : startsWithL p (p ++ r) := by
  unfold startsWithL
  simp [List.take_left]

theorem startsWithL_decomp (p s : PyStr) (h : startsWithL p s) :
    s = p ++ s.drop p.length := by
  unfold startsWithL at h
  simp only [decide_eq_true_eq] at h
  conv_lhs => rw [← List.take_append_drop p.length s]
  rw [h]

theorem withScheme_starts (x : PyStr) :
    startsWithL (("http://").toList) (withScheme x) ∨
      startsWithL (("https://").toList) (withScheme x) := by
  unfold withScheme
  split_ifs with h
  · exact h
  · exact Or.inr (startsWithL_append _ _)

theorem withScheme_of_starts (u : PyStr)
    (h : startsWithL (("http://").toList) u ∨ startsWithL (("https://").toList) u) :
    withScheme u = u := by
  unfold withScheme
  rw [if_pos h]

theorem splitScheme_of (sch tail : PyStr)
    (h : sch = ("http").toList ∨ sch = ("https").toList) :
    splitScheme (sch ++ ':' :: tail) = (sch, tail) := by
  rcases h with h | h <;> subst h
  · show splitScheme (['h', 't', 't', 'p'] ++ ':' :: tail) =
      (['h', 't', 't', 'p'], tail)
    unfold splitScheme
    rw [breakAtChar_append ':' (['h', 't', 't', 'p']) tail (by decide)]
    dsimp only
    rw [if_pos (by refine ⟨by decide, ?_⟩; decide)]
    rw [show asciiLower (['h', 't', 't', 'p']) = ['h', 't', 't', 'p'] from by decide]
  · show splitScheme (['h', 't', 't', 'p', 's'] ++ ':' :: tail) =
      (['h', 't', 't', 'p', 's'], tail)
    unfold splitScheme
    rw [breakAtChar_append ':' (['h', 't', 't', 'p', 's']) tail (by decide)]
    dsimp only
    rw [if_pos (by refine ⟨by decide, ?_⟩; decide)]
    rw [show asciiLower (['h', 't', 't', 'p', 's']) = ['h', 't', 't', 'p', 's']
      from by decide]

theorem takeWhile_pred_append (p : Char → Bool) (a b : PyStr)
    (ha : ∀ c ∈ a, p c)
    (hb : ∀ c, b.head? = some c → p c = false) :
    (a ++ b).takeWhile p = a ∧ (a ++ b).dropWhile p = b := by
  induction a with
  | nil =>
    simp only [List.nil_append]
    match b with
    | [] => simp
    | c :: t =>
      have := hb c rfl
      simp [List.takeWhile, List.dropWhile, this]
  | cons c a' ih =>
    have hc : p c = true := ha c (by simp)
    have ⟨h1, h2⟩ := ih (fun x hx => ha x (by simp [hx]))
    refine ⟨?_, ?_⟩
    · simp [List.takeWhile_cons, hc, h1]
    · simp [List.dropWhile_cons, hc, h2]

theorem dropWhile_head_not (p : Char → Bool) (l : PyStr) (c : Char)
    (h : (l.dropWhile p).head? = some c) : p c = false := by
  induction l with
  | nil => simp at h
  | cons d t ih =>
    by_cases hd : p d
    · rw [List.dropWhile_cons_of_pos hd] at h
      exact ih h
    · rw [List.dropWhile_cons_of_neg hd] at h
      simp only [List.head?_cons, Option.some.injEq] at h
      subst h
      simpa using hd

theorem breakAtCharLast_none (sep : Char) (s : PyStr) (h : sep ∉ s) :
    breakAtCharLast sep s = none := by
  unfold breakAtCharLast
  rw [breakAtChar_none sep s.reverse (by simpa using h)]

theorem breakAtCharLast_mem (sep : Char) (s : PyStr) (h : sep ∈ s) :
    ∃ a b, breakAtCharLast sep s = some (a, b) := by
  obtain ⟨a, b, hbr⟩ := breakAtChar_mem sep s.reverse (by simpa using h)
  exact ⟨b.reverse, a.reverse, by unfold breakAtCharLast; rw [hbr]⟩

theorem breakAtCharLast_some (sep : Char) (s a b : PyStr)
    (h : breakAtCharLast sep s = some (a, b)) :
    s = a ++ sep :: b ∧ sep ∉ b := by
  unfold breakAtCharLast at h
  match hbr : breakAtChar sep s.reverse with
  | none => rw [hbr] at h; simp at h
  | some pr =>
    rw [hbr] at h
    dsimp only at h
    have h' := Option.some.inj h
    have ha : a = pr.2.reverse := (Prod.ext_iff.mp h').1.symm
    have hb : b = pr.1.reverse := (Prod.ext_iff.mp h').2.symm
    obtain ⟨hrev, hnot⟩ := breakAtChar_some sep s.reverse pr.1 pr.2 (by rw [hbr])
    subst ha
    subst hb
    constructor
    · have := congrArg List.reverse hrev
      simpa using this
    · simpa using hnot

theorem lastSeg_of_last (pa a b : PyStr)
    (h : breakAtCharLast '/' pa = some (a, b)) : lastSeg pa = b := by
  unfold lastSeg
  rw [h]

theorem splitParams_no_semi (pa : PyStr) (hsemi : ';' ∉ lastSeg pa) :
    splitParams pa = (pa, []) := by
  unfold splitParams
  by_cases hs : '/' ∈ pa
  · rw [if_pos hs]
    obtain ⟨a, b, hbl⟩ := breakAtCharLast_mem '/' pa hs
    rw [hbl]
    dsimp only
    have hseg : lastSeg pa = b := lastSeg_of_last pa a b hbl
    rw [breakAtChar_none ';' b (hseg ▸ hsemi)]
  · rw [if_neg hs]
    have hseg : lastSeg pa = pa := by
      unfold lastSeg
      rw [breakAtCharLast_none '/' pa hs]
    rw [breakAtChar_none ';' pa (hseg ▸ hsemi)]

theorem take_two_cons (a b : Char) (l : PyStr) : List.take 2 (a :: b :: l) = [a, b] := rfl

theorem drop_two_cons (a b : Char) (l : PyStr) : List.drop 2 (a :: b :: l) = l := rfl

/-- Parsing the reassembled normalised URL recovers its components. -/
theorem urlparseE_rebuild (sch d pa qs frag : PyStr)
    (hsch : sch = ("http").toList ∨ sch = ("https").toList)
    (hd : ∀ c ∈ d, isNetlocChar c)
    (hbrk : ¬(('[' ∈ d ∧ ']' ∉ d) ∨ (']' ∈ d ∧ '[' ∉ d)))
    (hpa : pa = [] ∨ pa.head? = some '/')
    (hpaq : '?' ∉ pa) (hpaf : '#' ∉ pa)
    (hqsf : '#' ∉ qs)
    (hsemi : ';' ∉ lastSeg pa) :
    urlparseE (rebuildUrl sch d pa qs frag) = .ok ⟨sch, d, pa, [], qs, frag⟩ := by
  have hre : rebuildUrl sch d pa qs frag =
      sch ++ ':' :: '/' :: '/' ::
        (d ++ (pa ++ ((if qs ≠ [] then '?' :: qs else []) ++
          (if frag ≠ [] then '#' :: frag else [])))) := by
    unfold rebuildUrl
    split_ifs <;> simp
  have hrest : ∀ c : Char,
      ((pa ++ ((if qs ≠ [] then '?' :: qs else []) ++
        (if frag ≠ [] then '#' :: frag else []))).head? = some c) →
      isNetlocChar c = false := by
    intro c hc
    rcases hpa with hpan | hpah
    · subst hpan
      simp only [List.nil_append] at hc
      split_ifs at hc <;> simp at hc <;> subst hc <;> decide
    · match pa, hpah with
      | p0 :: pt, hpah =>
        simp only [List.head?_cons, Option.some.injEq] at hpah
        subst hpah
        simp only [List.cons_append, List.head?_cons, Option.some.injEq] at hc
        subst hc
        decide
  have hsplit := takeWhile_pred_append isNetlocChar d _ hd hrest
  rw [hre]
  unfold urlparseE urlsplitE
  rw [splitScheme_of sch _ hsch]
  dsimp only
  rw [take_two_cons, if_pos rfl, drop_two_cons, hsplit.1, hsplit.2, if_neg hbrk]
  have hqf : '#' ∉ pa ++ (if qs ≠ [] then '?' :: qs else []) := by
    simp only [List.mem_append, not_or]
    refine ⟨hpaf, ?_⟩
    split_ifs with h
    · simp only [List.mem_cons, not_or]
      exact ⟨by decide, hqsf⟩
    · simp
  have hfr : (match breakAtChar '#'
      (pa ++ ((if qs ≠ [] then '?' :: qs else []) ++
        (if frag ≠ [] then '#' :: frag else []))) with
      | none => (pa ++ ((if qs ≠ [] then '?' :: qs else []) ++
          (if frag ≠ [] then '#' :: frag else [])), ([] : PyStr))
      | some p => p) =
      (pa ++ (if qs ≠ [] then '?' :: qs else []), frag) := by
    by_cases hfrag : frag = []
    · subst hfrag
      rw [show (if ([] : PyStr) ≠ [] then '#' :: ([] : PyStr) else []) = []
        from by simp]
      rw [breakAtChar_none '#' _ (by simpa using hqf)]
      simp
    · rw [if_pos hfrag, ← List.append_assoc,
        breakAtChar_append '#' _ frag hqf]
  rw [hfr]
  dsimp only
  have hqr : (match breakAtChar '?' (pa ++ (if qs ≠ [] then '?' :: qs else []))
      with
      | none => (pa ++ (if qs ≠ [] then '?' :: qs else []), ([] : PyStr))
      | some p => p) = (pa, qs) := by
    by_cases hq : qs = []
    · subst hq
      rw [show (if ([] : PyStr) ≠ [] then '?' :: ([] : PyStr) else []) = []
        from by simp]
      rw [List.append_nil, breakAtChar_none '?' pa hpaq]
    · rw [if_pos hq, breakAtChar_append '?' pa qs hpaq]
  rw [hqr]
  dsimp only [Except.map]
  by_cases hps : ';' ∈ pa
  · rw [if_pos hps, splitParams_no_semi pa hsemi]
  · rw [if_neg hps]

theorem isNetlocChar_false_iff (c : Char) :
    isNetlocChar c = false ↔ (c = '/' ∨ c = '?' ∨ c = '#') := by
  unfold isNetlocChar
  simp
  tauto

theorem urlsplitE_withScheme_shape (x : PyStr) :
    ∃ sch tail, withScheme x = sch ++ ':' :: '/' :: '/' :: tail ∧
      (sch = ("http").toList ∨ sch = ("https").toList) := by
  rcases withScheme_starts x with h | h
  · refine ⟨("http").toList, (withScheme x).drop 7, ?_, Or.inl rfl⟩
    exact startsWithL_decomp _ _ h
  · refine ⟨("https").toList, (withScheme x).drop 8, ?_, Or.inr rfl⟩
    exact startsWithL_decomp _ _ h

theorem path_head_slash (rest2 path : PyStr)
    (hpref : path = [] ∨ path.head? = rest2.head?)
    (hhead : ∀ c, rest2.head? = some c → isNetlocChar c = false)
    (hq : '?' ∉ path) (hf : '#' ∉ path) :
    path = [] ∨ path.head? = some '/' := by
  match path with
  | [] => exact Or.inl rfl
  | p0 :: pt =>
    rcases hpref with h | h
    · simp at h
    · right
      have hn := hhead p0 (by rw [← h]; rfl)
      rcases (isNetlocChar_false_iff p0).mp hn with h0 | h0 | h0
      · simp [h0]
      · exact absurd (h0 ▸ (by simp : p0 ∈ p0 :: pt)) hq
      · exact absurd (h0 ▸ (by simp : p0 ∈ p0 :: pt)) hf

/-- Structure of a successful `urlsplit` of a scheme-prefixed URL. -/
theorem urlsplitE_withScheme_ok (x : PyStr) (r : SplitResult)
    (h : urlsplitE (withScheme x) = .ok r) :
    (r.scheme = ("http").toList ∨ r.scheme = ("https").toList) ∧
    (∀ c ∈ r.netloc, isNetlocChar c) ∧
    ¬(('[' ∈ r.netloc ∧ ']' ∉ r.netloc) ∨ (']' ∈ r.netloc ∧ '[' ∉ r.netloc)) ∧
    '#' ∉ r.path ∧ '?' ∉ r.path ∧
    (r.path = [] ∨ r.path.head? = some '/') ∧
    '#' ∉ r.query := by
  obtain ⟨sch, tail, hw, hsch⟩ := urlsplitE_withScheme_shape x
  rw [hw] at h
  unfold urlsplitE at h
  rw [splitScheme_of sch _ hsch] at h
  dsimp only at h
  rw [take_two_cons, if_pos rfl, drop_two_cons] at h
  by_cases hbr : ('[' ∈ tail.takeWhile isNetlocChar ∧
      ']' ∉ tail.takeWhile isNetlocChar) ∨
      (']' ∈ tail.takeWhile isNetlocChar ∧ '[' ∉ tail.takeWhile isNetlocChar)
  · rw [if_pos hbr] at h
    exact absurd h (by simp)
  · rw [if_neg hbr] at h
    have hnetchar : ∀ c ∈ tail.takeWhile isNetlocChar, isNetlocChar c :=
      fun c hc => List.mem_takeWhile_imp hc
    have hrhead : ∀ c, (tail.dropWhile isNetlocChar).head? = some c →
        isNetlocChar c = false := dropWhile_head_not _ _
    match hfr : breakAtChar '#' (tail.dropWhile isNetlocChar) with
    | none =>
      rw [hfr] at h
      dsimp only at h
      have hfnot : '#' ∉ tail.dropWhile isNetlocChar :=
        breakAtChar_eq_none _ _ hfr
      match hqr : breakAtChar '?' (tail.dropWhile isNetlocChar) with
      | none =>
        rw [hqr] at h
        dsimp only at h
        have hqnot : '?' ∉ tail.dropWhile isNetlocChar :=
          breakAtChar_eq_none _ _ hqr
        have hr := (Except.ok.inj h).symm
        subst hr
        refine ⟨hsch, hnetchar, hbr, hfnot, hqnot, ?_, by simp⟩
        exact path_head_slash _ _ (Or.inr rfl) hrhead hqnot hfnot
      | some qrp =>
        rw [hqr] at h
        dsimp only at h
        obtain ⟨hsplit2, hqnot⟩ :=
          breakAtChar_some '?' _ qrp.1 qrp.2 (by rw [hqr])
        have hr := (Except.ok.inj h).symm
        subst hr
        have hsub : ∀ c ∈ qrp.1, c ∈ tail.dropWhile isNetlocChar := by
          intro c hc
          rw [hsplit2]
          simp [hc]
        have hfnot1 : '#' ∉ qrp.1 := fun hm => hfnot (hsub _ hm)
        refine ⟨hsch, hnetchar, hbr, hfnot1, hqnot, ?_, ?_⟩
        · apply path_head_slash (tail.dropWhile isNetlocChar) _ _ hrhead
            hqnot hfnot1
          match hq1 : qrp.1 with
          | [] => exact Or.inl rfl
          | q0 :: qt =>
            right
            rw [hsplit2, hq1]
            rfl
        · intro hm
          apply hfnot
          rw [hsplit2]
          simp [hm]
    | some frp =>
      rw [hfr] at h
      dsimp only at h
      obtain ⟨hsplit1, hfnot⟩ :=
        breakAtChar_some '#' _ frp.1 frp.2 (by rw [hfr])
      have hhead1 : ∀ c, frp.1.head? = some c → isNetlocChar c = false := by
        intro c hc
        apply hrhead
        rw [hsplit1]
        match hf1 : frp.1 with
        | [] => rw [hf1] at hc; simp at hc
        | f0 :: ft =>
          rw [hf1] at hc
          simpa using hc
      match hqr : breakAtChar '?' frp.1 with
      | none =>
        rw [hqr] at h
        dsimp only at h
        have hqnot : '?' ∉ frp.1 := breakAtChar_eq_none _ _ hqr
        have hr := (Except.ok.inj h).symm
        subst hr
        refine ⟨hsch, hnetchar, hbr, hfnot, hqnot, ?_, by simp⟩
        exact path_head_slash frp.1 _ (Or.inr rfl) hhead1 hqnot hfnot
      | some qrp =>
        rw [hqr] at h
        dsimp only at h
        obtain ⟨hsplit2, hqnot⟩ :=
          breakAtChar_some '?' _ qrp.1 qrp.2 (by rw [hqr])
        have hr := (Except.ok.inj h).symm
        subst hr
        have hsub : ∀ c ∈ qrp.1, c ∈ frp.1 := by
          intro c hc
          rw [hsplit2]
          simp [hc]
        have hfnot1 : '#' ∉ qrp.1 := fun hm => hfnot (hsub _ hm)
        have hfnot2 : '#' ∉ qrp.2 := by
          intro hm
          apply hfnot
          rw [hsplit2]
          simp [hm]
        refine ⟨hsch, hnetchar, hbr, hfnot1, hqnot, ?_, hfnot2⟩
        apply path_head_slash frp.1 _ _ hhead1 hqnot hfnot1
        match hq1 : qrp.1 with
        | [] => exact Or.inl rfl
        | q0 :: qt =>
          right
          rw [hsplit2, hq1]
          rfl

theorem mem_intersperse_sub {α : Type} (sep : α) (xs : List α) (a : α)
    (h : a ∈ List.intersperse sep xs) : a = sep ∨ a ∈ xs := by
  induction xs with
  | nil => simp [List.intersperse] at h
  | cons x t ih =>
    match t with
    | [] =>
      simp only [List.intersperse_singleton, List.mem_singleton] at h
      exact Or.inr (by simp [h])
    | y :: t' =>
      rw [List.intersperse_cons₂] at h
      rcases List.mem_cons.mp h with h1 | h1
      · exact Or.inr (by simp [h1])
      · rcases List.mem_cons.mp h1 with h2 | h2
        · exact Or.inl h2
        · rcases ih h2 with h3 | h3
          · exact Or.inl h3
          · exact Or.inr (by simp [h3])

theorem mem_urlencode (d : List (PyStr × List PyStr)) (c : Char)
    (h : c ∈ urlencode d) :
    isAlwaysSafe c ∨ c = '+' ∨ c = '%' ∨ c = '=' ∨ c = '&' := by
  unfold urlencode List.intercalate at h
  rw [List.mem_flatten] at h
  obtain ⟨l, hl, hcl⟩ := h
  rcases mem_intersperse_sub _ _ _ hl with hsep | hfield
  · subst hsep
    simp only [List.mem_singleton] at hcl
    subst hcl
    right; right; right; right; rfl
  · simp only [List.mem_flatMap, List.mem_map] at hfield
    obtain ⟨kv, _, v, _, hlv⟩ := hfield
    subst hlv
    rcases List.mem_append.mp hcl with h1 | h1
    · rcases quotePlus_chars _ c h1 with h2 | h2 | h2
      · exact Or.inl h2
      · exact Or.inr (Or.inl h2)
      · exact Or.inr (Or.inr (Or.inl h2))
    · rcases List.mem_cons.mp h1 with h2 | h2
      · exact Or.inr (Or.inr (Or.inr (Or.inl h2)))
      · rcases quotePlus_chars _ c h2 with h3 | h3 | h3
        · exact Or.inl h3
        · exact Or.inr (Or.inl h3)
        · exact Or.inr (Or.inr (Or.inl h3))

theorem hash_not_mem_normQuery (q : PyStr) : '#' ∉ normQuery q := by
  unfold normQuery
  split_ifs with hq
  · intro hm
    rcases mem_urlencode _ _ hm with h | h | h | h | h <;> revert h <;> decide
  · simp

theorem splitParams_sub (u : PyStr) :
    (∀ c ∈ (splitParams u).1, c ∈ u) ∧
    ((splitParams u).1 = [] ∨ (splitParams u).1.head? = u.head?) := by
  unfold splitParams
  by_cases hs : '/' ∈ u
  · rw [if_pos hs]
    obtain ⟨a, b, hbl⟩ := breakAtCharLast_mem '/' u hs
    rw [hbl]
    dsimp only
    obtain ⟨hu, _⟩ := breakAtCharLast_some '/' u a b hbl
    match hbr : breakAtChar ';' b with
    | none => exact ⟨fun c hc => hc, Or.inr rfl⟩
    | some pr =>
      dsimp only
      obtain ⟨hb, _⟩ := breakAtChar_some ';' b pr.1 pr.2 (by rw [hbr])
      constructor
      · intro c hc
        rw [hu, hb]
        simp only [List.mem_append, List.mem_cons] at hc ⊢
        tauto
      · right
        rw [hu]
        match a with
        | [] => rfl
        | a0 :: at' => rfl
  · rw [if_neg hs]
    match hbr : breakAtChar ';' u with
    | none => exact ⟨fun c hc => hc, Or.inr rfl⟩
    | some pr =>
      dsimp only
      obtain ⟨hu, _⟩ := breakAtChar_some ';' u pr.1 pr.2 (by rw [hbr])
      constructor
      · intro c hc
        rw [hu]
        simp [hc]
      · match hp1 : pr.1 with
        | [] => exact Or.inl rfl
        | p0 :: pt =>
          right
          rw [hu, hp1]
          rfl

/-- Structure of a successful `urlparse` of a scheme-prefixed URL. -/
theorem urlparseE_withScheme_ok (x : PyStr) (p : ParseResult)
    (hp : urlparseE (withScheme x) = .ok p) :
    (p.scheme = ("http").toList ∨ p.scheme = ("https").toList) ∧
    (∀ c ∈ p.netloc, isNetlocChar c) ∧
    ¬(('[' ∈ p.netloc ∧ ']' ∉ p.netloc) ∨ (']' ∈ p.netloc ∧ '[' ∉ p.netloc)) ∧
    '#' ∉ p.path ∧ '?' ∉ p.path ∧
    (p.path = [] ∨ p.path.head? = some '/') ∧
    '#' ∉ p.query := by
  unfold urlparseE at hp
  match hr : urlsplitE (withScheme x) with
  | .error e => rw [hr] at hp; simp [Except.map] at hp
  | .ok r =>
    rw [hr] at hp
    dsimp only [Except.map] at hp
    have hpr := (Except.ok.inj hp).symm
    obtain ⟨hsch, hnet, hbr, hpf, hpq, hph, hqf⟩ :=
      urlsplitE_withScheme_ok x r hr
    by_cases hsemi : ';' ∈ r.path
    · rw [if_pos hsemi] at hpr
      subst hpr
      obtain ⟨hsub, hhead⟩ := splitParams_sub r.path
      refine ⟨hsch, hnet, hbr, fun hm => hpf (hsub _ hm),
        fun hm => hpq (hsub _ hm), ?_, hqf⟩
      apply path_head_slash r.path _ _ ?_ (fun hm => hpq (hsub _ hm))
        (fun hm => hpf (hsub _ hm))
      · rcases hhead with h | h
        · exact Or.inl h
        · exact Or.inr h
      · intro c hc
        rcases hph with h | h
        · rw [h] at hc
          simp at hc
        · rw [h] at hc
          have := Option.some.inj hc
          subst this
          decide
    · rw [if_neg hsemi] at hpr
      subst hpr
      exact ⟨hsch, hnet, hbr, hpf, hpq, hph, hqf⟩

theorem isNetlocChar_asciiLowerChar (c : Char) (h : isNetlocChar c) :
    isNetlocChar (asciiLowerChar c) := by
  unfold asciiLowerChar
  split_ifs with hAZ
  · have h1 := (char_le_toNat _ _).mp hAZ.1
    have h2 := (char_le_toNat _ _).mp hAZ.2
    have hA : ('A').toNat = 65 := by decide
    have hZ : ('Z').toNat = 90 := by decide
    rw [hA] at h1
    rw [hZ] at h2
    have hd : (Char.ofNat (c.toNat + 32)).toNat = c.toNat + 32 :=
      char_toNat_ofNat _ (by omega)
    unfold isNetlocChar
    simp only [decide_eq_true_eq, not_or]
    refine ⟨?_, ?_, ?_⟩ <;> intro he <;> rw [he] at hd <;>
      revert hd <;> intro hd
    · have h47 : ('/').toNat = 47 := by decide
      rw [h47] at hd
      omega
    · have h63 : ('?').toNat = 63 := by decide
      rw [h63] at hd
      omega
    · have h35 : ('#').toNat = 35 := by decide
      rw [h35] at hd
      omega
  · exact h

theorem mem_normDomain (n : PyStr) (c : Char) (h : c ∈ normDomain n) :
    ∃ c' ∈ n, c = asciiLowerChar c' := by
  unfold normDomain at h
  dsimp only at h
  have h2 : c ∈ asciiLower n := by
    split_ifs at h with hs
    · exact List.mem_of_mem_drop h
    · exact h
  simp only [asciiLower, List.mem_map] at h2
  obtain ⟨c', hc', heq⟩ := h2
  exact ⟨c', hc', heq.symm⟩

theorem normDomain_netloc (n : PyStr) (h : ∀ c ∈ n, isNetlocChar c) :
    ∀ c ∈ normDomain n, isNetlocChar c := by
  intro c hc
  obtain ⟨c', hc', heq⟩ := mem_normDomain n c hc
  rw [heq]
  exact isNetlocChar_asciiLowerChar c' (h c' hc')

theorem mem_normDomain_iff (n : PyStr) (t : Char)
    (ht1 : ¬(97 ≤ t.toNat ∧ t.toNat ≤ 122))
    (ht2 : ¬(65 ≤ t.toNat ∧ t.toNat ≤ 90))
    (hw : t ≠ 'w') (hd : t ≠ '.') : t ∈ normDomain n ↔ t ∈ n := by
  unfold normDomain
  dsimp only
  split_ifs with hs
  · constructor
    · intro hm
      exact (mem_asciiLower_iff t ht1 ht2 n).mp (List.mem_of_mem_drop hm)
    · intro hm
      have hm2 : t ∈ asciiLower n := (mem_asciiLower_iff t ht1 ht2 n).mpr hm
      rw [startsWithL_decomp _ _ hs] at hm2
      rcases List.mem_append.mp hm2 with h4 | h4
      · rw [show ("www.").toList = ['w', 'w', 'w', '.'] from rfl] at h4
        simp only [List.mem_cons, List.not_mem_nil, or_false] at h4
        rcases h4 with h | h | h | h <;> first | exact absurd h hw | exact absurd h hd
      · exact h4
  · exact mem_asciiLower_iff t ht1 ht2 n

theorem normDomain_brk (n : PyStr)
    (h : ¬(('[' ∈ n ∧ ']' ∉ n) ∨ (']' ∈ n ∧ '[' ∉ n))) :
    ¬(('[' ∈ normDomain n ∧ ']' ∉ normDomain n) ∨
      (']' ∈ normDomain n ∧ '[' ∉ normDomain n)) := by
  have h1 := mem_normDomain_iff n '[' (by decide) (by decide) (by decide) (by decide)
  have h2 := mem_normDomain_iff n ']' (by decide) (by decide) (by decide) (by decide)
  rw [h1, h2]
  exact h

theorem normDomain_lower (n : PyStr) :
    asciiLower (normDomain n) = normDomain n := by
  unfold normDomain
  dsimp only
  split_ifs with hs
  · show asciiLower ((asciiLower n).drop 4) = (asciiLower n).drop 4
    unfold asciiLower
    rw [List.map_drop]
    show (asciiLower (asciiLower n)).drop 4 = (asciiLower n).drop 4
    rw [asciiLower_idem]
  · exact asciiLower_idem n

theorem normDomain_eq_of (m : PyStr) (hlow : asciiLower m = m)
    (h : ¬ startsWithL (("www.").toList) m) : normDomain m = m := by
  unfold normDomain
  dsimp only
  rw [hlow, if_neg h]

theorem replacePass_head (s : PyStr) : (replacePass s).head? = s.head? := by
  induction s using replacePass.induct with
  | case1 c d t h ih =>
    obtain ⟨h1, h2⟩ := h
    subst h1
    subst h2
    simp [replacePass]
  | case2 c d t h ih => simp [replacePass, if_neg h]
  | case3 s hs =>
    match s, hs with
    | [], _ => rfl
    | [c], _ => rfl
    | a :: b :: t, hs => exact (hs a b t rfl).elim

theorem replacePass_sub (s : PyStr) (c : Char) (h : c ∈ replacePass s) :
    c ∈ s := by
  induction s using replacePass.induct with
  | case1 a d t hdd ih =>
    obtain ⟨h1, h2⟩ := hdd
    subst h1
    subst h2
    rw [show replacePass ('/' :: '/' :: t) = '/' :: replacePass t from by
      simp [replacePass]] at h
    rcases List.mem_cons.mp h with h1 | h1
    · simp [h1]
    · simp [ih h1]
  | case2 a d t hdd ih =>
    rw [show replacePass (a :: d :: t) = a :: replacePass (d :: t) from by
      simp [replacePass, if_neg hdd]] at h
    rcases List.mem_cons.mp h with h1 | h1
    · simp [h1]
    · simp [ih h1]
  | case3 s hs =>
    match s, hs with
    | [], _ => exact h
    | [a], _ => exact h
    | a :: b :: t, hs => exact (hs a b t rfl).elim

theorem collapseLoop_head (fuel : Nat) (s : PyStr) :
    (collapseLoop fuel s).head? = s.head? := by
  induction fuel generalizing s with
  | zero => rfl
  | succ n ih =>
    unfold collapseLoop
    split_ifs with h
    · rw [ih, replacePass_head]
    · rfl

theorem collapseLoop_sub (fuel : Nat) (s : PyStr) (c : Char)
    (h : c ∈ collapseLoop fuel s) : c ∈ s := by
  induction fuel generalizing s with
  | zero => exact h
  | succ n ih =>
    unfold collapseLoop at h
    split_ifs at h with hdd
    · exact replacePass_sub s c (ih (replacePass s) h)
    · exact h

theorem collapseLoop_noDD (fuel : Nat) : ∀ s : PyStr, s.length ≤ fuel →
    ¬ hasDD (collapseLoop fuel s) := by
  induction fuel with
  | zero =>
    intro s h
    have hnil : s = [] := List.length_eq_zero.mp (Nat.le_zero.mp h)
    subst hnil
    simp [collapseLoop, hasDD]
  | succ n ih =>
    intro s h
    unfold collapseLoop
    split_ifs with hdd
    · have hlen2 : 2 ≤ s.length := by
        match s, hdd with
        | c :: d :: t, _ => simp
      have hstep := (replacePass_length s).2 hdd
      exact ih (replacePass s) (by omega)
    · simpa using hdd

theorem collapseSlashes_noDD (s : PyStr) : ¬ hasDD (collapseSlashes s) :=
  collapseLoop_noDD s.length s (Nat.le_refl _)

theorem collapseSlashes_of_noDD (s : PyStr) (h : ¬ hasDD s) :
    collapseSlashes s = s := by
  rw [collapseSlashes_step, if_neg h]

theorem hasDD_dropLast (l : PyStr) (h : hasDD l.dropLast) : hasDD l := by
  induction l with
  | nil => simpa using h
  | cons a t ih =>
    match t with
    | [] => simp [List.dropLast, hasDD] at h
    | b :: t' =>
      rw [show (a :: b :: t').dropLast = a :: (b :: t').dropLast from rfl] at h
      match hX : (b :: t').dropLast with
      | [] =>
        rw [hX] at h
        simp [hasDD] at h
      | c :: u =>
        rw [hX] at h
        match t' with
        | [] => exact absurd hX (by simp [List.dropLast])
        | d :: t'' =>
          have hb : c = b := by
            rw [show (b :: d :: t'').dropLast = b :: (d :: t'').dropLast
              from rfl] at hX
            exact (List.cons.inj hX).1.symm
          subst hb
          rcases (by simpa [hasDD] using h :
              (a = '/' ∧ c = '/') ∨ hasDD (c :: u) = true) with h1 | h1
          · obtain ⟨ha, hc⟩ := h1
            subst ha
            subst hc
            simp [hasDD]
          · have h2 : hasDD (c :: d :: t'') = true := ih (hX ▸ h1)
            have h3 : (a = '/' ∧ c = '/') ∨ hasDD (c :: d :: t'') = true :=
              Or.inr h2
            simpa [hasDD] using h3

theorem hasDD_append_dd (x : PyStr) : hasDD (x ++ ['/', '/']) := by
  induction x with
  | nil => decide
  | cons c t ih =>
    match t with
    | [] => simp [hasDD]
    | d :: t' =>
      have h3 : (c = '/' ∧ d = '/') ∨ hasDD (d :: (t' ++ ['/', '/'])) = true :=
        Or.inr (by simpa using ih)
      show hasDD (c :: d :: (t' ++ ['/', '/'])) = true
      simpa [hasDD] using h3

theorem getLast_some_decomp (l : PyStr) (a : Char) (h : l.getLast? = some a) :
    l = l.dropLast ++ [a] := by
  induction l with
  | nil => simp at h
  | cons c t ih =>
    match t with
    | [] =>
      have hc : c = a := by simpa using h
      subst hc
      rfl
    | b :: t' =>
      have h2 : (b :: t').getLast? = some a := by
        rw [← h]
        rfl
      have ih2 := ih h2
      rw [show (c :: b :: t').dropLast = c :: (b :: t').dropLast from rfl,
        List.cons_append, ← ih2]

theorem normPath_head (p : PyStr) : (normPath p).head? = p.head? := by
  have hh : (collapseSlashes p).head? = p.head? := collapseLoop_head p.length p
  unfold normPath
  dsimp only
  split_ifs with h
  · obtain ⟨hlast, hne⟩ := h
    match hq : collapseSlashes p with
    | [] => simp [hq] at hlast
    | [a] =>
      rw [hq] at hlast
      have ha : a = '/' := by simpa using hlast
      subst ha
      exact absurd hq hne
    | a :: b :: t =>
      rw [hq] at hh
      rw [← hh]
      rfl
  · exact hh

theorem normPath_sub (p : PyStr) (c : Char) (h : c ∈ normPath p) : c ∈ p := by
  unfold normPath at h
  dsimp only at h
  split_ifs at h with hc
  · exact collapseLoop_sub p.length p c (List.dropLast_subset _ h)
  · exact collapseLoop_sub p.length p c h

theorem normPath_noDD (p : PyStr) : ¬ hasDD (normPath p) := by
  unfold normPath
  dsimp only
  split_ifs with h
  · intro hdd
    exact collapseSlashes_noDD p (hasDD_dropLast _ hdd)
  · exact collapseSlashes_noDD p

theorem normPath_eq_of (q : PyStr) (hdd : ¬ hasDD q)
    (hcond : ¬(q.getLast? = some '/' ∧ q ≠ ['/'])) : normPath q = q := by
  unfold normPath
  dsimp only
  rw [collapseSlashes_of_noDD q hdd, if_neg hcond]

theorem normPath_last (p : PyStr) :
    ¬((normPath p).getLast? = some '/' ∧ normPath p ≠ ['/']) := by
  unfold normPath
  dsimp only
  split_ifs with h
  · rintro ⟨hl, hne⟩
    have hdec := getLast_some_decomp _ _ hl
    have hdec2 := getLast_some_decomp _ _ h.1
    have hdd : hasDD (collapseSlashes p) := by
      rw [hdec2, hdec]
      have h3 := hasDD_append_dd ((collapseSlashes p).dropLast.dropLast)
      simpa [List.append_assoc] using h3
    exact collapseSlashes_noDD p hdd
  · exact h

theorem normPath_idem (p : PyStr) : normPath (normPath p) = normPath p :=
  normPath_eq_of (normPath p) (normPath_noDD p) (normPath_last p)

theorem normPath_shape (p : PyStr) (h : p = [] ∨ p.head? = some '/') :
    normPath p = [] ∨ (normPath p).head? = some '/' := by
  have hh := normPath_head p
  rcases h with h | h
  · left
    subst h
    have h0 : (normPath ([] : PyStr)).head? = none := by
      rw [hh]
      rfl
    exact List.head?_eq_none_iff.mp h0
  · right
    rw [hh, h]

theorem normQuery_idem (q : PyStr) : normQuery (normQuery q) = normQuery q := by
  by_cases hq : q = []
  · subst hq
    rfl
  · have h1 : normQuery q =
        urlencode ((parseQs q).filter
          (fun kv => asciiLower kv.1 ∉ trackingParams)) := by
      unfold normQuery
      rw [if_pos hq]
    rw [h1]
    by_cases he : urlencode ((parseQs q).filter
        (fun kv => asciiLower kv.1 ∉ trackingParams)) = []
    · rw [he]
      rfl
    · unfold normQuery
      rw [if_pos he]
      have hwf := parseQs_wf q
      have hk : (((parseQs q).filter
          (fun kv => asciiLower kv.1 ∉ trackingParams)).map Prod.fst).Nodup := by
        have hsub : List.Sublist
            (((parseQs q).filter
              (fun kv => asciiLower kv.1 ∉ trackingParams)).map Prod.fst)
            ((parseQs q).map Prod.fst) :=
          List.Sublist.map Prod.fst (List.filter_sublist _)
        exact List.Nodup.sublist hsub hwf.1
      have hvs : ∀ kv ∈ (parseQs q).filter
          (fun kv => asciiLower kv.1 ∉ trackingParams), kv.2 ≠ [] :=
        fun kv hm => hwf.2.1 kv (List.mem_of_mem_filter hm)
      have hv : ∀ kv ∈ (parseQs q).filter
          (fun kv => asciiLower kv.1 ∉ trackingParams), ∀ v ∈ kv.2, v ≠ [] :=
        fun kv hm => hwf.2.2 kv (List.mem_of_mem_filter hm)
      rw [parseQs_urlencode _ hk hvs hv, List.filter_filter]
      simp only [Bool.and_self]

theorem withScheme_rebuild (sch d pa qs frag : PyStr)
    (hsch : sch = ("http").toList ∨ sch = ("https").toList) :
    withScheme (rebuildUrl sch d pa qs frag) = rebuildUrl sch d pa qs frag := by
  apply withScheme_of_starts
  have hre : rebuildUrl sch d pa qs frag =
      sch ++ ':' :: '/' :: '/' ::
        (d ++ (pa ++ ((if qs ≠ [] then '?' :: qs else []) ++
          (if frag ≠ [] then '#' :: frag else [])))) := by
    unfold rebuildUrl
    split_ifs <;> simp
  rw [hre]
  rcases hsch with h | h <;> subst h
  · left
    rw [show ("http").toList ++ ':' :: '/' :: '/' ::
        (d ++ (pa ++ ((if qs ≠ [] then '?' :: qs else []) ++
          (if frag ≠ [] then '#' :: frag else [])))) =
      ("http://").toList ++
        (d ++ (pa ++ ((if qs ≠ [] then '?' :: qs else []) ++
          (if frag ≠ [] then '#' :: frag else [])))) from rfl]
    exact startsWithL_append _ _
  · right
    rw [show ("https").toList ++ ':' :: '/' :: '/' ::
        (d ++ (pa ++ ((if qs ≠ [] then '?' :: qs else []) ++
          (if frag ≠ [] then '#' :: frag else [])))) =
      ("https://").toList ++
        (d ++ (pa ++ ((if qs ≠ [] then '?' :: qs else []) ++
          (if frag ≠ [] then '#' :: frag else [])))) from rfl]
    exact startsWithL_append _ _

/-- **C5** (corrected). `normalize_url` is idempotent on every input whose
first normalisation pass produces a host that does not still start with
`www.` and a path whose last segment contains no `;` (the counterexample
theorem shows both side conditions are necessary, and that the
upper-case-scheme example from the claim fails because the
`startswith('http://')` test is case sensitive); and the normalisation is
insensitive to host case, a leading `www.`, a trailing path slash and
denylisted tracking parameters on the claim's example, once its scheme is
written in lower case. -/
theorem claim_C5 :
    (∀ x : PyStr,
        ¬ startsWithL (("www.").toList) (normHostOf x) →
        ';' ∉ lastSeg (normPathOf x) →
        normalizeUrl (normalizeUrl x) = normalizeUrl x) ∧
    normalizeUrl (("https://WWW.Example.com/a/?utm_source=x").toList) =
      normalizeUrl (("https://example.com/a").toList) := by
  constructor
  · intro x hwww hsemi
    match hp : urlparseE (withScheme x) with
    | .error e =>
      have h1 : normalizeUrl x = withScheme x := by
        unfold normalizeUrl
        dsimp only
        rw [hp]
      rw [h1]
      have h2 : withScheme (withScheme x) = withScheme x :=
        withScheme_of_starts _ (withScheme_starts x)
      unfold normalizeUrl
      dsimp only
      rw [h2, hp]
    | .ok p =>
      obtain ⟨hsch, hnet, hbrk, hpf, hpq, hph, hqf⟩ :=
        urlparseE_withScheme_ok x p hp
      have h1 : normalizeUrl x =
          rebuildUrl p.scheme (normDomain p.netloc) (normPath p.path)
            (normQuery p.query) p.fragment := by
        unfold normalizeUrl
        dsimp only
        rw [hp]
      have hhost : normHostOf x = normDomain p.netloc := by
        unfold normHostOf
        rw [hp]
      have hpath : normPathOf x = normPath p.path := by
        unfold normPathOf
        rw [hp]
      rw [h1]
      have hws := withScheme_rebuild p.scheme (normDomain p.netloc)
        (normPath p.path) (normQuery p.query) p.fragment hsch
      have hparse2 := urlparseE_rebuild p.scheme (normDomain p.netloc)
        (normPath p.path) (normQuery p.query) p.fragment hsch
        (normDomain_netloc p.netloc hnet)
        (normDomain_brk p.netloc hbrk)
        (normPath_shape p.path hph)
        (fun hm => hpq (normPath_sub _ _ hm))
        (fun hm => hpf (normPath_sub _ _ hm))
        (hash_not_mem_normQuery p.query)
        (hpath ▸ hsemi)
      unfold normalizeUrl
      dsimp only
      rw [hws, hparse2]
      dsimp only
      rw [normDomain_eq_of (normDomain p.netloc) (normDomain_lower p.netloc)
          (hhost ▸ hwww),
        normPath_idem, normQuery_idem]
  · decide

/-- Witness for C5: a concrete URL satisfying both side conditions, on
which the idempotence theorem applies. -/
theorem claim_C5_witness :
    ¬ startsWithL (("www.").toList)
        (normHostOf (("https://www.Example.com/a//b/?x=1&utm_source=t").toList)) ∧
    ';' ∉ lastSeg (normPathOf (("https://www.Example.com/a//b/?x=1&utm_source=t").toList)) ∧
    normalizeUrl (normalizeUrl (("https://www.Example.com/a//b/?x=1&utm_source=t").toList)) =
      normalizeUrl (("https://www.Example.com/a//b/?x=1&utm_source=t").toList) :=
  ⟨by decide, by decide, claim_C5.1 _ (by decide) (by decide)⟩

/-! ## `DuplicateManager.merge_bookmarks` (duplicates.py lines 238-412)

Bookmarks are modelled as records over `Nat` ids (Python UUIDs; falsy iff
0), `PyStr` text fields and `Int` timestamps.  Django querysets are
modelled as lists; the default `Meta` ordering of `Bookmark` is
`['-created_at']`, modelled by a stable descending insertion sort.  The
`BookmarkNote` history table maintained in lines 301-320 touches neither
the bookmark rows nor the activity log and is outside this model. -/

structure BM where
  id : Nat
  userId : Nat
  url : PyStr
  title : PyStr
  description : PyStr
  faviconUrl : PyStr
  screenshotUrl : PyStr
  notes : PyStr
  tags : List Nat
  createdAt : Int
  isFavorite : Bool
  isRead : Bool
  isArchived : Bool
  isPublic : Bool
  collectionId : Option Nat
  visitedAt : Option Int
  deriving DecidableEq, Repr

structure MergeActivity where
  bookmarkId : Nat
  userId : Nat
  activityType : PyStr
  mergedFrom : Nat
  mergedUrl : PyStr
  mergedTitle : PyStr
  deriving DecidableEq, Repr

structure Store where
  bookmarks : List BM
  activities : List MergeActivity
  deriving DecidableEq, Repr

/-- Stable insert for the descending `-created_at` queryset order. -/
def insertDescBy (key : BM → Int) (b : BM) : List BM → List BM
  | [] => [b]
  | x :: t => if key x ≤ key b then b :: x :: t else x :: insertDescBy key b t

def sortDescBy (key : BM → Int) : List BM → List BM
  | [] => []
  | b :: t => insertDescBy key b (sortDescBy key t)

/-- Default `Bookmark` queryset order `['-created_at']`. -/
def qsByCreated (bs : List BM) : List BM := sortDescBy (fun b => b.createdAt) bs

inductive MergeErr where
  | missingParams | selfMerge | notFound | noDuplicates | crossUser
  | multipleObjects
  deriving DecidableEq, Repr

/-- The tag-combination loop (lines 285-291): `tags.add` for each duplicate
tag id not yet present. -/
def addTags (acc : List Nat) (newTags : List Nat) : List Nat :=
  newTags.foldl (fun cur t => if t ∈ cur then cur else cur ++ [t]) acc

def combinedTags (p : BM) (ds : List BM) : List Nat :=
  ds.foldl (fun acc d => addTags acc d.tags) p.tags

/-- Lines 293-299: first duplicate with non-empty notes, when the primary
has none. -/
def mergedNotes (p : BM) (ds : List BM) : PyStr :=
  if p.notes = [] then
    match ds.find? (fun d => d.notes ≠ []) with
    | some d => d.notes
    | none => p.notes
  else p.notes

/-- Lines 322-325: keep the earliest created date. -/
def mergedCreated (p : BM) (ds : List BM) : Int :=
  ds.foldl (fun acc d => if d.createdAt < acc then d.createdAt else acc)
    p.createdAt

/-- Lines 327-336, one field: fill an empty field from the first duplicate
that has it. -/
def fillField (cur : PyStr) (vs : List PyStr) : PyStr :=
  vs.foldl (fun acc v => if acc = [] ∧ v ≠ [] then v else acc) cur

/-- The in-memory primary bookmark as saved at line 353. -/
def mergedPrimary (p : BM) (ds : List BM) : BM :=
  { p with
    tags := combinedTags p ds
    notes := mergedNotes p ds
    createdAt := mergedCreated p ds
    title := fillField p.title (ds.map (fun d => d.title))
    description := fillField p.description (ds.map (fun d => d.description))
    faviconUrl := fillField p.faviconUrl (ds.map (fun d => d.faviconUrl))
    screenshotUrl := fillField p.screenshotUrl (ds.map (fun d => d.screenshotUrl))
    isFavorite := p.isFavorite || ds.any (fun d => d.isFavorite)
    isRead := p.isRead || ds.any (fun d => d.isRead) }

/-- Bookmark rows after the save of the primary (line 353) and the
per-duplicate deletions (line 385). -/
def mergedBookmarks (st : Store) (p : BM) (ds : List BM) : List BM :=
  ds.foldl (fun acc d => acc.filter (fun x => x.id ≠ d.id))
    (st.bookmarks.map (fun b => if b.id = p.id then mergedPrimary p ds else b))

/-- Activity log after the per-duplicate `BookmarkActivity.objects.create`
calls (lines 373-382). -/
def mergedActivities (st : Store) (p : BM) (ds : List BM) : List MergeActivity :=
  st.activities ++ ds.map (fun d =>
    ⟨p.id, p.userId, ("merged").toList, d.id, d.url, d.title⟩)

/-- `DuplicateManager.merge_bookmarks`.  Validation order follows the
source: missing parameters, self-merge after dropping the primary id from
the duplicate list, primary lookup (`DoesNotExist` is mapped to the
NotFound `ValueError` of line 399), existence of at least one of the
requested duplicates (missing ids are silently dropped by
`filter(id__in=...)`), then the cross-user check. -/
def mergeBookmarks (st : Store) (pid : Nat) (dupIds : List Nat) :
    Except MergeErr Store :=
  if pid = 0 ∨ dupIds = [] then .error .missingParams
  else
    let dupIds2 := dupIds.filter (fun d => d ≠ pid)
    if dupIds2 = [] then .error .selfMerge
    else
      match st.bookmarks.filter (fun b => b.id = pid) with
      | [] => .error .notFound
      | [p] =>
        let ds := qsByCreated (st.bookmarks.filter (fun b => b.id ∈ dupIds2))
        if ds = [] then .error .noDuplicates
        else if ds.all (fun d => d.userId = p.userId) then
          .ok ⟨mergedBookmarks st p ds, mergedActivities st p ds⟩
        else .error .crossUser
      | _ :: _ :: _ => .error .multipleObjects

theorem insertDescBy_perm (key : BM → Int) (b : BM) : ∀ l : List BM,
    List.Perm (insertDescBy key b l) (b :: l) := by
  intro l
  induction l with
  | nil => exact List.Perm.refl _
  | cons x t ih =>
    unfold insertDescBy
    split_ifs with h
    · exact List.Perm.refl _
    · exact List.Perm.trans (List.Perm.cons x ih) (List.Perm.swap b x t)

theorem sortDescBy_perm (key : BM → Int) : ∀ l : List BM,
    List.Perm (sortDescBy key l) l := by
  intro l
  induction l with
  | nil => exact List.Perm.refl _
  | cons b t ih =>
    unfold sortDescBy
    exact List.Perm.trans (insertDescBy_perm key b _) (List.Perm.cons b ih)

theorem qsByCreated_mem (bs : List BM) (b : BM) :
    b ∈ qsByCreated bs ↔ b ∈ bs :=
  (sortDescBy_perm _ bs).mem_iff

theorem qsByCreated_pair (a b : BM) :
    qsByCreated [a, b] = [a, b] ∨ qsByCreated [a, b] = [b, a] := by
  unfold qsByCreated sortDescBy
  rw [show sortDescBy (fun x : BM => x.createdAt) [b] = [b] from rfl]
  unfold insertDescBy
  split_ifs
  · exact Or.inl rfl
  · exact Or.inr rfl

theorem filter_id_single (bs : List BM) (p : BM)
    (hnd : (bs.map BM.id).Nodup) (hp : p ∈ bs) :
    bs.filter (fun b => b.id = p.id) = [p] := by
  induction bs with
  | nil => simp at hp
  | cons b t ih =>
    simp only [List.map_cons, List.nodup_cons] at hnd
    rcases List.mem_cons.mp hp with rfl | hp'
    · rw [List.filter_cons_of_pos (by simp)]
      have ht : t.filter (fun x => x.id = p.id) = [] := by
        rw [List.filter_eq_nil_iff]
        intro x hx
        simp only [decide_eq_true_eq]
        intro he
        exact hnd.1 (he ▸ List.mem_map_of_mem BM.id hx)
      rw [ht]
    · have hbp : ¬(b.id = p.id) := by
        intro he
        exact hnd.1 (he ▸ List.mem_map_of_mem BM.id hp')
      rw [List.filter_cons_of_neg (by simpa using hbp)]
      exact ih hnd.2 hp'

theorem filter_id_pair (bs : List BM) (a b : BM)
    (hnd : (bs.map BM.id).Nodup) (ha : a ∈ bs) (hb : b ∈ bs)
    (hab : a.id ≠ b.id) :
    bs.filter (fun x => x.id ∈ [a.id, b.id]) = [a, b] ∨
    bs.filter (fun x => x.id ∈ [a.id, b.id]) = [b, a] := by
  induction bs with
  | nil => simp at ha
  | cons c t ih =>
    simp only [List.map_cons, List.nodup_cons] at hnd
    by_cases hca : c = a
    · subst hca
      have hbt : b ∈ t := by
        rcases List.mem_cons.mp hb with he | h
        · exact absurd (by rw [he] : c.id = b.id) hab
        · exact h
      left
      rw [List.filter_cons_of_pos (by simp)]
      have hcg : t.filter (fun x => x.id ∈ [c.id, b.id]) =
          t.filter (fun x => x.id = b.id) := by
        apply List.filter_congr
        intro x hx
        simp only [List.mem_cons, List.not_mem_nil, or_false, decide_eq_decide]
        constructor
        · rintro (he | he)
          · exact absurd (he ▸ List.mem_map_of_mem BM.id hx) hnd.1
          · exact he
        · exact Or.inr
      rw [hcg, filter_id_single t b hnd.2 hbt]
    · by_cases hcb : c = b
      · subst hcb
        have hat : a ∈ t := by
          rcases List.mem_cons.mp ha with he | h
          · exact absurd (by rw [he] : a.id = c.id) hab
          · exact h
        right
        rw [List.filter_cons_of_pos (by simp)]
        have hcg : t.filter (fun x => x.id ∈ [a.id, c.id]) =
            t.filter (fun x => x.id = a.id) := by
          apply List.filter_congr
          intro x hx
          simp only [List.mem_cons, List.not_mem_nil, or_false, decide_eq_decide]
          constructor
          · rintro (he | he)
            · exact he
            · exact absurd (he ▸ List.mem_map_of_mem BM.id hx) hnd.1
          · exact Or.inl
        rw [hcg, filter_id_single t a hnd.2 hat]
      · have hat : a ∈ t := by
          rcases List.mem_cons.mp ha with he | h
          · exact absurd he.symm hca
          · exact h
        have hbt : b ∈ t := by
          rcases List.mem_cons.mp hb with he | h
          · exact absurd he.symm hcb
          · exact h
        have hch : ¬(c.id ∈ [a.id, b.id]) := by
          simp only [List.mem_cons, List.not_mem_nil, or_false, not_or]
          constructor
          · intro he
            exact hnd.1 (he ▸ List.mem_map_of_mem BM.id hat)
          · intro he
            exact hnd.1 (he ▸ List.mem_map_of_mem BM.id hbt)
        rw [List.filter_cons_of_neg (by simpa using hch)]
        exact ih hnd.2 hat hbt

theorem foldTags_mem (ds : List BM) (acc : List Nat) (t : Nat) :
    t ∈ ds.foldl (fun acc d => addTags acc d.tags) acc ↔
      t ∈ acc ∨ ∃ d ∈ ds, t ∈ d.tags := by
  induction ds generalizing acc with
  | nil => simp
  | cons d ds ih =>
    rw [show (d :: ds).foldl (fun acc d => addTags acc d.tags) acc =
      ds.foldl (fun acc d => addTags acc d.tags) (addTags acc d.tags) from rfl]
    rw [ih]
    have hstep : t ∈ addTags acc d.tags ↔ t ∈ acc ∨ t ∈ d.tags := by
      show t ∈ d.tags.foldl (fun cur t => if t ∈ cur then cur else cur ++ [t]) acc ↔ _
      induction d.tags generalizing acc with
      | nil => simp
      | cons n ns ihn =>
        rw [show (n :: ns).foldl (fun cur t => if t ∈ cur then cur else cur ++ [t]) acc =
          ns.foldl (fun cur t => if t ∈ cur then cur else cur ++ [t])
            (if n ∈ acc then acc else acc ++ [n]) from rfl]
        rw [ihn]
        by_cases h : n ∈ acc
        · rw [if_pos h]
          constructor
          · rintro (h1 | h1)
            · exact Or.inl h1
            · exact Or.inr (List.mem_cons_of_mem _ h1)
          · rintro (h1 | h1)
            · exact Or.inl h1
            · rcases List.mem_cons.mp h1 with rfl | h1
              · exact Or.inl h
              · exact Or.inr h1
        · rw [if_neg h]
          simp only [List.mem_append, List.mem_singleton, List.mem_cons]
          tauto
    rw [hstep]
    simp only [List.mem_cons]
    constructor
    · rintro ((h1 | h1) | ⟨d', hd', h1⟩)
      · exact Or.inl h1
      · exact Or.inr ⟨d, by simp, h1⟩
      · exact Or.inr ⟨d', by simp [hd'], h1⟩
    · rintro (h1 | ⟨d', hd', h1⟩)
      · exact Or.inl (Or.inl h1)
      · rcases hd' with rfl | hd'
        · exact Or.inl (Or.inr h1)
        · exact Or.inr ⟨d', hd', h1⟩

theorem foldTags_nodup (ds : List BM) (acc : List Nat) (h : acc.Nodup) :
    (ds.foldl (fun acc d => addTags acc d.tags) acc).Nodup := by
  induction ds generalizing acc with
  | nil => exact h
  | cons d ds ih =>
    rw [show (d :: ds).foldl (fun acc d => addTags acc d.tags) acc =
      ds.foldl (fun acc d => addTags acc d.tags) (addTags acc d.tags) from rfl]
    apply ih
    show (d.tags.foldl (fun cur t => if t ∈ cur then cur else cur ++ [t]) acc).Nodup
    induction d.tags generalizing acc with
    | nil => exact h
    | cons n ns ihn =>
      rw [show (n :: ns).foldl (fun cur t => if t ∈ cur then cur else cur ++ [t]) acc =
        ns.foldl (fun cur t => if t ∈ cur then cur else cur ++ [t])
          (if n ∈ acc then acc else acc ++ [n]) from rfl]
      by_cases hn : n ∈ acc
      · rw [if_pos hn]
        exact ihn acc h
      · rw [if_neg hn]
        exact ihn (acc ++ [n]) (by simp [List.nodup_append, h, hn])

theorem mergedCreated_pair (p a b : BM) :
    mergedCreated p [a, b] =
      min p.createdAt (min a.createdAt b.createdAt) := by
  simp only [mergedCreated, List.foldl_cons, List.foldl_nil]
  simp only [Int.min_def]
  split_ifs <;> omega

theorem foldl_filter_mem (ds : List BM) (bs : List BM) (b : BM) :
    b ∈ ds.foldl (fun acc d => acc.filter (fun x => x.id ≠ d.id)) bs ↔
      b ∈ bs ∧ ∀ d ∈ ds, b.id ≠ d.id := by
  induction ds generalizing bs with
  | nil => simp
  | cons d ds ih =>
    rw [show (d :: ds).foldl (fun acc d => acc.filter (fun x => x.id ≠ d.id)) bs =
      ds.foldl (fun acc d => acc.filter (fun x => x.id ≠ d.id))
        (bs.filter (fun x => x.id ≠ d.id)) from rfl]
    rw [ih]
    simp only [List.mem_filter, List.mem_cons, decide_eq_true_eq]
    constructor
    · rintro ⟨⟨h1, h2⟩, h3⟩
      refine ⟨h1, fun d' hd' => ?_⟩
      rcases hd' with rfl | hd'
      · exact h2
      · exact h3 d' hd'
    · rintro ⟨h1, h2⟩
      exact ⟨⟨h1, h2 d (by simp)⟩, fun d' hd' => h2 d' (by simp [hd'])⟩

/-- A bookmark with all-default fields, for concrete instantiations. -/
def bmBase : BM :=
  ⟨0, 0, [], [], [], [], [], [], [], 0, false, false, false, false, none, none⟩

/-- **C9** (confirmed). A successful `merge_bookmarks` never changes the
primary bookmark's url, owner, collection membership, archived flag,
public flag or visit timestamp: the store after the merge contains a
bookmark with the primary's id whose protected fields equal the
original's.  (Tags, notes, created_at, title, description, favicon_url,
screenshot_url, is_favorite and is_read are the only bookmark fields the
merge writes.) -/
theorem claim_C9 (st : Store) (primary : BM) (dupIds : List Nat) (st' : Store)
    (hnd : (st.bookmarks.map BM.id).Nodup)
    (hp : primary ∈ st.bookmarks)
    (hok : mergeBookmarks st primary.id dupIds = .ok st') :
    ∃ p' ∈ st'.bookmarks, p'.id = primary.id ∧ p'.url = primary.url ∧
      p'.userId = primary.userId ∧ p'.collectionId = primary.collectionId ∧
      p'.isArchived = primary.isArchived ∧ p'.isPublic = primary.isPublic ∧
      p'.visitedAt = primary.visitedAt := by
  unfold mergeBookmarks at hok
  by_cases h1 : primary.id = 0 ∨ dupIds = []
  · rw [if_pos h1] at hok
    exact absurd hok (by simp)
  · rw [if_neg h1] at hok
    dsimp only at hok
    by_cases h2 : dupIds.filter (fun d => d ≠ primary.id) = []
    · rw [if_pos h2] at hok
      exact absurd hok (by simp)
    · rw [if_neg h2] at hok
      rw [filter_id_single st.bookmarks primary hnd hp] at hok
      dsimp only at hok
      by_cases h3 : qsByCreated (st.bookmarks.filter
          (fun b => b.id ∈ dupIds.filter (fun d => d ≠ primary.id))) = []
      · rw [if_pos h3] at hok
        exact absurd hok (by simp)
      · rw [if_neg h3] at hok
        by_cases h4 : (qsByCreated (st.bookmarks.filter
            (fun b => b.id ∈ dupIds.filter (fun d => d ≠ primary.id)))).all
              (fun d => d.userId = primary.userId)
        · rw [if_pos h4] at hok
          have hst : st' = ⟨mergedBookmarks st primary
              (qsByCreated (st.bookmarks.filter
                (fun b => b.id ∈ dupIds.filter (fun d => d ≠ primary.id)))),
              mergedActivities st primary
              (qsByCreated (st.bookmarks.filter
                (fun b => b.id ∈ dupIds.filter (fun d => d ≠ primary.id))))⟩ :=
            (Except.ok.inj hok).symm
          subst hst
          refine ⟨mergedPrimary primary
            (qsByCreated (st.bookmarks.filter
              (fun b => b.id ∈ dupIds.filter (fun d => d ≠ primary.id)))),
            ?_, rfl, rfl, rfl, rfl, rfl, rfl, rfl⟩
          show _ ∈ mergedBookmarks st primary _
          unfold mergedBookmarks
          apply (foldl_filter_mem _ _ _).mpr
          constructor
          · apply List.mem_map.mpr
            exact ⟨primary, hp, by simp⟩
          · intro d hd
            have hd2 := (qsByCreated_mem _ d).mp hd
            have hd3 := (List.mem_filter.mp hd2).2
            simp only [decide_eq_true_eq] at hd3
            have hd4 := (List.mem_filter.mp hd3).2
            simp only [decide_eq_true_eq] at hd4
            show primary.id ≠ d.id
            exact fun he => hd4 (he ▸ rfl)
        · rw [if_neg h4] at hok
          exact absurd hok (by simp)

/-- A concrete two-bookmark store for instantiating the merge theorems. -/
def bmC9a : BM :=
  {bmBase with id := 1, userId := 7, url := ("a").toList, isPublic := true}

def bmC9b : BM := {bmBase with id := 2, userId := 7, url := ("b").toList}

def stC9 : Store := ⟨[bmC9a, bmC9b], []⟩

/-- Witness for C9: a concrete two-bookmark store and merge call. -/
theorem claim_C9_witness :
    ∃ p' ∈ ((mergeBookmarks stC9 1 [2]).toOption.getD ⟨[], []⟩).bookmarks,
      p'.id = 1 ∧ p'.url = ("a").toList ∧ p'.userId = 7 ∧
      p'.collectionId = none ∧ p'.isArchived = false ∧ p'.isPublic = true ∧
      p'.visitedAt = none :=
  claim_C9 stC9 bmC9a [2] _ (by decide) (by decide) (by decide)

theorem merge_pair_post (st : Store) (primary dA dB : BM)
    (hpA : dA.id ≠ primary.id) (hpB : dB.id ≠ primary.id)
    (hAB : dA.id ≠ dB.id)
    (hp : primary ∈ st.bookmarks)
    (htags : primary.tags.Nodup)
    (hactA : ∀ a ∈ st.activities,
      ¬(a.activityType = ("merged").toList ∧ a.mergedFrom = dA.id))
    (hactB : ∀ a ∈ st.activities,
      ¬(a.activityType = ("merged").toList ∧ a.mergedFrom = dB.id)) :
    (∀ b ∈ mergedBookmarks st primary [dA, dB], b.id ≠ dA.id ∧ b.id ≠ dB.id) ∧
    mergedPrimary primary [dA, dB] ∈ mergedBookmarks st primary [dA, dB] ∧
    (∀ t, t ∈ (mergedPrimary primary [dA, dB]).tags ↔
      t ∈ primary.tags ∨ t ∈ dA.tags ∨ t ∈ dB.tags) ∧
    (mergedPrimary primary [dA, dB]).tags.Nodup ∧
    (mergedPrimary primary [dA, dB]).createdAt =
      min primary.createdAt (min dA.createdAt dB.createdAt) ∧
    (mergedActivities st primary [dA, dB]).filter
        (fun a => a.activityType = ("merged").toList ∧ a.mergedFrom = dA.id) =
      [⟨primary.id, primary.userId, ("merged").toList, dA.id, dA.url, dA.title⟩] ∧
    (mergedActivities st primary [dA, dB]).filter
        (fun a => a.activityType = ("merged").toList ∧ a.mergedFrom = dB.id) =
      [⟨primary.id, primary.userId, ("merged").toList, dB.id, dB.url, dB.title⟩] := by
  refine ⟨?_, ?_, ?_, ?_, ?_, ?_, ?_⟩
  · intro b hb
    unfold mergedBookmarks at hb
    have hids := ((foldl_filter_mem _ _ _).mp hb).2
    exact ⟨hids dA (by simp), hids dB (by simp)⟩
  · unfold mergedBookmarks
    apply (foldl_filter_mem _ _ _).mpr
    constructor
    · exact List.mem_map.mpr ⟨primary, hp, by simp⟩
    · intro d hd
      show primary.id ≠ d.id
      rcases (by simpa using hd : d = dA ∨ d = dB) with rfl | rfl
      · exact fun he => hpA he.symm
      · exact fun he => hpB he.symm
  · intro t
    show t ∈ combinedTags primary [dA, dB] ↔ _
    unfold combinedTags
    rw [foldTags_mem]
    simp only [List.mem_cons, List.not_mem_nil, or_false]
    constructor
    · rintro (h | ⟨d, rfl | rfl, h⟩)
      · exact Or.inl h
      · exact Or.inr (Or.inl h)
      · exact Or.inr (Or.inr h)
    · rintro (h | h | h)
      · exact Or.inl h
      · exact Or.inr ⟨dA, Or.inl rfl, h⟩
      · exact Or.inr ⟨dB, Or.inr rfl, h⟩
  · show (combinedTags primary [dA, dB]).Nodup
    unfold combinedTags
    exact foldTags_nodup _ _ htags
  · show mergedCreated primary [dA, dB] = _
    exact mergedCreated_pair primary dA dB
  · unfold mergedActivities
    rw [List.filter_append]
    rw [List.filter_eq_nil_iff.mpr (fun a ha => by
      simp only [decide_eq_true_eq]
      exact hactA a ha)]
    rw [show [dA, dB].map (fun d => (⟨primary.id, primary.userId,
        ("merged").toList, d.id, d.url, d.title⟩ : MergeActivity)) =
      [⟨primary.id, primary.userId, ("merged").toList, dA.id, dA.url, dA.title⟩,
       ⟨primary.id, primary.userId, ("merged").toList, dB.id, dB.url, dB.title⟩]
      from rfl]
    rw [List.filter_cons_of_pos (by simp)]
    rw [List.filter_cons_of_neg (by
      simp only [decide_eq_true_eq, not_and]
      intro _
      exact fun he => hAB he.symm)]
    rfl
  · unfold mergedActivities
    rw [List.filter_append]
    rw [List.filter_eq_nil_iff.mpr (fun a ha => by
      simp only [decide_eq_true_eq]
      exact hactB a ha)]
    rw [show [dA, dB].map (fun d => (⟨primary.id, primary.userId,
        ("merged").toList, d.id, d.url, d.title⟩ : MergeActivity)) =
      [⟨primary.id, primary.userId, ("merged").toList, dA.id, dA.url, dA.title⟩,
       ⟨primary.id, primary.userId, ("merged").toList, dB.id, dB.url, dB.title⟩]
      from rfl]
    rw [List.filter_cons_of_neg (by
      simp only [decide_eq_true_eq, not_and]
      intro _
      exact hAB)]
    rw [List.filter_cons_of_pos (by simp)]
    rfl

/-- **C1** (confirmed). After a successful `merge_bookmarks(primary,
[d1, d2])` on same-owner bookmarks, the two duplicates no longer exist in
the store, the primary's tag list equals the union of the three original
tag sets with no duplicate entries, its `created_at` is the minimum of the
three original timestamps, and the activity log holds exactly one
`merged` entry per duplicate recording that duplicate's id, url and
title. -/
theorem claim_C1 (st : Store) (primary d1 d2 : BM) (st' : Store)
    (hnd : (st.bookmarks.map BM.id).Nodup)
    (hp : primary ∈ st.bookmarks)
    (h1 : d1 ∈ st.bookmarks) (h2 : d2 ∈ st.bookmarks)
    (hp0 : primary.id ≠ 0)
    (hne1 : d1.id ≠ primary.id) (hne2 : d2.id ≠ primary.id)
    (hne12 : d1.id ≠ d2.id)
    (huser1 : d1.userId = primary.userId) (huser2 : d2.userId = primary.userId)
    (htags : primary.tags.Nodup)
    (hact : ∀ a ∈ st.activities, ¬(a.activityType = ("merged").toList ∧
      (a.mergedFrom = d1.id ∨ a.mergedFrom = d2.id)))
    (hok : mergeBookmarks st primary.id [d1.id, d2.id] = .ok st') :
    (∀ b ∈ st'.bookmarks, b.id ≠ d1.id ∧ b.id ≠ d2.id) ∧
    (∃ p' ∈ st'.bookmarks, p'.id = primary.id ∧
      (∀ t, t ∈ p'.tags ↔ t ∈ primary.tags ∨ t ∈ d1.tags ∨ t ∈ d2.tags) ∧
      p'.tags.Nodup ∧
      p'.createdAt = min primary.createdAt (min d1.createdAt d2.createdAt)) ∧
    st'.activities.filter (fun a => a.activityType = ("merged").toList ∧
        a.mergedFrom = d1.id) =
      [⟨primary.id, primary.userId, ("merged").toList, d1.id, d1.url, d1.title⟩] ∧
    st'.activities.filter (fun a => a.activityType = ("merged").toList ∧
        a.mergedFrom = d2.id) =
      [⟨primary.id, primary.userId, ("merged").toList, d2.id, d2.url, d2.title⟩] := by
  have hactA : ∀ a ∈ st.activities,
      ¬(a.activityType = ("merged").toList ∧ a.mergedFrom = d1.id) :=
    fun a ha hc => hact a ha ⟨hc.1, Or.inl hc.2⟩
  have hactB : ∀ a ∈ st.activities,
      ¬(a.activityType = ("merged").toList ∧ a.mergedFrom = d2.id) :=
    fun a ha hc => hact a ha ⟨hc.1, Or.inr hc.2⟩
  unfold mergeBookmarks at hok
  rw [if_neg (by simp [hp0])] at hok
  dsimp only at hok
  have hfl : [d1.id, d2.id].filter (fun d => d ≠ primary.id) = [d1.id, d2.id] := by
    rw [List.filter_cons_of_pos (by simpa using hne1),
      List.filter_cons_of_pos (by simpa using hne2)]
    rfl
  rw [hfl, if_neg (by simp)] at hok
  rw [filter_id_single st.bookmarks primary hnd hp] at hok
  dsimp only at hok
  have hds : qsByCreated (st.bookmarks.filter
        (fun b => b.id ∈ [d1.id, d2.id])) = [d1, d2] ∨
      qsByCreated (st.bookmarks.filter
        (fun b => b.id ∈ [d1.id, d2.id])) = [d2, d1] := by
    rcases filter_id_pair st.bookmarks d1 d2 hnd h1 h2 hne12 with h | h <;> rw [h]
    · exact qsByCreated_pair d1 d2
    · rcases qsByCreated_pair d2 d1 with h' | h'
      · exact Or.inr h'
      · exact Or.inl h'
  rcases hds with hds | hds <;> rw [hds] at hok
  · rw [if_neg (by simp), if_pos (by simp [huser1, huser2])] at hok
    have hst : st' = ⟨mergedBookmarks st primary [d1, d2],
        mergedActivities st primary [d1, d2]⟩ := (Except.ok.inj hok).symm
    subst hst
    obtain ⟨ha, hb, hc, hd, he, hf, hg⟩ :=
      merge_pair_post st primary d1 d2 hne1 hne2 hne12 hp htags hactA hactB
    exact ⟨ha, ⟨mergedPrimary primary [d1, d2], hb, rfl, hc, hd, he⟩, hf, hg⟩
  · rw [if_neg (by simp), if_pos (by simp [huser1, huser2])] at hok
    have hst : st' = ⟨mergedBookmarks st primary [d2, d1],
        mergedActivities st primary [d2, d1]⟩ := (Except.ok.inj hok).symm
    subst hst
    obtain ⟨ha, hb, hc, hd, he, hf, hg⟩ :=
      merge_pair_post st primary d2 d1 hne2 hne1 (fun h => hne12 h.symm) hp
        htags hactB hactA
    refine ⟨fun b hbm => ⟨(ha b hbm).2, (ha b hbm).1⟩,
      ⟨mergedPrimary primary [d2, d1], hb, rfl, ?_, hd, ?_⟩, hg, hf⟩
    · intro t
      rw [hc t]
      tauto
    · rw [he, min_comm d2.createdAt d1.createdAt]

/-- Concrete bookmarks for the C1 witness merge. -/
def bmC1p : BM :=
  {bmBase with id := 1, userId := 7, tags := [1, 2], createdAt := 5}

def bmC1a : BM :=
  {bmBase with id := 2, userId := 7, url := ("ua").toList, title := ("ta").toList, tags := [2, 3], createdAt := 3}

def bmC1b : BM :=
  {bmBase with id := 3, userId := 7, url := ("ub").toList, title := ("tb").toList, tags := [4], createdAt := 9}

def stC1 : Store := ⟨[bmC1p, bmC1a, bmC1b], []⟩

/-- Witness for C1: a concrete three-bookmark merge. -/
theorem claim_C1_witness :
    (∀ b ∈ ((mergeBookmarks stC1 1 [2, 3]).toOption.getD ⟨[], []⟩).bookmarks,
        b.id ≠ bmC1a.id ∧ b.id ≠ bmC1b.id) ∧
    (∃ p' ∈ ((mergeBookmarks stC1 1 [2, 3]).toOption.getD ⟨[], []⟩).bookmarks,
        p'.id = bmC1p.id ∧
        (∀ t, t ∈ p'.tags ↔
          t ∈ bmC1p.tags ∨ t ∈ bmC1a.tags ∨ t ∈ bmC1b.tags) ∧
        p'.tags.Nodup ∧
        p'.createdAt =
          min bmC1p.createdAt (min bmC1a.createdAt bmC1b.createdAt)) ∧
    ((mergeBookmarks stC1 1 [2, 3]).toOption.getD ⟨[], []⟩).activities.filter
        (fun a => a.activityType = ("merged").toList ∧
          a.mergedFrom = bmC1a.id) =
      [⟨bmC1p.id, bmC1p.userId, ("merged").toList, bmC1a.id, bmC1a.url,
        bmC1a.title⟩] ∧
    ((mergeBookmarks stC1 1 [2, 3]).toOption.getD ⟨[], []⟩).activities.filter
        (fun a => a.activityType = ("merged").toList ∧
          a.mergedFrom = bmC1b.id) =
      [⟨bmC1p.id, bmC1p.userId, ("merged").toList, bmC1b.id, bmC1b.url,
        bmC1b.title⟩] :=
  claim_C1 stC1 bmC1p bmC1a bmC1b _ (by decide) (by decide) (by decide)
    (by decide) (by decide) (by decide) (by decide) (by decide) (by decide)
    (by decide) (by decide) (by decide) (by decide)

/-- **C2 counterexample.** A merge call in which one of the two requested
duplicate ids does not exist is NOT rejected: `filter(id__in=...)` silently
drops missing ids and the merge proceeds with the subset that exists. -/
theorem claim_C2_counterexample :
    (∃ b ∈ stC9.bookmarks, b.id = 2) ∧
    (∀ b ∈ stC9.bookmarks, b.id ≠ 99) ∧
    (mergeBookmarks stC9 1 [2, 99]).toOption.isSome = true :=
  ⟨by decide, by decide, by decide⟩

/-- **C2** (corrected).  A NotFound `ValueError` is raised when the primary
id references no bookmark; when NONE of the (non-self) duplicate ids
exist, the error is the "No duplicate bookmarks found to merge"
`ValueError`; but a call in which only some duplicate ids are missing
proceeds with the subset that exists instead of being rejected. -/
theorem claim_C2 :
    (∀ (st : Store) (pid : Nat) (dupIds : List Nat),
      pid ≠ 0 →
      dupIds.filter (fun d => d ≠ pid) ≠ [] →
      (∀ b ∈ st.bookmarks, b.id ≠ pid) →
      mergeBookmarks st pid dupIds = .error .notFound) ∧
    (∀ (st : Store) (primary : BM) (dupIds : List Nat),
      (st.bookmarks.map BM.id).Nodup →
      primary ∈ st.bookmarks →
      primary.id ≠ 0 →
      dupIds.filter (fun d => d ≠ primary.id) ≠ [] →
      (∀ b ∈ st.bookmarks, b.id ∉ dupIds.filter (fun d => d ≠ primary.id)) →
      mergeBookmarks st primary.id dupIds = .error .noDuplicates) ∧
    (mergeBookmarks stC9 1 [2, 99]).toOption.isSome = true := by
  refine ⟨?_, ?_, by decide⟩
  · intro st pid dupIds hpid hfl hmiss
    have hne : dupIds ≠ [] := by
      intro he
      rw [he] at hfl
      exact hfl rfl
    unfold mergeBookmarks
    rw [if_neg (by simp [hpid, hne])]
    dsimp only
    rw [if_neg hfl]
    rw [List.filter_eq_nil_iff.mpr (fun b hb => by
      simp only [decide_eq_true_eq]
      exact hmiss b hb)]
  · intro st primary dupIds hnd hp hpid hfl hmiss
    have hne : dupIds ≠ [] := by
      intro he
      rw [he] at hfl
      exact hfl rfl
    unfold mergeBookmarks
    rw [if_neg (by simp [hpid, hne])]
    dsimp only
    rw [if_neg hfl]
    rw [filter_id_single st.bookmarks primary hnd hp]
    dsimp only
    rw [List.filter_eq_nil_iff.mpr (fun b hb => by
      simp only [decide_eq_true_eq]
      exact hmiss b hb)]
    rw [if_pos (show qsByCreated [] = [] from rfl)]

/-- Witness for C2: a store whose only bookmark has id 2; merging into the
absent primary id 1 errs with the NotFound `ValueError`. -/
theorem claim_C2_witness :
    mergeBookmarks ⟨[bmC9b], []⟩ 1 [2] = .error .notFound :=
  claim_C2.1 ⟨[bmC9b], []⟩ 1 [2] (by decide) (by decide) (by decide)

/-! ## `LinkHealthChecker.get_bookmarks_for_checking` (link_health.py 168-213) -/

/-- Modelled from the spec: the `LinkHealth` model class itself is not in
the source tree; spec section "Data model" gives a one-to-one record per
bookmark with `status ∈ {pending, ok, redirected, broken, archived}`,
`last_checked` and `next_check` (the further spec fields `final_url`,
`status_code`, `response_time`, `error_message`, `archive_url`,
`check_count` are never read by the scheduler modelled here).  `status`
is a database string column, so `order_by('health__status')` compares it
lexicographically. -/
structure LinkHealth where
  bookmarkId : Nat
  status : PyStr
  lastChecked : Int
  nextCheck : Int
  deriving DecidableEq, Repr

/-- The one-to-one `health` join. -/
def healthOf (hs : List LinkHealth) (bid : Nat) : Option LinkHealth :=
  hs.find? (fun h => h.bookmarkId = bid)

/-- Lexicographic `<` on database strings (byte order). -/
def pyStrLt : PyStr → PyStr → Bool
  | [], [] => false
  | [], _ :: _ => true
  | _ :: _, [] => false
  | a :: as, b :: bs =>
    if a.toNat < b.toNat then true
    else if a.toNat = b.toNat then pyStrLt as bs
    else false

/-- The `order_by('health__status', 'health__last_checked')` sort key. -/
def healthSortKey (hs : List LinkHealth) (b : BM) : PyStr × Int :=
  match healthOf hs b.id with
  | some h => (h.status, h.lastChecked)
  | none => ([], 0)

def keyLe (x y : PyStr × Int) : Bool :=
  if x.1 = y.1 then x.2 ≤ y.2 else pyStrLt x.1 y.1

/-- Stable ascending insertion sort on the two-column key. -/
def insertAscBy (key : BM → PyStr × Int) (b : BM) : List BM → List BM
  | [] => [b]
  | x :: t => if keyLe (key b) (key x) then b :: x :: t else x :: insertAscBy key b t

def sortAscBy (key : BM → PyStr × Int) : List BM → List BM
  | [] => []
  | b :: t => insertAscBy key b (sortAscBy key t)

/-- `get_bookmarks_for_checking(user_id, limit)`: unchecked (no health
record, non-archived) bookmarks first, capped at `limit`; if the quota is
not filled, append due re-checks (`next_check <= now`, non-archived)
ordered by `('health__status', 'health__last_checked')`.  Querysets keep
the default `['-created_at']` bookmark order until `order_by` replaces
it; `user_id` is falsy when 0 (Python `None`). -/
def getBookmarksForChecking (st : List BM) (hs : List LinkHealth)
    (uid : Nat) (now : Int) (limit : Nat) : List BM :=
  let q1 := (qsByCreated st).filter (fun b => (healthOf hs b.id).isNone)
  let q2 := if uid ≠ 0 then q1.filter (fun b => b.userId = uid) else q1
  let q3 := q2.filter (fun b => b.isArchived = false)
  let unchecked := q3.take limit
  if unchecked.length < limit then
    let r1 := (qsByCreated st).filter (fun b =>
      (match healthOf hs b.id with
        | some h => decide (h.nextCheck ≤ now)
        | none => false) && b.isArchived = false)
    let r2 := if uid ≠ 0 then r1.filter (fun b => b.userId = uid) else r1
    unchecked ++ (sortAscBy (healthSortKey hs) r2).take (limit - unchecked.length)
  else unchecked

/-- Concrete scheduler inputs for C8: two due re-checks, one `broken`,
one `archived`. -/
def bmC8a : BM := {bmBase with id := 21, userId := 7, createdAt := 1}

def bmC8b : BM := {bmBase with id := 22, userId := 7, createdAt := 2}

def lhC8a : LinkHealth := ⟨21, ("broken").toList, 50, 60⟩

def lhC8b : LinkHealth := ⟨22, ("archived").toList, 40, 60⟩

/-- **C8** (code bug).  The scheduler comment and the spec promise
broken-first ordering, but `order_by('health__status')` sorts the status
STRING alphabetically, and `'archived' < 'broken'`: with two due
bookmarks, one `broken` and one `archived`, the `archived` one is
returned first, so a broken bookmark does NOT precede every non-broken
one. -/
theorem claim_C8 :
    lhC8a.status = ("broken").toList ∧
    lhC8b.status = ("archived").toList ∧
    lhC8a.nextCheck ≤ 100 ∧ lhC8b.nextCheck ≤ 100 ∧
    getBookmarksForChecking [bmC8a, bmC8b] [lhC8a, lhC8b] 0 100 10 =
      [bmC8b, bmC8a] := by
  refine ⟨rfl, rfl, by decide, by decide, by decide⟩

/-! ## `DuplicateManager.detect_duplicates` (duplicates.py lines 16-236)

Python dicts are insertion-ordered association lists; `set` iteration
order is unspecified in CPython, modelled here as first-insertion order
(none of the proved properties depend on it).  Django `Bookmark` objects
compare and hash by primary key, so `set(...).issubset(...)` on bookmarks
is an id-wise test. -/

/-- `dict.setdefault(k, []).append(b)` on an insertion-ordered dict of
bookmark lists (the `normalized_urls` / `base_url_mapping` /
`trigram_index` pattern). -/
def bmInsert (d : List (PyStr × List BM)) (k : PyStr) (b : BM) :
    List (PyStr × List BM) :=
  match d with
  | [] => [(k, [b])]
  | (k', vs) :: rest =>
    if k' = k then (k', vs ++ [b]) :: rest else (k', vs) :: bmInsert rest k b

/-- One keyed-dict accumulation step: insert `b` under `f b` when present. -/
def keyedInsert (f : BM → Option PyStr) (d : List (PyStr × List BM))
    (b : BM) : List (PyStr × List BM) :=
  match f b with
  | some u => bmInsert d u b
  | none => d

/-- The `_dup`-marker base URL of a bookmark (lines 76-96): `None` when the
raw URL fails to parse or carries no `_dup` query key; otherwise the
normalisation of the URL rebuilt without the `_dup` parameter. -/
def markerKey (b : BM) : Option PyStr :=
  match urlparseE b.url with
  | .error _ => none
  | .ok pr =>
    if ("_dup").toList ∈ (parseQs pr.query).map Prod.fst then
      some (normalizeUrl (urlunparse ⟨pr.scheme, pr.netloc, pr.path, pr.params,
        urlencode ((parseQs pr.query).filter
          (fun kv => kv.1 ≠ ("_dup").toList)), pr.fragment⟩))
    else none

/-- The main loop of `_detect_url_duplicates` (lines 73-106): builds the
`normalized_urls` and `base_url_mapping` dicts; a `ValueError` from the
raw `urlparse` aborts the whole detection. -/
def urlScan : List BM → List (PyStr × List BM) → List (PyStr × List BM) →
    Except Unit (List (PyStr × List BM) × List (PyStr × List BM))
  | [], nd, bd => .ok (nd, bd)
  | b :: rest, nd, bd =>
    match urlparseE b.url with
    | .error _ => .error ()
    | .ok _ =>
      urlScan rest (bmInsert nd (normalizeUrl b.url) b)
        (keyedInsert markerKey bd b)

structure DupGroup where
  isUrlKind : Bool
  key : PyStr
  bookmarks : List BM
  deriving DecidableEq, Repr

/-- Lines 109-113: one group per normalized-URL bucket with more than one
entry. -/
def bucketGroups (nd : List (PyStr × List BM)) : List DupGroup :=
  (nd.filter (fun kv => kv.2.length > 1)).map (fun kv => ⟨true, kv.1, kv.2⟩)

/-- Lines 116-135: one `base_url_mapping` entry; `original_bookmarks` are
the bookmarks whose normalized URL equals the base URL, and the combined
group is appended unless its id-set is contained in an already-collected
group. -/
def markerStep (bs : List BM) (acc : List DupGroup) (kv : PyStr × List BM) :
    List DupGroup :=
  let originals := bs.filter (fun b => normalizeUrl b.url = kv.1)
  if originals ≠ [] then
    let allRelated := originals ++ kv.2
    if allRelated.length > 1 ∧
        ¬(acc.any (fun g => allRelated.all
          (fun b => g.bookmarks.any (fun x => x.id = b.id)))) then
      acc ++ [⟨true, kv.1, allRelated⟩]
    else acc
  else acc

def detectUrlDuplicates (bs : List BM) : Except Unit (List DupGroup) :=
  match urlScan bs [] [] with
  | .error _ => .error ()
  | .ok (nd, bd) => .ok (bd.foldl (markerStep bs) (bucketGroups nd))

/-- `self.similarity_threshold = 0.8`. -/
def similarityThreshold : ℚ := 4 / 5

/-- The inner loop of the small-collection title comparison (lines
163-171): collect later bookmarks whose title is at least 80% similar,
marking them processed. -/
def innerScan (b1 : BM) : List BM → List Nat → (List BM × List Nat)
  | [], pr => ([], pr)
  | b2 :: rest, pr =>
    if b2.id ∈ pr then innerScan b1 rest pr
    else if similarityThreshold ≤ calculateTextSimilarity b1.title b2.title then
      let g := innerScan b1 rest (pr ++ [b2.id])
      (b2 :: g.1, g.2)
    else innerScan b1 rest pr

/-- The outer loop of `_detect_title_duplicates` (lines 156-174). -/
def titleSmallLoop : List BM → List Nat → List (List BM)
  | [], _ => []
  | b1 :: rest, pr =>
    if b1.id ∈ pr then titleSmallLoop rest pr
    else
      let g := innerScan b1 rest (pr ++ [b1.id])
      if (b1 :: g.1).length > 1 then (b1 :: g.1) :: titleSmallLoop rest g.2
      else titleSmallLoop rest g.2

/-- `title.lower()[i:i+3]` for `i in range(len(title) - 2)` (lines
189-192). -/
def titleTrigrams (title : PyStr) : List PyStr :=
  (List.range ((asciiLower title).length - 2)).map
    (fun i => slice3 (asciiLower title) i)

/-- The trigram index of `_detect_title_duplicates_efficient`. -/
def triIdx (bs : List BM) : List (PyStr × List BM) :=
  bs.foldl (fun d b =>
    (titleTrigrams b.title).foldl (fun d tri => bmInsert d tri b) d) []

/-- The candidate pairs contributed by one index bucket (lines 196-202):
all `(min id, max id)` pairs of distinct-id bookmarks. -/
def bucketPairs : List BM → List (Nat × Nat)
  | [] => []
  | b1 :: rest =>
    ((rest.filter (fun b2 => b2.id ≠ b1.id)).map
      (fun b2 => (min b1.id b2.id, max b1.id b2.id))) ++ bucketPairs rest

def setInsert (s : List (Nat × Nat)) (p : Nat × Nat) : List (Nat × Nat) :=
  if p ∈ s then s else s ++ [p]

def candidatePairsOf (idx : List (PyStr × List BM)) : List (Nat × Nat) :=
  (idx.flatMap (fun kv => bucketPairs kv.2)).foldl setInsert []

/-- `bookmark_dict = {b.id: b for b in bookmarks}`: the last bookmark with
a given id wins; a `KeyError` cannot occur for ids drawn from the index. -/
def dictGet (bs : List BM) (i : Nat) : BM :=
  match bs.reverse.find? (fun b => b.id = i) with
  | some b => b
  | none => bmBase

def sgInsert (d : List (Nat × List BM)) (k : Nat) (b1 b2 : BM) :
    List (Nat × List BM) :=
  match d with
  | [] => [(k, [b1, b2])]
  | (k', vs) :: rest =>
    if k' = k then (k', vs ++ [b1, b2]) :: rest
    else (k', vs) :: sgInsert rest k b1 b2

/-- Lines 208-216: full similarity on each candidate pair, grouped by the
smaller id. -/
def simGroups (bs : List BM) (cps : List (Nat × Nat)) : List (Nat × List BM) :=
  cps.foldl (fun d p =>
    if similarityThreshold ≤
        calculateTextSimilarity (dictGet bs p.1).title (dictGet bs p.2).title
    then sgInsert d p.1 (dictGet bs p.1) (dictGet bs p.2)
    else d) []

/-- Lines 222-228: keep the first occurrence of each id. -/
def dedupByIdScan : List BM → List Nat → List BM
  | [], _ => []
  | b :: t, seen =>
    if b.id ∈ seen then dedupByIdScan t seen
    else b :: dedupByIdScan t (seen ++ [b.id])

def titleEfficient (bs : List BM) : List (List BM) :=
  (simGroups bs (candidatePairsOf (triIdx bs))).filterMap (fun kv =>
    if (dedupByIdScan kv.2 []).length > 1 then some (dedupByIdScan kv.2 [])
    else none)

def detectTitleDuplicates (titled : List BM) : List (List BM) :=
  if titled.length > 1000 then titleEfficient titled
  else titleSmallLoop titled []

/-- `DuplicateManager.detect_duplicates` (lines 16-57): URL groups first,
then title groups with URL-claimed members removed and groups of fewer
than two remaining members dropped. -/
def detectDuplicates (store : List BM) (uid : Nat) : Except Unit (List DupGroup) :=
  match detectUrlDuplicates ((qsByCreated store).filter
      (fun b => b.userId = uid ∧ b.isArchived = false)) with
  | .error e => .error e
  | .ok urlGs =>
    .ok (urlGs ++ (detectTitleDuplicates
        (((qsByCreated store).filter
          (fun b => b.userId = uid ∧ b.isArchived = false)).filter
            (fun b => b.title ≠ []))).filterMap (fun g =>
      if (g.filter (fun b =>
          b.id ∉ urlGs.flatMap (fun g2 => g2.bookmarks.map BM.id))).length > 1
      then some (⟨false, [],
        g.filter (fun b =>
          b.id ∉ urlGs.flatMap (fun g2 => g2.bookmarks.map BM.id))⟩ : DupGroup)
      else none))

/-- Two titles share an index trigram. -/
def sharesTri (t1 t2 : PyStr) : Bool :=
  (titleTrigrams t1).any (fun tr => tr ∈ titleTrigrams t2)

/-- `x` is filed under key `k` in the bucket dict `d`. -/
def inBucket (d : List (PyStr × List BM)) (k : PyStr) (x : BM) : Prop :=
  ∃ vs, (k, vs) ∈ d ∧ x ∈ vs

theorem bmInsert_inBucket (d : List (PyStr × List BM)) (k : PyStr) (b : BM)
    (k' : PyStr) (x : BM) :
    inBucket (bmInsert d k b) k' x ↔ inBucket d k' x ∨ (k' = k ∧ x = b) := by
  induction d with
  | nil =>
    unfold bmInsert inBucket
    constructor
    · rintro ⟨vs, hvs, hx⟩
      simp only [List.mem_singleton, Prod.mk.injEq] at hvs
      rw [hvs.2] at hx
      simp only [List.mem_singleton] at hx
      exact Or.inr ⟨hvs.1, hx⟩
    · rintro (⟨vs, hvs, _⟩ | ⟨rfl, rfl⟩)
      · simp at hvs
      · exact ⟨[x], by simp, by simp⟩
  | cons kv rest ih =>
    match kv with
    | (k0, vs0) =>
      unfold bmInsert
      by_cases hk : k0 = k
      · subst hk
        rw [if_pos rfl]
        unfold inBucket
        constructor
        · rintro ⟨vs, hvs, hx⟩
          rcases List.mem_cons.mp hvs with he | ht
          · have h1 : k' = k0 := (Prod.mk.injEq _ _ _ _ ▸ he).1
            have h2 : vs = vs0 ++ [b] := (Prod.mk.injEq _ _ _ _ ▸ he).2
            rw [h2] at hx
            rcases List.mem_append.mp hx with hx | hx
            · exact Or.inl ⟨vs0, by simp [h1], hx⟩
            · simp only [List.mem_singleton] at hx
              exact Or.inr ⟨h1, hx⟩
          · exact Or.inl ⟨vs, List.mem_cons_of_mem _ ht, hx⟩
        · rintro (⟨vs, hvs, hx⟩ | ⟨h1, h2⟩)
          · rcases List.mem_cons.mp hvs with he | ht
            · have ha : k' = k0 := (Prod.mk.injEq _ _ _ _ ▸ he).1
              have hb2 : vs = vs0 := (Prod.mk.injEq _ _ _ _ ▸ he).2
              exact ⟨vs0 ++ [b], by simp [ha], by simp [hb2 ▸ hx]⟩
            · exact ⟨vs, List.mem_cons_of_mem _ ht, hx⟩
          · exact ⟨vs0 ++ [b], by simp [h1], by simp [h2]⟩
      · rw [if_neg hk]
        unfold inBucket
        constructor
        · rintro ⟨vs, hvs, hx⟩
          rcases List.mem_cons.mp hvs with he | ht
          · exact Or.inl ⟨vs, by simp [he], hx⟩
          · rcases (ih).mp ⟨vs, ht, hx⟩ with h | h
            · obtain ⟨vs', hvs', hx'⟩ := h
              exact Or.inl ⟨vs', List.mem_cons_of_mem _ hvs', hx'⟩
            · exact Or.inr h
        · rintro (⟨vs, hvs, hx⟩ | h)
          · rcases List.mem_cons.mp hvs with he | ht
            · exact ⟨vs, by simp [he], hx⟩
            · obtain ⟨vs', hvs', hx'⟩ := (ih).mpr (Or.inl ⟨vs, ht, hx⟩)
              exact ⟨vs', List.mem_cons_of_mem _ hvs', hx'⟩
          · obtain ⟨vs', hvs', hx'⟩ := (ih).mpr (Or.inr h)
            exact ⟨vs', List.mem_cons_of_mem _ hvs', hx'⟩

theorem bmInsert_keys (d : List (PyStr × List BM)) (k : PyStr) (b : BM) :
    (bmInsert d k b).map Prod.fst =
      if k ∈ d.map Prod.fst then d.map Prod.fst else d.map Prod.fst ++ [k] := by
  induction d with
  | nil => simp [bmInsert]
  | cons kv rest ih =>
    match kv with
    | (k0, vs0) =>
      unfold bmInsert
      by_cases hk : k0 = k
      · subst hk
        rw [if_pos rfl]
        simp
      · rw [if_neg hk]
        simp only [List.map_cons, List.mem_cons]
        rw [ih]
        by_cases hmem : k ∈ rest.map Prod.fst
        · rw [if_pos hmem, if_pos (Or.inr hmem)]
        · rw [if_neg hmem, if_neg (by
            rintro (he | hm)
            · exact hk he.symm
            · exact hmem hm)]
          simp

theorem bmInsert_keys_nodup (d : List (PyStr × List BM)) (k : PyStr) (b : BM)
    (h : (d.map Prod.fst).Nodup) : ((bmInsert d k b).map Prod.fst).Nodup := by
  rw [bmInsert_keys]
  split_ifs with hmem
  · exact h
  · simp [List.nodup_append, h, hmem]

theorem uniqueKey_val (d : List (PyStr × List BM))
    (h : (d.map Prod.fst).Nodup) (k : PyStr) (vs vs' : List BM)
    (h1 : (k, vs) ∈ d) (h2 : (k, vs') ∈ d) : vs = vs' := by
  induction d with
  | nil => simp at h1
  | cons kv rest ih =>
    simp only [List.map_cons, List.nodup_cons] at h
    rcases List.mem_cons.mp h1 with he1 | ht1
    · rcases List.mem_cons.mp h2 with he2 | ht2
      · exact ((Prod.mk.injEq _ _ _ _).mp (he1.trans he2.symm)).2
      · exfalso
        have hk2 : k ∈ rest.map Prod.fst := List.mem_map_of_mem Prod.fst ht2
        apply h.1
        rw [← he1]
        exact hk2
    · rcases List.mem_cons.mp h2 with he2 | ht2
      · exfalso
        have hk2 : k ∈ rest.map Prod.fst := List.mem_map_of_mem Prod.fst ht1
        apply h.1
        rw [← he2]
        exact hk2
      · exact ih h.2 ht1 ht2

theorem foldl_bmInsert_keys_nodup (l : List PyStr) (b : BM) :
    ∀ d : List (PyStr × List BM), (d.map Prod.fst).Nodup →
    ((l.foldl (fun d tri => bmInsert d tri b) d).map Prod.fst).Nodup := by
  induction l with
  | nil => intro d h; exact h
  | cons tri l ih =>
    intro d h
    exact ih (bmInsert d tri b) (bmInsert_keys_nodup d tri b h)

theorem triIdx_keys_nodup (bs : List BM) :
    ((triIdx bs).map Prod.fst).Nodup := by
  unfold triIdx
  have haux : ∀ (l : List BM) (d : List (PyStr × List BM)),
      (d.map Prod.fst).Nodup →
      ((l.foldl (fun d b =>
        (titleTrigrams b.title).foldl (fun d tri => bmInsert d tri b) d) d).map
          Prod.fst).Nodup := by
    intro l
    induction l with
    | nil => intro d h; exact h
    | cons b l ih =>
      intro d h
      exact ih _ (foldl_bmInsert_keys_nodup (titleTrigrams b.title) b d h)
  exact haux bs [] (by simp)

theorem foldl_bmInsert_inBucket (l : List PyStr) (b : BM) (tri : PyStr) (x : BM) :
    ∀ d : List (PyStr × List BM),
    (inBucket (l.foldl (fun d t => bmInsert d t b) d) tri x ↔
      inBucket d tri x ∨ (tri ∈ l ∧ x = b)) := by
  induction l with
  | nil => intro d; simp
  | cons t l ih =>
    intro d
    rw [show (t :: l).foldl (fun d t => bmInsert d t b) d =
      l.foldl (fun d t => bmInsert d t b) (bmInsert d t b) from rfl]
    rw [ih, bmInsert_inBucket]
    simp only [List.mem_cons]
    constructor
    · rintro ((h | ⟨h1, h2⟩) | ⟨h1, h2⟩)
      · exact Or.inl h
      · exact Or.inr ⟨Or.inl h1, h2⟩
      · exact Or.inr ⟨Or.inr h1, h2⟩
    · rintro (h | ⟨(h1 | h1), h2⟩)
      · exact Or.inl (Or.inl h)
      · exact Or.inl (Or.inr ⟨h1, h2⟩)
      · exact Or.inr ⟨h1, h2⟩

theorem triIdx_inBucket (bs : List BM) (tri : PyStr) (x : BM) :
    inBucket (triIdx bs) tri x ↔ x ∈ bs ∧ tri ∈ titleTrigrams x.title := by
  unfold triIdx
  have haux : ∀ (l : List BM) (d : List (PyStr × List BM)),
      (inBucket (l.foldl (fun d b =>
        (titleTrigrams b.title).foldl (fun d tri => bmInsert d tri b) d) d) tri x ↔
        inBucket d tri x ∨ (x ∈ l ∧ tri ∈ titleTrigrams x.title)) := by
    intro l
    induction l with
    | nil => intro d; simp
    | cons b l ih =>
      intro d
      rw [show (b :: l).foldl (fun d b =>
          (titleTrigrams b.title).foldl (fun d tri => bmInsert d tri b) d) d =
        l.foldl (fun d b =>
          (titleTrigrams b.title).foldl (fun d tri => bmInsert d tri b) d)
          ((titleTrigrams b.title).foldl (fun d tri => bmInsert d tri b) d)
        from rfl]
      rw [ih, foldl_bmInsert_inBucket]
      simp only [List.mem_cons]
      constructor
      · rintro ((h | ⟨h1, h2⟩) | ⟨h1, h2⟩)
        · exact Or.inl h
        · exact Or.inr ⟨Or.inl h2, h2.symm ▸ h1⟩
        · exact Or.inr ⟨Or.inr h1, h2⟩
      · rintro (h | ⟨(h1 | h1), h2⟩)
        · exact Or.inl (Or.inl h)
        · exact Or.inl (Or.inr ⟨h1 ▸ h2, h1⟩)
        · exact Or.inr ⟨h1, h2⟩
  rw [haux bs []]
  simp [inBucket]

theorem bucketPairs_mem (l : List BM) (x y : BM) (hx : x ∈ l) (hy : y ∈ l)
    (hne : x.id ≠ y.id) :
    (min x.id y.id, max x.id y.id) ∈ bucketPairs l := by
  induction l with
  | nil => simp at hx
  | cons c rest ih =>
    unfold bucketPairs
    rcases List.mem_cons.mp hx with hxc | hxr
    · have hyr : y ∈ rest := by
        rcases List.mem_cons.mp hy with hyc | h
        · exact absurd (by rw [hxc, hyc]) hne
        · exact h
      apply List.mem_append.mpr
      left
      apply List.mem_map.mpr
      refine ⟨y, List.mem_filter.mpr ⟨hyr, by simp [← hxc]; exact fun h => hne h.symm⟩, ?_⟩
      rw [← hxc]
    · rcases List.mem_cons.mp hy with hyc | hyr
      · apply List.mem_append.mpr
        left
        apply List.mem_map.mpr
        refine ⟨x, List.mem_filter.mpr ⟨hxr, by simp [← hyc]; exact hne⟩, ?_⟩
        rw [← hyc, Nat.min_comm, Nat.max_comm]
      · exact List.mem_append.mpr (Or.inr (ih hxr hyr))

theorem setInsert_mem (s : List (Nat × Nat)) (q p : Nat × Nat) :
    p ∈ setInsert s q ↔ p ∈ s ∨ p = q := by
  unfold setInsert
  split_ifs with h
  · constructor
    · exact Or.inl
    · rintro (h1 | rfl)
      · exact h1
      · exact h
  · simp

theorem foldl_setInsert_mem (l : List (Nat × Nat)) (p : Nat × Nat) :
    ∀ acc : List (Nat × Nat),
    (p ∈ l.foldl setInsert acc ↔ p ∈ acc ∨ p ∈ l) := by
  induction l with
  | nil => intro acc; simp
  | cons q l ih =>
    intro acc
    rw [show (q :: l).foldl setInsert acc = l.foldl setInsert (setInsert acc q)
      from rfl]
    rw [ih, setInsert_mem]
    simp only [List.mem_cons]
    tauto

theorem pair_mem_candidates (bs : List BM) (b1 b2 : BM)
    (h1 : b1 ∈ bs) (h2 : b2 ∈ bs) (hne : b1.id ≠ b2.id)
    (hsh : sharesTri b1.title b2.title = true) :
    (min b1.id b2.id, max b1.id b2.id) ∈ candidatePairsOf (triIdx bs) := by
  obtain ⟨tri, htri1, htri2⟩ : ∃ tri, tri ∈ titleTrigrams b1.title ∧
      tri ∈ titleTrigrams b2.title := by
    unfold sharesTri at hsh
    rw [List.any_eq_true] at hsh
    obtain ⟨tr, hmem, hdec⟩ := hsh
    exact ⟨tr, hmem, by simpa using hdec⟩
  obtain ⟨vs, hvs, hb1⟩ := (triIdx_inBucket bs tri b1).mpr ⟨h1, htri1⟩
  obtain ⟨vs', hvs', hb2⟩ := (triIdx_inBucket bs tri b2).mpr ⟨h2, htri2⟩
  have hvv : vs = vs' :=
    uniqueKey_val (triIdx bs) (triIdx_keys_nodup bs) tri vs vs' hvs hvs'
  subst hvv
  unfold candidatePairsOf
  rw [foldl_setInsert_mem]
  right
  apply List.mem_flatMap.mpr
  exact ⟨(tri, vs), hvs, bucketPairs_mem vs b1 b2 hb1 hb2 hne⟩

/-- When both titles are already lower-case-canonical in whitespace
(stripped and collapsed), a Jaccard similarity at or above the `0.8`
threshold forces a shared index trigram. -/
theorem sim_shares (t1 t2 : PyStr)
    (hs1 : pyStrip (asciiLower t1) = asciiLower t1)
    (hc1 : wsCollapse (asciiLower t1) = asciiLower t1)
    (hs2 : pyStrip (asciiLower t2) = asciiLower t2)
    (hc2 : wsCollapse (asciiLower t2) = asciiLower t2)
    (hsim : similarityThreshold ≤ calculateTextSimilarity t1 t2) :
    sharesTri t1 t2 = true := by
  unfold similarityThreshold at hsim
  unfold calculateTextSimilarity at hsim
  by_cases h0 : t1 = [] ∨ t2 = []
  · rw [if_pos h0] at hsim
    norm_num at hsim
  · rw [if_neg h0] at hsim
    dsimp only at hsim
    rw [hc1, hc2] at hsim
    by_cases hg : getTrigrams (asciiLower t1) = ∅ ∨ getTrigrams (asciiLower t2) = ∅
    · rw [if_pos hg] at hsim
      norm_num at hsim
    · rw [if_neg hg] at hsim
      by_cases hu : 0 < (getTrigrams (asciiLower t1) ∪ getTrigrams (asciiLower t2)).card
      · rw [if_pos hu] at hsim
        have hipos : 0 < (getTrigrams (asciiLower t1) ∩ getTrigrams (asciiLower t2)).card := by
          by_contra hz
          have hz0 : (getTrigrams (asciiLower t1) ∩ getTrigrams (asciiLower t2)).card = 0 := by omega
          rw [hz0] at hsim
          rw [show ((0 : ℕ) : ℚ) = 0 from rfl, zero_div] at hsim
          norm_num at hsim
        obtain ⟨tri, htri⟩ := Finset.card_pos.mp hipos
        have ht1 : tri ∈ getTrigrams (asciiLower t1) := (Finset.mem_inter.mp htri).1
        have ht2 : tri ∈ getTrigrams (asciiLower t2) := (Finset.mem_inter.mp htri).2
        have hmem : ∀ (t : PyStr), pyStrip (asciiLower t) = asciiLower t →
            tri ∈ getTrigrams (asciiLower t) → tri ∈ titleTrigrams t := by
          intro t hst hmt
          unfold getTrigrams at hmt
          rw [hst] at hmt
          dsimp only at hmt
          split_ifs at hmt with hlen
          · simp at hmt
          · rw [List.mem_toFinset] at hmt
            exact hmt
        have hm1 := hmem t1 hs1 ht1
        have hm2 := hmem t2 hs2 ht2
        unfold sharesTri
        rw [List.any_eq_true]
        exact ⟨tri, hm1, by simpa using hm2⟩
      · rw [if_neg hu] at hsim
        norm_num at hsim

/-- **C4 counterexample.**  The trigram index slices the RAW lower-cased
title while the scorer collapses whitespace first: the titles `"a b"` and
`"a  b"` score `1.0 ≥ 0.8` yet share no index trigram, so with only these
two bookmarks the candidate-pair set is empty and the pair is missed. -/
theorem claim_C4_counterexample :
    similarityThreshold ≤
      calculateTextSimilarity (("a b").toList) (("a  b").toList) ∧
    sharesTri (("a b").toList) (("a  b").toList) = false ∧
    candidatePairsOf (triIdx
      [{bmBase with id := 51, userId := 7, title := ("a b").toList},
       {bmBase with id := 52, userId := 7, title := ("a  b").toList}]) = [] := by
  refine ⟨?_, by decide, by decide⟩
  unfold calculateTextSimilarity
  rw [if_neg (by decide)]
  dsimp only
  rw [show wsCollapse (asciiLower (("a  b").toList)) =
    wsCollapse (asciiLower (("a b").toList)) from by decide]
  rw [if_neg (by decide)]
  rw [Finset.inter_self, Finset.union_self]
  rw [if_pos (by decide)]
  rw [show (getTrigrams (wsCollapse (asciiLower (("a b").toList)))).card = 1
    from by decide]
  unfold similarityThreshold
  norm_num

/-- **C4** (corrected).  For bookmarks whose lower-cased titles are already
whitespace-canonical (stripped, single internal spaces), every pair at or
above the `0.8` similarity threshold does appear among the candidate
pairs generated from shared title trigrams; without that proviso the
pruning is NOT equivalent to exhaustive comparison (see the
counterexample, which beats the threshold with no shared raw trigram). -/
theorem claim_C4 (bs : List BM) (b1 b2 : BM)
    (h1 : b1 ∈ bs) (h2 : b2 ∈ bs) (hne : b1.id ≠ b2.id)
    (hs1 : pyStrip (asciiLower b1.title) = asciiLower b1.title)
    (hc1 : wsCollapse (asciiLower b1.title) = asciiLower b1.title)
    (hs2 : pyStrip (asciiLower b2.title) = asciiLower b2.title)
    (hc2 : wsCollapse (asciiLower b2.title) = asciiLower b2.title)
    (hsim : similarityThreshold ≤ calculateTextSimilarity b1.title b2.title) :
    (min b1.id b2.id, max b1.id b2.id) ∈ candidatePairsOf (triIdx bs) :=
  pair_mem_candidates bs b1 b2 h1 h2 hne
    (sim_shares b1.title b2.title hs1 hc1 hs2 hc2 hsim)

/-- Witness for C4: two identically-titled bookmarks. -/
theorem claim_C4_witness :
    (min ({bmBase with id := 51, userId := 7, title := ("abc").toList} : BM).id
        ({bmBase with id := 52, userId := 7, title := ("abc").toList} : BM).id,
     max ({bmBase with id := 51, userId := 7, title := ("abc").toList} : BM).id
        ({bmBase with id := 52, userId := 7, title := ("abc").toList} : BM).id) ∈
      candidatePairsOf (triIdx
        [{bmBase with id := 51, userId := 7, title := ("abc").toList},
         {bmBase with id := 52, userId := 7, title := ("abc").toList}]) :=
  claim_C4
    [{bmBase with id := 51, userId := 7, title := ("abc").toList},
     {bmBase with id := 52, userId := 7, title := ("abc").toList}]
    {bmBase with id := 51, userId := 7, title := ("abc").toList}
    {bmBase with id := 52, userId := 7, title := ("abc").toList}
    (by decide) (by decide) (by decide) (by decide) (by decide) (by decide)
    (by decide)
    (by
      show similarityThreshold ≤
        calculateTextSimilarity (("abc").toList) (("abc").toList)
      rw [calculateTextSimilarity_self (("abc").toList) (by decide)]
      unfold similarityThreshold
      norm_num)

theorem keyedInsert_inBucket (f : BM → Option PyStr)
    (d : List (PyStr × List BM)) (b : BM) (k : PyStr) (x : BM)
    (h : inBucket (keyedInsert f d b) k x) : inBucket d k x ∨ x = b := by
  unfold keyedInsert at h
  match hf : f b with
  | some u =>
    rw [hf] at h
    rcases (bmInsert_inBucket d u b k x).mp h with h1 | h1
    · exact Or.inl h1
    · exact Or.inr h1.2
  | none =>
    rw [hf] at h
    exact Or.inl h

theorem urlScan_vals (l : List BM) : ∀ nd bd nd' bd',
    urlScan l nd bd = .ok (nd', bd') →
    (∀ k x, inBucket nd' k x → inBucket nd k x ∨ x ∈ l) ∧
    (∀ k x, inBucket bd' k x → inBucket bd k x ∨ x ∈ l) := by
  induction l with
  | nil =>
    intro nd bd nd' bd' h
    have h2 := Except.ok.inj h
    have e1 : nd = nd' := congrArg Prod.fst h2
    have e2 : bd = bd' := congrArg Prod.snd h2
    subst e1
    subst e2
    exact ⟨fun k x hx => Or.inl hx, fun k x hx => Or.inl hx⟩
  | cons b rest ih =>
    intro nd bd nd' bd' h
    unfold urlScan at h
    match hp : urlparseE b.url with
    | .error e => rw [hp] at h; simp at h
    | .ok pr =>
      rw [hp] at h
      dsimp only at h
      obtain ⟨ihn, ihb⟩ := ih _ _ _ _ h
      constructor
      · intro k x hx
        rcases ihn k x hx with h1 | h1
        · rcases (bmInsert_inBucket nd (normalizeUrl b.url) b k x).mp h1 with h2 | h2
          · exact Or.inl h2
          · exact Or.inr (by simp [h2.2])
        · exact Or.inr (by simp [h1])
      · intro k x hx
        rcases ihb k x hx with h1 | h1
        · rcases keyedInsert_inBucket markerKey bd b k x h1 with h2 | h2
          · exact Or.inl h2
          · exact Or.inr (by simp [h2])
        · exact Or.inr (by simp [h1])

theorem bucketGroups_mem (nd : List (PyStr × List BM)) (g : DupGroup)
    (h : g ∈ bucketGroups nd) :
    g.isUrlKind = true ∧ 1 < g.bookmarks.length ∧
      ∀ x ∈ g.bookmarks, ∃ k, inBucket nd k x := by
  unfold bucketGroups at h
  rw [List.mem_map] at h
  obtain ⟨kv, hkv, hg⟩ := h
  obtain ⟨hkv1, hkv2⟩ := List.mem_filter.mp hkv
  subst hg
  refine ⟨rfl, by simpa using hkv2, ?_⟩
  intro x hx
  exact ⟨kv.1, kv.2, by simpa using hkv1, hx⟩

theorem markerFold_mem (bs : List BM) (l : List (PyStr × List BM)) :
    ∀ (acc : List DupGroup) (g : DupGroup),
    g ∈ l.foldl (markerStep bs) acc →
    g ∈ acc ∨ (g.isUrlKind = true ∧ 1 < g.bookmarks.length ∧
      ∀ x ∈ g.bookmarks, x ∈ bs ∨ ∃ kv ∈ l, x ∈ kv.2) := by
  induction l with
  | nil => intro acc g h; exact Or.inl h
  | cons kv0 rest ih =>
    intro acc g h
    rw [show (kv0 :: rest).foldl (markerStep bs) acc =
      rest.foldl (markerStep bs) (markerStep bs acc kv0) from rfl] at h
    rcases ih _ g h with h1 | h1
    · unfold markerStep at h1
      dsimp only at h1
      split_ifs at h1 with ho hc
      · rcases List.mem_append.mp h1 with h2 | h2
        · exact Or.inl h2
        · simp only [List.mem_singleton] at h2
          subst h2
          refine Or.inr ⟨rfl, hc.1, ?_⟩
          intro x hx
          rcases List.mem_append.mp hx with h3 | h3
          · exact Or.inl (List.mem_filter.mp h3).1
          · exact Or.inr ⟨kv0, by simp, h3⟩
      · exact Or.inl h1
      · exact Or.inl h1
    · refine Or.inr ⟨h1.1, h1.2.1, ?_⟩
      intro x hx
      rcases h1.2.2 x hx with h2 | ⟨kv, hkv, hx2⟩
      · exact Or.inl h2
      · exact Or.inr ⟨kv, by simp [hkv], hx2⟩

theorem detectUrl_post (bs : List BM) (gs : List DupGroup)
    (h : detectUrlDuplicates bs = .ok gs) :
    ∀ g ∈ gs, g.isUrlKind = true ∧ 1 < g.bookmarks.length ∧
      ∀ x ∈ g.bookmarks, x ∈ bs := by
  unfold detectUrlDuplicates at h
  match hs : urlScan bs [] [] with
  | .error e => rw [hs] at h; simp at h
  | .ok nb =>
    rw [hs] at h
    dsimp only at h
    have hgs := Except.ok.inj h
    subst hgs
    intro g hg
    obtain ⟨hvn, hvb⟩ := urlScan_vals bs [] [] nb.1 nb.2 (by rw [hs])
    rcases markerFold_mem bs nb.2 (bucketGroups nb.1) g hg with h1 | h1
    · obtain ⟨hk, hl, hm⟩ := bucketGroups_mem nb.1 g h1
      refine ⟨hk, hl, ?_⟩
      intro x hx
      obtain ⟨k, hbk⟩ := hm x hx
      rcases hvn k x hbk with h2 | h2
      · obtain ⟨vs, hvs, _⟩ := h2
        simp at hvs
      · exact h2
    · refine ⟨h1.1, h1.2.1, ?_⟩
      intro x hx
      rcases h1.2.2 x hx with h2 | ⟨kv, hkv, hx2⟩
      · exact h2
      · rcases hvb kv.1 x ⟨kv.2, by simpa using hkv, hx2⟩ with h3 | h3
        · obtain ⟨vs, hvs, _⟩ := h3
          simp at hvs
        · exact h3

theorem innerScan_sub (b1 : BM) (l : List BM) : ∀ pr : List Nat,
    ∀ b ∈ (innerScan b1 l pr).1, b ∈ l := by
  induction l with
  | nil => intro pr b hb; simp [innerScan] at hb
  | cons b2 rest ih =>
    intro pr b hb
    unfold innerScan at hb
    split_ifs at hb with h1 h2
    · exact List.mem_cons_of_mem _ (ih pr b hb)
    · dsimp only at hb
      rcases List.mem_cons.mp hb with rfl | hb2
      · simp
      · exact List.mem_cons_of_mem _ (ih _ b hb2)
    · exact List.mem_cons_of_mem _ (ih pr b hb)

theorem titleSmallLoop_sub (l : List BM) : ∀ (pr : List Nat) (g : List BM),
    g ∈ titleSmallLoop l pr → 1 < g.length ∧ ∀ b ∈ g, b ∈ l := by
  induction l with
  | nil => intro pr g hg; simp [titleSmallLoop] at hg
  | cons b1 rest ih =>
    intro pr g hg
    unfold titleSmallLoop at hg
    by_cases h1 : b1.id ∈ pr
    · rw [if_pos h1] at hg
      obtain ⟨hlen, hsub⟩ := ih pr g hg
      exact ⟨hlen, fun b hb => List.mem_cons_of_mem _ (hsub b hb)⟩
    · rw [if_neg h1] at hg
      dsimp only at hg
      by_cases h2 : (b1 :: (innerScan b1 rest (pr ++ [b1.id])).1).length > 1
      · rw [if_pos h2] at hg
        rcases List.mem_cons.mp hg with rfl | hg2
        · refine ⟨h2, ?_⟩
          intro b hb
          rcases List.mem_cons.mp hb with rfl | hb2
          · simp
          · exact List.mem_cons_of_mem _ (innerScan_sub b1 rest _ b hb2)
        · obtain ⟨hlen, hsub⟩ := ih _ g hg2
          exact ⟨hlen, fun b hb => List.mem_cons_of_mem _ (hsub b hb)⟩
      · rw [if_neg h2] at hg
        obtain ⟨hlen, hsub⟩ := ih _ g hg
        exact ⟨hlen, fun b hb => List.mem_cons_of_mem _ (hsub b hb)⟩

/-- `x` appears in some value list of a `Nat`-keyed group dict. -/
def inValsN (d : List (Nat × List BM)) (x : BM) : Prop :=
  ∃ kv ∈ d, x ∈ kv.2

theorem sgInsert_vals (d : List (Nat × List BM)) (k : Nat) (b1 b2 x : BM)
    (h : inValsN (sgInsert d k b1 b2) x) : inValsN d x ∨ x = b1 ∨ x = b2 := by
  induction d with
  | nil =>
    obtain ⟨kv, hkv, hx⟩ := h
    simp only [sgInsert, List.mem_singleton] at hkv
    subst hkv
    simp only [List.mem_cons, List.not_mem_nil, or_false] at hx
    exact Or.inr hx
  | cons kv0 rest ih =>
    match kv0 with
    | (k0, vs0) =>
      obtain ⟨kv, hkv, hx⟩ := h
      unfold sgInsert at hkv
      split_ifs at hkv with hk
      · rcases List.mem_cons.mp hkv with he | ht
        · subst he
          rcases List.mem_append.mp hx with h1 | h1
          · exact Or.inl ⟨(k0, vs0), by simp, h1⟩
          · simp only [List.mem_cons, List.not_mem_nil, or_false] at h1
            exact Or.inr h1
        · exact Or.inl ⟨kv, List.mem_cons_of_mem _ ht, hx⟩
      · rcases List.mem_cons.mp hkv with he | ht
        · subst he
          exact Or.inl ⟨(k0, vs0), by simp, hx⟩
        · rcases ih ⟨kv, ht, hx⟩ with h1 | h1
          · obtain ⟨kv', hkv', hx'⟩ := h1
            exact Or.inl ⟨kv', List.mem_cons_of_mem _ hkv', hx'⟩
          · exact Or.inr h1

theorem simGroups_vals (bs : List BM) (cps : List (Nat × Nat)) (x : BM)
    (h : inValsN (simGroups bs cps) x) :
    ∃ p ∈ cps, x = dictGet bs p.1 ∨ x = dictGet bs p.2 := by
  unfold simGroups at h
  have haux : ∀ (l : List (Nat × Nat)) (d : List (Nat × List BM)),
      inValsN (l.foldl (fun d p =>
        if similarityThreshold ≤
            calculateTextSimilarity (dictGet bs p.1).title (dictGet bs p.2).title
        then sgInsert d p.1 (dictGet bs p.1) (dictGet bs p.2)
        else d) d) x →
      inValsN d x ∨ ∃ p ∈ l, x = dictGet bs p.1 ∨ x = dictGet bs p.2 := by
    intro l
    induction l with
    | nil => intro d hd; exact Or.inl hd
    | cons p l ih =>
      intro d hd
      rw [List.foldl_cons] at hd
      rcases ih _ hd with h1 | h1
      · split_ifs at h1 with hc
        · rcases sgInsert_vals d p.1 _ _ x h1 with h2 | h2
          · exact Or.inl h2
          · exact Or.inr ⟨p, by simp, h2⟩
        · exact Or.inl h1
      · obtain ⟨p', hp', h2⟩ := h1
        exact Or.inr ⟨p', List.mem_cons_of_mem _ hp', h2⟩
  rcases haux cps [] h with h1 | h1
  · obtain ⟨kv, hkv, _⟩ := h1
    simp at hkv
  · exact h1

theorem dedupByIdScan_sub (l : List BM) : ∀ (seen : List Nat) (b : BM),
    b ∈ dedupByIdScan l seen → b ∈ l := by
  induction l with
  | nil => intro seen b hb; simp [dedupByIdScan] at hb
  | cons c rest ih =>
    intro seen b hb
    unfold dedupByIdScan at hb
    split_ifs at hb with h1
    · exact List.mem_cons_of_mem _ (ih seen b hb)
    · rcases List.mem_cons.mp hb with rfl | hb2
      · simp
      · exact List.mem_cons_of_mem _ (ih _ b hb2)

theorem bucketPairs_chars (l : List BM) (p : Nat × Nat)
    (h : p ∈ bucketPairs l) :
    ∃ x ∈ l, ∃ y ∈ l, p = (min x.id y.id, max x.id y.id) := by
  induction l with
  | nil => simp [bucketPairs] at h
  | cons c rest ih =>
    unfold bucketPairs at h
    rcases List.mem_append.mp h with h1 | h1
    · rw [List.mem_map] at h1
      obtain ⟨y, hy, hp⟩ := h1
      exact ⟨c, by simp, y,
        List.mem_cons_of_mem _ (List.mem_filter.mp hy).1, hp.symm⟩
    · obtain ⟨x, hx, y, hy, hp⟩ := ih h1
      exact ⟨x, List.mem_cons_of_mem _ hx, y, List.mem_cons_of_mem _ hy, hp⟩

theorem dictGet_mem (bs : List BM) (i : Nat) (h : i ∈ bs.map BM.id) :
    dictGet bs i ∈ bs := by
  unfold dictGet
  match hf : bs.reverse.find? (fun b => b.id = i) with
  | some b =>
    rw [hf]
    have hb := List.mem_of_find?_eq_some hf
    rw [List.mem_reverse] at hb
    exact hb
  | none =>
    exfalso
    rw [List.mem_map] at h
    obtain ⟨b, hb, hbi⟩ := h
    have := List.find?_eq_none.mp hf b (List.mem_reverse.mpr hb)
    simp [hbi] at this

theorem candidate_ids (bs : List BM) (p : Nat × Nat)
    (h : p ∈ candidatePairsOf (triIdx bs)) :
    p.1 ∈ bs.map BM.id ∧ p.2 ∈ bs.map BM.id := by
  unfold candidatePairsOf at h
  rw [foldl_setInsert_mem] at h
  rcases h with h | h
  · simp at h
  · rw [List.mem_flatMap] at h
    obtain ⟨kv, hkv, hp⟩ := h
    obtain ⟨x, hx, y, hy, hpe⟩ := bucketPairs_chars kv.2 p hp
    have hxb : x ∈ bs :=
      ((triIdx_inBucket bs kv.1 x).mp ⟨kv.2, by simpa using hkv, hx⟩).1
    have hyb : y ∈ bs :=
      ((triIdx_inBucket bs kv.1 y).mp ⟨kv.2, by simpa using hkv, hy⟩).1
    subst hpe
    constructor
    · show min x.id y.id ∈ bs.map BM.id
      rcases le_total x.id y.id with h1 | h1
      · rw [min_eq_left h1]
        exact List.mem_map_of_mem BM.id hxb
      · rw [min_eq_right h1]
        exact List.mem_map_of_mem BM.id hyb
    · show max x.id y.id ∈ bs.map BM.id
      rcases le_total x.id y.id with h1 | h1
      · rw [max_eq_right h1]
        exact List.mem_map_of_mem BM.id hyb
      · rw [max_eq_left h1]
        exact List.mem_map_of_mem BM.id hxb

theorem titleEfficient_sub (bs : List BM) (g : List BM)
    (hg : g ∈ titleEfficient bs) : 1 < g.length ∧ ∀ b ∈ g, b ∈ bs := by
  unfold titleEfficient at hg
  rw [List.mem_filterMap] at hg
  obtain ⟨kv, hkv, hsome⟩ := hg
  split_ifs at hsome with hlen
  · have hge := Option.some.inj hsome
    subst hge
    refine ⟨hlen, ?_⟩
    intro b hb
    have hb2 : b ∈ kv.2 := dedupByIdScan_sub kv.2 [] b hb
    obtain ⟨p, hp, hd⟩ := simGroups_vals bs _ b ⟨kv, hkv, hb2⟩
    obtain ⟨h1, h2⟩ := candidate_ids bs p hp
    rcases hd with rfl | rfl
    · exact dictGet_mem bs p.1 h1
    · exact dictGet_mem bs p.2 h2

theorem detectTitle_sub (titled : List BM) (g : List BM)
    (hg : g ∈ detectTitleDuplicates titled) : ∀ b ∈ g, b ∈ titled := by
  unfold detectTitleDuplicates at hg
  split_ifs at hg with hb
  · exact (titleEfficient_sub titled g hg).2
  · exact (titleSmallLoop_sub titled [] g hg).2

/-- The concrete marker bookmark exhibiting the degenerate group. -/
def bmC3m : BM :=
  {bmBase with id := 31, userId := 7, url := ("https://e.com/?_dup=1").toList}

/-- **C3 counterexample.**  A single bookmark carrying a `_dup` marker is
its own "original": the marker-combination path returns the one-element
store as a duplicate group listing the SAME bookmark twice, so a returned
group need not have two distinct member bookmarks. -/
theorem claim_C3_counterexample :
    detectDuplicates [bmC3m] 7 =
      .ok [⟨true, ("https://e.com/").toList, [bmC3m, bmC3m]⟩] ∧
    ¬ ([bmC3m, bmC3m].map BM.id).Nodup :=
  ⟨by decide, by decide⟩

/-- **C3** (corrected).  Every group returned by `detect_duplicates` has
more than one ENTRY in its member list, every member belongs to the
requesting owner and is non-archived, and URL-kind and title-kind groups
of the same result are id-disjoint; but a group's entries need not be two
DISTINCT bookmarks — the `_dup` marker path can list one bookmark twice
(see the counterexample). -/
theorem claim_C3 (store : List BM) (uid : Nat) (groups : List DupGroup)
    (h : detectDuplicates store uid = .ok groups) :
    (∀ g ∈ groups, 1 < g.bookmarks.length) ∧
    (∀ g ∈ groups, ∀ b ∈ g.bookmarks, b.userId = uid ∧ b.isArchived = false) ∧
    (∀ g ∈ groups, ∀ g' ∈ groups, g.isUrlKind = true → g'.isUrlKind = false →
      ∀ b ∈ g.bookmarks, ∀ b' ∈ g'.bookmarks, b.id ≠ b'.id) := by
  unfold detectDuplicates at h
  match hu : detectUrlDuplicates ((qsByCreated store).filter
      (fun b => b.userId = uid ∧ b.isArchived = false)) with
  | .error e => rw [hu] at h; simp at h
  | .ok urlGs =>
    rw [hu] at h
    dsimp only at h
    have hgr := Except.ok.inj h
    subst hgr
    have hbs : ∀ b ∈ (qsByCreated store).filter
        (fun b => b.userId = uid ∧ b.isArchived = false),
        b.userId = uid ∧ b.isArchived = false := by
      intro b hb
      have := (List.mem_filter.mp hb).2
      simpa using this
    have hpost := detectUrl_post _ urlGs hu
    have htpart : ∀ g ∈ (detectTitleDuplicates
        (((qsByCreated store).filter
          (fun b => b.userId = uid ∧ b.isArchived = false)).filter
            (fun b => b.title ≠ []))).filterMap (fun g =>
          if (g.filter (fun b =>
              b.id ∉ urlGs.flatMap (fun g2 => g2.bookmarks.map BM.id))).length > 1
          then some (⟨false, [],
            g.filter (fun b =>
              b.id ∉ urlGs.flatMap (fun g2 => g2.bookmarks.map BM.id))⟩ : DupGroup)
          else none),
        g.isUrlKind = false ∧ 1 < g.bookmarks.length ∧
          (∀ b ∈ g.bookmarks, b ∈ (qsByCreated store).filter
            (fun b => b.userId = uid ∧ b.isArchived = false)) ∧
          (∀ b ∈ g.bookmarks,
            b.id ∉ urlGs.flatMap (fun g2 => g2.bookmarks.map BM.id)) := by
      intro g hg
      rw [List.mem_filterMap] at hg
      obtain ⟨g0, hg0, hsome⟩ := hg
      split_ifs at hsome with hlen
      · have hge := Option.some.inj hsome
        subst hge
        refine ⟨rfl, hlen, ?_, ?_⟩
        · intro b hb
          have hb1 : b ∈ g0 := (List.mem_filter.mp hb).1
          have hb2 := detectTitle_sub _ g0 hg0 b hb1
          exact (List.mem_filter.mp hb2).1
        · intro b hb
          have := (List.mem_filter.mp hb).2
          simpa using this
    refine ⟨?_, ?_, ?_⟩
    · intro g hg
      rcases List.mem_append.mp hg with h1 | h1
      · exact (hpost g h1).2.1
      · exact (htpart g h1).2.1
    · intro g hg b hb
      rcases List.mem_append.mp hg with h1 | h1
      · exact hbs b ((hpost g h1).2.2 b hb)
      · exact hbs b ((htpart g h1).2.2.1 b hb)
    · intro g hg g' hg' hk hk' b hb b' hb'
      have hgu : g ∈ urlGs := by
        rcases List.mem_append.mp hg with h1 | h1
        · exact h1
        · rw [(htpart g h1).1] at hk
          exact absurd hk (by simp)
      have hbid' : b'.id ∉ urlGs.flatMap (fun g2 => g2.bookmarks.map BM.id) := by
        rcases List.mem_append.mp hg' with h1 | h1
        · rw [(hpost g' h1).1] at hk'
          exact absurd hk' (by simp)
        · exact (htpart g' h1).2.2.2 b' hb'
      have hbid : b.id ∈ urlGs.flatMap (fun g2 => g2.bookmarks.map BM.id) :=
        List.mem_flatMap.mpr ⟨g, hgu, List.mem_map_of_mem BM.id hb⟩
      intro he
      exact hbid' (he ▸ hbid)

/-- Concrete store for the C3 witness: two same-URL bookmarks. -/
def stC3w : List BM :=
  [{bmBase with id := 61, userId := 7, url := ("https://x.com/a").toList},
   {bmBase with id := 62, userId := 7, url := ("https://x.com/a").toList}]

/-- Witness for C3: a concrete two-bookmark detection run. -/
theorem claim_C3_witness :
    (∀ g ∈ (detectDuplicates stC3w 7).toOption.getD [],
      1 < g.bookmarks.length) ∧
    (∀ g ∈ (detectDuplicates stC3w 7).toOption.getD [],
      ∀ b ∈ g.bookmarks, b.userId = 7 ∧ b.isArchived = false) ∧
    (∀ g ∈ (detectDuplicates stC3w 7).toOption.getD [],
      ∀ g' ∈ (detectDuplicates stC3w 7).toOption.getD [],
      g.isUrlKind = true → g'.isUrlKind = false →
      ∀ b ∈ g.bookmarks, ∀ b' ∈ g'.bookmarks, b.id ≠ b'.id) :=
  claim_C3 stC3w 7 _ (by decide)

/-- The value list stored under key `k` (empty when absent). -/
def entryOf : List (PyStr × List BM) → PyStr → List BM
  | [], _ => []
  | kv :: rest, k => if kv.1 = k then kv.2 else entryOf rest k

theorem bmInsert_entryOf (d : List (PyStr × List BM)) (k : PyStr) (b : BM)
    (k' : PyStr) :
    entryOf (bmInsert d k b) k' =
      if k' = k then entryOf d k' ++ [b] else entryOf d k' := by
  induction d with
  | nil =>
    by_cases h : k' = k
    · subst h
      simp [bmInsert, entryOf]
    · have h2 : ¬(k = k') := fun he => h he.symm
      simp [bmInsert, entryOf, h, h2]
  | cons kv0 rest ih =>
    match kv0 with
    | (k0, vs0) =>
      unfold bmInsert
      by_cases hk : k0 = k
      · subst hk
        rw [if_pos rfl]
        by_cases h' : k' = k0
        · subst h'
          simp [entryOf]
        · have h2 : ¬(k0 = k') := fun he => h' he.symm
          simp [entryOf, h', h2]
      · rw [if_neg hk]
        rw [show entryOf ((k0, vs0) :: bmInsert rest k b) k' =
          if k0 = k' then vs0 else entryOf (bmInsert rest k b) k' from rfl]
        rw [show entryOf ((k0, vs0) :: rest) k' =
          if k0 = k' then vs0 else entryOf rest k' from rfl]
        by_cases h' : k0 = k'
        · rw [if_pos h', if_pos h']
          rw [if_neg (fun he => hk (h'.trans he))]
        · rw [if_neg h', if_neg h', ih]

theorem keyedInsert_entryOf (f : BM → Option PyStr)
    (d : List (PyStr × List BM)) (b : BM) (k : PyStr) :
    entryOf (keyedInsert f d b) k =
      if f b = some k then entryOf d k ++ [b] else entryOf d k := by
  unfold keyedInsert
  match hf : f b with
  | some u =>
    rw [bmInsert_entryOf]
    by_cases h : k = u
    · subst h
      simp
    · rw [if_neg h, if_neg (fun he => h (Option.some.inj he).symm)]
  | none => simp

theorem keyedFold_entry (f : BM → Option PyStr) (l : List BM) :
    ∀ (d : List (PyStr × List BM)) (k : PyStr),
    entryOf (l.foldl (keyedInsert f) d) k =
      entryOf d k ++ l.filter (fun b => f b = some k) := by
  induction l with
  | nil => intro d k; simp
  | cons b l ih =>
    intro d k
    rw [show (b :: l).foldl (keyedInsert f) d =
      l.foldl (keyedInsert f) (keyedInsert f d b) from rfl]
    rw [ih, keyedInsert_entryOf]
    by_cases h : f b = some k
    · rw [if_pos h, List.filter_cons_of_pos (by simp [h]), List.append_assoc]
      rfl
    · rw [if_neg h, List.filter_cons_of_neg (by simp [h])]

theorem bmInsert_vals_ne (d : List (PyStr × List BM)) (k : PyStr) (b : BM)
    (h : ∀ kv ∈ d, kv.2 ≠ []) : ∀ kv ∈ bmInsert d k b, kv.2 ≠ [] := by
  induction d with
  | nil =>
    intro kv hkv
    simp only [bmInsert, List.mem_singleton] at hkv
    subst hkv
    simp
  | cons kv0 rest ih =>
    match kv0 with
    | (k0, vs0) =>
      intro kv hkv
      unfold bmInsert at hkv
      split_ifs at hkv with hk
      · rcases List.mem_cons.mp hkv with he | ht
        · subst he
          simp
        · exact h kv (List.mem_cons_of_mem _ ht)
      · rcases List.mem_cons.mp hkv with he | ht
        · subst he
          exact h (k0, vs0) (by simp)
        · exact ih (fun kv2 hkv2 => h kv2 (List.mem_cons_of_mem _ hkv2)) kv ht

theorem keyedFold_vals_ne (f : BM → Option PyStr) (l : List BM) :
    ∀ d : List (PyStr × List BM), (∀ kv ∈ d, kv.2 ≠ []) →
    ∀ kv ∈ l.foldl (keyedInsert f) d, kv.2 ≠ [] := by
  induction l with
  | nil => intro d h; exact h
  | cons b l ih =>
    intro d h
    apply ih
    unfold keyedInsert
    match hf : f b with
    | some u => exact bmInsert_vals_ne d u b h
    | none => exact h

theorem keyedFold_keys_nodup (f : BM → Option PyStr) (l : List BM) :
    ∀ d : List (PyStr × List BM), (d.map Prod.fst).Nodup →
    ((l.foldl (keyedInsert f) d).map Prod.fst).Nodup := by
  induction l with
  | nil => intro d h; exact h
  | cons b l ih =>
    intro d h
    apply ih
    unfold keyedInsert
    match hf : f b with
    | some u => exact bmInsert_keys_nodup d u b h
    | none => exact h

theorem entryOf_of_mem (d : List (PyStr × List BM))
    (h : (d.map Prod.fst).Nodup) (kv : PyStr × List BM) (hkv : kv ∈ d) :
    entryOf d kv.1 = kv.2 := by
  induction d with
  | nil => simp at hkv
  | cons kv0 rest ih =>
    simp only [List.map_cons, List.nodup_cons] at h
    rcases List.mem_cons.mp hkv with he | ht
    · subst he
      simp [entryOf]
    · have hne : kv0.1 ≠ kv.1 := by
        intro he
        exact h.1 (he ▸ List.mem_map_of_mem Prod.fst ht)
      unfold entryOf
      rw [if_neg hne]
      exact ih h.2 ht

theorem mem_of_entryOf_ne (d : List (PyStr × List BM)) (k : PyStr)
    (h : entryOf d k ≠ []) : ∃ kv ∈ d, kv.1 = k ∧ kv.2 = entryOf d k := by
  induction d with
  | nil => simp [entryOf] at h
  | cons kv0 rest ih =>
    unfold entryOf at h ⊢
    by_cases hk : kv0.1 = k
    · rw [if_pos hk] at h ⊢
      exact ⟨kv0, by simp, hk, rfl⟩
    · rw [if_neg hk] at h ⊢
      obtain ⟨kv, hkv, h1, h2⟩ := ih h
      exact ⟨kv, List.mem_cons_of_mem _ hkv, h1, h2⟩

theorem urlScan_ok (l : List BM) : ∀ nd bd : List (PyStr × List BM),
    (∀ b ∈ l, (urlparseE b.url).toOption.isSome = true) →
    urlScan l nd bd = .ok
      (l.foldl (keyedInsert (fun b => some (normalizeUrl b.url))) nd,
       l.foldl (keyedInsert markerKey) bd) := by
  induction l with
  | nil => intro nd bd _; rfl
  | cons b rest ih =>
    intro nd bd h
    have hb := h b (by simp)
    unfold urlScan
    match hp : urlparseE b.url with
    | .error e =>
      rw [hp] at hb
      simp [Except.toOption] at hb
    | .ok pr =>
      dsimp only
      exact ih _ _ (fun b2 hb2 => h b2 (List.mem_cons_of_mem _ hb2))

theorem ndFold_entry (bs : List BM) (k : PyStr) :
    entryOf (bs.foldl (keyedInsert (fun b => some (normalizeUrl b.url))) []) k =
      bs.filter (fun x => normalizeUrl x.url = k) := by
  rw [keyedFold_entry]
  rw [show entryOf [] k = [] from rfl, List.nil_append]
  apply List.filter_congr
  intro b _
  simp

theorem bdFold_entry (bs : List BM) (k : PyStr) :
    entryOf (bs.foldl (keyedInsert markerKey) []) k =
      bs.filter (fun x => markerKey x = some k) := by
  rw [keyedFold_entry]
  rw [show entryOf [] k = [] from rfl, List.nil_append]

theorem bucketGroups_nd_mem (bs : List BM) (g : DupGroup)
    (hg : g ∈ bucketGroups
      (bs.foldl (keyedInsert (fun b => some (normalizeUrl b.url))) [])) :
    g = ⟨true, g.key, bs.filter (fun x => normalizeUrl x.url = g.key)⟩ ∧
      1 < g.bookmarks.length := by
  unfold bucketGroups at hg
  rw [List.mem_map] at hg
  obtain ⟨kv, hkv, hge⟩ := hg
  obtain ⟨hkv1, hkv2⟩ := List.mem_filter.mp hkv
  have hkey : entryOf (bs.foldl (keyedInsert (fun b => some (normalizeUrl b.url))) []) kv.1 = kv.2 :=
    entryOf_of_mem _ (keyedFold_keys_nodup _ bs [] (by simp)) kv hkv1
  rw [ndFold_entry] at hkey
  subst hge
  refine ⟨?_, by simpa using hkv2⟩
  show (⟨true, kv.1, kv.2⟩ : DupGroup) = ⟨true, kv.1, _⟩
  rw [← hkey]

theorem bucketGroups_nd_complete (bs : List BM) (k : PyStr)
    (h : 1 < (bs.filter (fun x => normalizeUrl x.url = k)).length) :
    (⟨true, k, bs.filter (fun x => normalizeUrl x.url = k)⟩ : DupGroup) ∈
      bucketGroups
        (bs.foldl (keyedInsert (fun b => some (normalizeUrl b.url))) []) := by
  have hne : entryOf (bs.foldl (keyedInsert (fun b => some (normalizeUrl b.url))) []) k ≠ [] := by
    rw [ndFold_entry]
    intro he
    rw [he] at h
    simp at h
  obtain ⟨kv, hkv, hk1, hk2⟩ := mem_of_entryOf_ne _ k hne
  rw [ndFold_entry] at hk2
  unfold bucketGroups
  rw [List.mem_map]
  refine ⟨kv, List.mem_filter.mpr ⟨hkv, by simp [hk2, h]⟩, ?_⟩
  rw [show kv = (kv.1, kv.2) from rfl, hk1, hk2]

theorem markerStep_skip (bs : List BM) (G : List DupGroup)
    (kv : PyStr × List BM)
    (hgrp : ∃ g ∈ G,
      g.bookmarks = bs.filter (fun b => normalizeUrl b.url = kv.1))
    (hsub : ∀ b ∈ kv.2, b ∈ bs ∧ normalizeUrl b.url = kv.1) :
    markerStep bs G kv = G := by
  obtain ⟨g, hg, hgb⟩ := hgrp
  unfold markerStep
  dsimp only
  by_cases ho : bs.filter (fun b => normalizeUrl b.url = kv.1) ≠ []
  · rw [if_pos ho]
    have hany : (G.any (fun g2 =>
        (bs.filter (fun b => normalizeUrl b.url = kv.1) ++ kv.2).all
          (fun b => g2.bookmarks.any (fun x => x.id = b.id)))) = true := by
      rw [List.any_eq_true]
      refine ⟨g, hg, ?_⟩
      rw [List.all_eq_true]
      intro b hb
      rw [List.any_eq_true]
      refine ⟨b, ?_, by simp⟩
      rw [hgb]
      rcases List.mem_append.mp hb with h1 | h1
      · exact h1
      · obtain ⟨hbs2, hnorm⟩ := hsub b h1
        exact List.mem_filter.mpr ⟨hbs2, by simp [hnorm]⟩
    have hcond : ¬((bs.filter (fun b => normalizeUrl b.url = kv.1) ++ kv.2).length > 1 ∧
        ¬(G.any (fun g2 =>
          (bs.filter (fun b => normalizeUrl b.url = kv.1) ++ kv.2).all
            (fun b => g2.bookmarks.any (fun x => x.id = b.id))) = true)) := by
      rintro ⟨_, hneg⟩
      exact hneg hany
    rw [if_neg hcond]
  · rw [if_neg ho]

theorem markerFold_id (bs : List BM) (l : List (PyStr × List BM))
    (G : List DupGroup) (h : ∀ kv ∈ l, markerStep bs G kv = G) :
    l.foldl (markerStep bs) G = G := by
  induction l with
  | nil => rfl
  | cons kv0 rest ih =>
    rw [show (kv0 :: rest).foldl (markerStep bs) G =
      rest.foldl (markerStep bs) (markerStep bs G kv0) from rfl]
    rw [h kv0 (by simp)]
    exact ih (fun kv hkv => h kv (List.mem_cons_of_mem _ hkv))

/-- **C10** (corrected).  When every bookmark's raw URL parses, every
`_dup`-marked bookmark's cleaned base URL re-normalises to the bookmark's
own normalized URL, and every marked bookmark's normalized bucket already
has two or more members, the URL-kind groups are exactly the
normalized-URL buckets with at least two entries and are pairwise
id-disjoint — the subset check then suppresses every marker-based group.
Without those provisos the claim fails: the marker path can emit an extra
overlapping group (see the counterexample). -/
theorem claim_C10 (bs : List BM)
    (hnd : (bs.map BM.id).Nodup)
    (hparse : ∀ b ∈ bs, (urlparseE b.url).toOption.isSome = true)
    (hcomm : ∀ b ∈ bs,
      (markerKey b).getD (normalizeUrl b.url) = normalizeUrl b.url)
    (hbuck : ∀ b ∈ bs, (markerKey b).isSome = true →
      1 < (bs.filter (fun x => normalizeUrl x.url = normalizeUrl b.url)).length) :
    ∃ gs, detectUrlDuplicates bs = .ok gs ∧
      (∀ g ∈ gs, g.isUrlKind = true ∧
        g.bookmarks = bs.filter (fun x => normalizeUrl x.url = g.key) ∧
        1 < g.bookmarks.length) ∧
      (∀ k : PyStr, 1 < (bs.filter (fun x => normalizeUrl x.url = k)).length →
        ∃ g ∈ gs, g.key = k) ∧
      (∀ g ∈ gs, ∀ g' ∈ gs, g ≠ g' →
        ∀ x ∈ g.bookmarks, ∀ y ∈ g'.bookmarks, x.id ≠ y.id) := by
  have hscan := urlScan_ok bs [] [] hparse
  have hmk : ∀ kv ∈ bs.foldl (keyedInsert markerKey) [],
      markerStep bs (bucketGroups
        (bs.foldl (keyedInsert (fun b => some (normalizeUrl b.url))) [])) kv =
      bucketGroups
        (bs.foldl (keyedInsert (fun b => some (normalizeUrl b.url))) []) := by
    intro kv hkv
    have hkeys := keyedFold_keys_nodup markerKey bs [] (by simp)
    have hent : kv.2 = bs.filter (fun x => markerKey x = some kv.1) := by
      rw [← bdFold_entry bs kv.1]
      exact (entryOf_of_mem _ hkeys kv hkv).symm
    have hsub : ∀ b ∈ kv.2, b ∈ bs ∧ normalizeUrl b.url = kv.1 := by
      intro b hb
      rw [hent] at hb
      obtain ⟨hbs2, hmkb⟩ := List.mem_filter.mp hb
      simp only [decide_eq_true_eq] at hmkb
      refine ⟨hbs2, ?_⟩
      have hcb := hcomm b hbs2
      rw [hmkb] at hcb
      simpa using hcb.symm
    have hvne : kv.2 ≠ [] := keyedFold_vals_ne markerKey bs [] (by simp) kv hkv
    obtain ⟨b0, hb0⟩ : ∃ b0, b0 ∈ kv.2 := List.exists_mem_of_ne_nil kv.2 hvne
    obtain ⟨hb0s, hb0n⟩ := hsub b0 hb0
    have hb0m : (markerKey b0).isSome = true := by
      rw [hent] at hb0
      have hmb := (List.mem_filter.mp hb0).2
      simp only [decide_eq_true_eq] at hmb
      rw [hmb]
      rfl
    have hlen := hbuck b0 hb0s hb0m
    rw [hb0n] at hlen
    apply markerStep_skip
    · exact ⟨⟨true, kv.1, bs.filter (fun x => normalizeUrl x.url = kv.1)⟩,
        bucketGroups_nd_complete bs kv.1 hlen, rfl⟩
    · exact hsub
  refine ⟨bucketGroups
      (bs.foldl (keyedInsert (fun b => some (normalizeUrl b.url))) []),
    ?_, ?_, ?_, ?_⟩
  · unfold detectUrlDuplicates
    rw [hscan]
    dsimp only
    rw [markerFold_id bs _ _ hmk]
  · intro g hg
    obtain ⟨hge, hlen⟩ := bucketGroups_nd_mem bs g hg
    refine ⟨?_, ?_, hlen⟩
    · rw [hge]
    · have hxb : g.bookmarks =
          bs.filter (fun t => normalizeUrl t.url = g.key) :=
        congrArg DupGroup.bookmarks hge
      exact hxb
  · intro k hk
    exact ⟨⟨true, k, bs.filter (fun x => normalizeUrl x.url = k)⟩,
      bucketGroups_nd_complete bs k hk, rfl⟩
  · intro g hg g' hg' hne x hx y hy
    obtain ⟨hge, _⟩ := bucketGroups_nd_mem bs g hg
    obtain ⟨hge', _⟩ := bucketGroups_nd_mem bs g' hg'
    have hxb : g.bookmarks = bs.filter (fun t => normalizeUrl t.url = g.key) :=
      congrArg DupGroup.bookmarks hge
    have hyb : g'.bookmarks = bs.filter (fun t => normalizeUrl t.url = g'.key) :=
      congrArg DupGroup.bookmarks hge'
    rw [hxb] at hx
    rw [hyb] at hy
    obtain ⟨hx1, hx2⟩ := List.mem_filter.mp hx
    obtain ⟨hy1, hy2⟩ := List.mem_filter.mp hy
    simp only [decide_eq_true_eq] at hx2 hy2
    intro he
    have hxy : x = y := List.inj_on_of_nodup_map hnd hx1 hy1 he
    apply hne
    have hkeq : g.key = g'.key := by
      rw [← hx2, ← hy2, hxy]
    rw [hge, hge', hkeq]

/-- The three bookmarks of the C10 counterexample: two upper-case-scheme
`_dup`-marked URLs and their lower-case original. -/
def bmC10a : BM :=
  {bmBase with id := 41, userId := 7, url := ("HTTP://a/x?_dup=1").toList}

def bmC10b : BM :=
  {bmBase with id := 42, userId := 7, url := ("HTTP://a/x?_dup=2").toList}

def bmC10c : BM :=
  {bmBase with id := 43, userId := 7, url := ("http://a/x").toList}

/-- **C10 counterexample.**  `normalize_url` is case-sensitive about the
scheme it recognises, so the upper-case-scheme marker URLs normalise to
`https://http:/a/x` while their cleaned base URL normalises to
`http://a/x`: the marker group `[43, 41, 42]` is NOT a subset of the
bucket group `[41, 42]`, both are returned, they overlap in ids 41 and
42, and the marker group is not a normalized-URL bucket. -/
theorem claim_C10_counterexample :
    detectUrlDuplicates [bmC10a, bmC10b, bmC10c] =
      .ok [⟨true, ("https://http:/a/x").toList, [bmC10a, bmC10b]⟩,
           ⟨true, ("http://a/x").toList, [bmC10c, bmC10a, bmC10b]⟩] ∧
    (41 : Nat) ∈ [bmC10a, bmC10b].map BM.id ∧
    (41 : Nat) ∈ [bmC10c, bmC10a, bmC10b].map BM.id ∧
    ¬ normalizeUrl bmC10a.url = ("http://a/x").toList :=
  ⟨by decide, by decide, by decide, by decide⟩

/-- Witness for C10: two marker-free bookmarks sharing a normalized URL. -/
theorem claim_C10_witness :
    ∃ gs, detectUrlDuplicates stC3w = .ok gs ∧
      (∀ g ∈ gs, g.isUrlKind = true ∧
        g.bookmarks = stC3w.filter (fun x => normalizeUrl x.url = g.key) ∧
        1 < g.bookmarks.length) ∧
      (∀ k : PyStr, 1 < (stC3w.filter
          (fun x => normalizeUrl x.url = k)).length →
        ∃ g ∈ gs, g.key = k) ∧
      (∀ g ∈ gs, ∀ g' ∈ gs, g ≠ g' →
        ∀ x ∈ g.bookmarks, ∀ y ∈ g'.bookmarks, x.id ≠ y.id) :=
  claim_C10 stC3w (by decide) (by decide) (by decide) (by decide)
